import Mathlib

/-!
Shallow embedding of the combinational logic-circuit engine
(`src/core/engine.ts`, provided as `src/unnamed/part_000`) and of the
synthesis engine (`src/core/synthesis.ts`).

Modelling conventions:
* A JS `Map<string, CircuitNode>` is modelled as an insertion-ordered
  association list of nodes keyed by `CircuitNode.id` (`Map.set` updates an
  existing key in place, otherwise appends; iteration follows insertion
  order, exactly as in JS).
* The TS code stores direct object references in `inputs` / `outputs`;
  since all mutation in the evaluation/synthesis claims goes through the
  circuit's id-keyed map with pairwise-distinct ids, we store node ids and
  resolve them through the map.  (Claim C10 about raw object identity is
  treated separately with an arena model further below.)
* `throw new CycleDetectedError()` is modelled by returning `none`; the
  TS engine performs no mutation before the throw, so the thrown case
  carries no state change.
* Machine integers: JS in-degree counters are modelled as `Int` (they are
  ordinary doubles holding small integers; subtraction may in principle go
  below zero, which `Int` reproduces).  Bit tests `(i >> b) & 1` are
  modelled with `Nat.testBit`.
* The `while (queue.length > 0)` loop of Kahn's algorithm is modelled with
  explicit fuel; `kahnFuel` is proved sufficient for well-formed circuits
  (`kahnLoop_fuel_sufficient` machinery below), so the fuelled function
  agrees with the source's run-to-empty loop.
-/

namespace LogicGateSim

/-- `export type NodeType = 'AND' | 'OR' | 'NOT' | 'INPUT' | 'OUTPUT'` in the
provided engine excerpt; the UI (`src/src/ui/canvas.ts`) additionally imports
and instantiates `XorGate` from the same engine module, so the actual engine's
closed set also contains `XOR` (its declaration is not part of the provided
sources). -/
inductive NodeType where
  | INPUT
  | OUTPUT
  | AND
  | OR
  | NOT
  | XOR
deriving DecidableEq, Repr

/-- `CircuitNode`: id, type, ordered input/output edge lists, current boolean
value and display label.  The presentation-only coordinates `x`, `y` are not
used by the engine and are omitted.  Edge lists hold the ids of the referenced
nodes (see the modelling conventions above). -/
structure CircuitNode where
  id : String
  type : NodeType
  inputs : List String
  outputs : List String
  value : Bool
  label : String
deriving DecidableEq, Repr

/-- `class Circuit { nodes: Map<string, CircuitNode> }`, the map modelled as an
insertion-ordered list keyed by `CircuitNode.id`. -/
structure Circuit where
  nodes : List CircuitNode
deriving DecidableEq, Repr

/-- `this.nodes.get(id)` — first (and for a genuine map: only) binding. -/
def getNode (c : Circuit) (id : String) : Option CircuitNode :=
  c.nodes.find? (fun n => n.id = id)

/-- JS `Map.set` keyed by `n.id`: update an existing binding in place,
otherwise append. -/
def setNodeList : List CircuitNode → CircuitNode → List CircuitNode
  | [], n => [n]
  | m :: ms, n => if m.id = n.id then n :: ms else m :: setNodeList ms n

/-- `addNode(node) { this.nodes.set(node.id, node) }` -/
def addNode (c : Circuit) (n : CircuitNode) : Circuit :=
  ⟨setNodeList c.nodes n⟩

/-- Apply `f` to the (unique) node bound to `id`; identity if absent.
This models in-place mutation of the node object held by the map. -/
def updateNode : List CircuitNode → String → (CircuitNode → CircuitNode) → List CircuitNode
  | [], _, _ => []
  | n :: ns, i, f => if n.id = i then f n :: ns else n :: updateNode ns i f

/-- Reading `inp.value` through the map (the TS code reads the field of the
object reference; under distinct ids this is the map lookup). -/
def nodeValueById (c : Circuit) (id : String) : Bool :=
  match getNode c id with
  | some n => n.value
  | none => false

/-- `compute()` of each node class, dispatched on the kind:
INPUT `return this.value`; OUTPUT `inputs.length > 0 ? inputs[0].value : false`;
AND `inputs.every(inp => inp.value)`; OR `inputs.some(inp => inp.value)`;
NOT `inputs.length > 0 ? !inputs[0].value : false`.
XOR — Modelled from the spec: the declaration of `XorGate.compute` is missing
from the provided sources (only its import/instantiation in `canvas.ts` is);
§4.1 of the spec defines it as true iff an odd number of its inputs are true. -/
def compute (c : Circuit) (n : CircuitNode) : Bool :=
  match n.type with
  | NodeType.INPUT => n.value
  | NodeType.OUTPUT =>
    match n.inputs with
    | [] => false
    | i :: _ => nodeValueById c i
  | NodeType.AND => n.inputs.all (fun i => nodeValueById c i)
  | NodeType.OR => n.inputs.any (fun i => nodeValueById c i)
  | NodeType.NOT =>
    match n.inputs with
    | [] => false
    | i :: _ => !(nodeValueById c i)
  | NodeType.XOR => (n.inputs.countP (fun i => nodeValueById c i)) % 2 == 1

/-- `addConnection(fromId, toId)`: resolve both endpoints, silently do nothing
if either is missing; otherwise `to.addInput(from)`, i.e. if the edge is not
already present push `from` onto `to.inputs` and `this` onto `from.outputs`
(the two sequential `updateNode`s also handle `fromId = toId` exactly as the
aliased object mutation does). -/
def addConnection (c : Circuit) (fromId toId : String) : Circuit :=
  match getNode c fromId, getNode c toId with
  | some _, some to_ =>
    if fromId ∈ to_.inputs then c
    else
      ⟨updateNode
        (updateNode c.nodes toId (fun n => { n with inputs := n.inputs ++ [fromId] }))
        fromId (fun n => { n with outputs := n.outputs ++ [toId] })⟩
  | _, _ => c

/-- Pointwise update of a total function, used for the `inDegree` map (that
map is only ever read back via `get`, never iterated, so a function is a
faithful model; absent keys read as `0` through `|| 0`). -/
def updateFn (f : String → Int) (k : String) (v : Int) : String → Int :=
  fun x => if x = k then v else f x

/-- Phase 1 of `getEvaluationOrder`: every node id starts at `0`, then every
edge (scanned through every node's `outputs`) increments its target. -/
def initInDeg (c : Circuit) : String → Int :=
  c.nodes.foldl
    (fun f n => n.outputs.foldl (fun g oid => updateFn g oid (g oid + 1)) f)
    (fun _ => 0)

/-- One step of the inner `u.outputs.forEach(v => ...)`: decrement the
in-degree of `v`, and if it reaches 0 push `v` onto the queue (the TS code
pushes the object reference; we resolve the id through the map, which under
well-formedness is the same node). -/
def kahnVisit (c : Circuit) (st : (String → Int) × List CircuitNode) (vid : String) :
    (String → Int) × List CircuitNode :=
  let d := updateFn st.1 vid (st.1 vid - 1)
  if d vid = 0 then
    match getNode c vid with
    | some v => (d, st.2 ++ [v])
    | none => (d, st.2)
  else (d, st.2)

/-- The `while (queue.length > 0)` loop, with fuel (see module comment):
dequeue `u`, append it to `sorted`, then process its successors. -/
def kahnLoop (c : Circuit) : Nat → (String → Int) → List CircuitNode → List CircuitNode →
    List CircuitNode
  | 0, _, _, sorted => sorted
  | fuel + 1, deg, queue, sorted =>
    match queue with
    | [] => sorted
    | u :: qs =>
      let st := u.outputs.foldl (kahnVisit c) (deg, qs)
      kahnLoop c fuel st.1 st.2 (sorted ++ [u])

/-- Fuel that is proved sufficient for the loop on well-formed circuits:
one unit per initially queued node plus one per edge ever decremented. -/
def kahnFuel (c : Circuit) : Nat :=
  c.nodes.length + (c.nodes.map (fun n => n.outputs.length)).sum + 1

/-- `getEvaluationOrder()` (Kahn's algorithm).  `none` models
`throw new CycleDetectedError()` (raised, with no state mutated, when the
sorted sequence is shorter than the node count). -/
def getEvaluationOrder (c : Circuit) : Option (List CircuitNode) :=
  let deg := initInDeg c
  let queue := c.nodes.filter (fun n => deg n.id = 0)
  let sorted := kahnLoop c (kahnFuel c) deg queue []
  if sorted.length = c.nodes.length then some sorted else none

/-- `node.value = node.compute()` for one node of the evaluation order,
skipping INPUT nodes (`if (node instanceof InputNode) continue`).  The node's
structural fields (`type`, `inputs`) are immutable during evaluation, so
reading them from the order snapshot matches the live object. -/
def evalStep (c : Circuit) (n : CircuitNode) : Circuit :=
  if n.type = NodeType.INPUT then c
  else ⟨updateNode c.nodes n.id (fun m => { m with value := compute c n })⟩

/-- `evaluate()`: obtain the evaluation order, then write each node's computed
value in that order.  `none` models the propagated `CycleDetectedError`
(re-thrown by the `catch` block); in that case the TS code has mutated
nothing. -/
def evaluate (c : Circuit) : Option Circuit :=
  match getEvaluationOrder c with
  | none => none
  | some order => some (order.foldl evalStep c)

/-- The circuit state observed after an `evaluate()` call returns or throws:
on success the updated circuit, on `CycleDetectedError` the untouched one. -/
def evalStateAfter (c : Circuit) : Circuit :=
  match evaluate c with
  | some c' => c'
  | none => c

/-- One row of `getTruthTable()`: the three `Record<string, ...>` objects,
each an insertion-ordered association list. -/
structure Row where
  inputs : List (String × Bool)
  outputs : List (String × Bool)
  inputLabels : List (String × String)
deriving DecidableEq, Repr

/-- `Util.getNodesByType`: `Array.from(circuit.nodes.values()).filter(n => n.type === type)`. -/
def getNodesByType (c : Circuit) (t : NodeType) : List CircuitNode :=
  c.nodes.filter (fun n => n.type = t)

/-- `inputs.forEach((inp, idx) => inp.setValue(!!((i >> idx) & 1)))`. -/
def setInputsFromIndex (c : Circuit) (ins : List CircuitNode) (i : Nat) : Circuit :=
  ins.enum.foldl
    (fun c' p => ⟨updateNode c'.nodes p.2.id (fun m => { m with value := i.testBit p.1 })⟩)
    c

/-- Record one row: input id→value, output id→value, input id→label, reading
the live values after `evaluate()` through the map. -/
def mkRow (c : Circuit) (ins outs : List CircuitNode) : Row :=
  { inputs := ins.map (fun inp => (inp.id, nodeValueById c inp.id))
    outputs := outs.map (fun o => (o.id, nodeValueById c o.id))
    inputLabels := ins.map (fun inp => (inp.id, inp.label)) }

/-- The `for (let i = 0; i < permutations; i++)` loop of `getTruthTable`,
with `rem` rows remaining starting at assignment integer `i`; a failed
`evaluate()` makes the whole call return `[]`. -/
def ttLoop (ins outs : List CircuitNode) : Nat → Nat → Circuit → List Row → List Row
  | 0, _, _, acc => acc
  | rem + 1, i, c, acc =>
    let c₁ := setInputsFromIndex c ins i
    match evaluate c₁ with
    | none => []
    | some c₂ => ttLoop ins outs rem (i + 1) c₂ (acc ++ [mkRow c₂ ins outs])

/-- `getTruthTable()`: enumerate all `2^|inputs|` assignments in ascending
order (`permutations = 1 << inputs.length`). -/
def getTruthTable (c : Circuit) : List Row :=
  let ins := getNodesByType c NodeType.INPUT
  let outs := getNodesByType c NodeType.OUTPUT
  ttLoop ins outs (2 ^ ins.length) 0 c []

/-! ### Graph-theoretic notions used by the claims -/

/-- The dependency edge `u → v` of the circuit graph: both endpoints are
members of the circuit and `v` is listed among `u`'s successors. -/
def Edge (c : Circuit) (u v : CircuitNode) : Prop :=
  u ∈ c.nodes ∧ v ∈ c.nodes ∧ v.id ∈ u.outputs

instance (c : Circuit) (u v : CircuitNode) : Decidable (Edge c u v) := by
  unfold Edge; infer_instance

/-- A directed cycle: some node reaches itself along a nonempty edge path. -/
def HasCycle (c : Circuit) : Prop :=
  ∃ u, Relation.TransGen (Edge c) u u

/-- Acyclicity of the dependency graph. -/
def Acyclic (c : Circuit) : Prop :=
  ¬ HasCycle c

/-- The ids bound in the circuit's map. -/
def idsOf (c : Circuit) : List String :=
  c.nodes.map (fun n => n.id)

/-- Well-formedness: the state every circuit built through the public API with
pairwise-distinct fresh ids satisfies — distinct map keys, every edge endpoint
bound in the map, and the `inputs`/`outputs` lists kept symmetric by the single
mutation path `addInput`. -/
def WellFormed (c : Circuit) : Prop :=
  (idsOf c).Nodup ∧
  (∀ n ∈ c.nodes, ∀ i ∈ n.inputs, i ∈ idsOf c) ∧
  (∀ n ∈ c.nodes, ∀ o ∈ n.outputs, o ∈ idsOf c) ∧
  (∀ a ∈ c.nodes, ∀ b ∈ c.nodes, (a.id ∈ b.inputs ↔ b.id ∈ a.outputs))

instance (c : Circuit) : Decidable (WellFormed c) := by
  unfold WellFormed idsOf; infer_instance

/-! ### Synthesis engine (`src/src/core/synthesis.ts`) -/

/-- `` `INPUT_${i}` `` -/
def mkInputId (i : Nat) : String :=
  "INPUT_" ++ Nat.repr i

/-- `` `AND_${mIdx}` `` -/
def mkAndId (m : Nat) : String :=
  "AND_" ++ Nat.repr m

/-- `` `NOT_${mIdx}_${bit}` `` -/
def mkNotId (m b : Nat) : String :=
  "NOT_" ++ Nat.repr m ++ "_" ++ Nat.repr b

/-- `new InputNode(id, x, y)`: type INPUT, default label `'INPUT'`, value
false, empty edge lists. -/
def mkInputNode (id : String) : CircuitNode :=
  { id := id, type := NodeType.INPUT, inputs := [], outputs := [], value := false,
    label := "INPUT" }

/-- `new OutputNode(id, x, y)` (ctor label `''` falls back to the type name). -/
def mkOutputNode (id : String) : CircuitNode :=
  { id := id, type := NodeType.OUTPUT, inputs := [], outputs := [], value := false,
    label := "OUTPUT" }

/-- `new AndGate(id, x, y)`. -/
def mkAndGate (id : String) : CircuitNode :=
  { id := id, type := NodeType.AND, inputs := [], outputs := [], value := false,
    label := "AND" }

/-- `new OrGate(id, x, y)`. -/
def mkOrGate (id : String) : CircuitNode :=
  { id := id, type := NodeType.OR, inputs := [], outputs := [], value := false,
    label := "OR" }

/-- `new NotGate(id, x, y)`. -/
def mkNotGate (id : String) : CircuitNode :=
  { id := id, type := NodeType.NOT, inputs := [], outputs := [], value := false,
    label := "NOT" }

/-- Step 2 of `generateCircuit`: the row indices where the desired output is
true, in ascending order. -/
def minterms (outputs : List Bool) : List Nat :=
  (outputs.enum.filter (fun p => p.2)).map (fun p => p.1)

/-- `(rowIdx >> (inputCount - 1 - bit)) & 1` — the most-significant bit
corresponds to input 0. -/
def mintermBit (inputCount rowIdx bit : Nat) : Bool :=
  rowIdx.testBit (inputCount - 1 - bit)

/-- Body of the `for (let bit = 0; ...)` loop inside the minterm loop: wire
input `bit` (directly, or through a fresh NOT gate) into AND gate `mIdx`. -/
def wireLiteral (inputCount rowIdx mIdx : Nat) (c : Circuit) (bit : Nat) : Circuit :=
  if mintermBit inputCount rowIdx bit then
    addConnection c (mkInputId bit) (mkAndId mIdx)
  else
    let c := addNode c (mkNotGate (mkNotId mIdx bit))
    let c := addConnection c (mkInputId bit) (mkNotId mIdx bit)
    addConnection c (mkNotId mIdx bit) (mkAndId mIdx)

/-- Body of `minterms.forEach((rowIdx, mIdx) => ...)`: add AND gate `mIdx`
and wire one literal per input variable into it. -/
def addMinterm (inputCount : Nat) (c : Circuit) (mIdx rowIdx : Nat) : Circuit :=
  let c := addNode c (mkAndGate (mkAndId mIdx))
  (List.range inputCount).foldl (wireLiteral inputCount rowIdx mIdx) c

/-- `SynthesisEngine.generateCircuit(inputCount, outputs)`. -/
def generateCircuit (inputCount : Nat) (outputs : List Bool) : Circuit :=
  let c0 : Circuit := ⟨[]⟩
  let c1 := (List.range inputCount).foldl (fun c i => addNode c (mkInputNode (mkInputId i))) c0
  let ms := minterms outputs
  if ms.isEmpty then
    addNode c1 (mkOutputNode "OUTPUT_FINAL")
  else
    let c2 := ms.enum.foldl (fun c p => addMinterm inputCount c p.1 p.2) c1
    let c3 := addNode c2 (mkOrGate "OR_FINAL")
    let c4 := (List.range ms.length).foldl (fun c m => addConnection c (mkAndId m) "OR_FINAL") c3
    let c5 := addNode c4 (mkOutputNode "OUTPUT")
    addConnection c5 "OR_FINAL" "OUTPUT"

/-! ### Auxiliary definitions used by theorem statements and proofs -/

/-- Reversal of the low `n` bits of `i`: bit `j` of `bitRev n i` (for `j < n`)
is bit `n-1-j` of `i`.  This mediates between `getTruthTable`'s LSB-first
assignment enumeration and the synthesis engine's MSB-first minterm indexing. -/
def bitRev : Nat → Nat → Nat
  | 0, _ => 0
  | n + 1, i => 2 * bitRev n i + (if i.testBit n then 1 else 0)

/-- Stated from the spec's words (for comparison with the code's behavior):
"most-significant bit assigned to the first INPUT node", i.e. the spec claims
input `idx` of `n` records bit `n-1-idx` of the assignment integer `i`. -/
def specMsbFirstBit (n i idx : Nat) : Bool :=
  i.testBit (n - 1 - idx)

/-- The output-value column entry of a truth-table row. -/
def rowOutVals (r : Row) : List Bool :=
  r.outputs.map Prod.snd

/-- The recorded input values of a truth-table row. -/
def rowInVals (r : Row) : List Bool :=
  r.inputs.map Prod.snd

/-- Number of edges into `vid` from nodes whose id is not in `done`
(the quantity Kahn's in-degree counter tracks). -/
def countEdgesInto (c : Circuit) (done : List String) (vid : String) : Nat :=
  (c.nodes.map (fun w => if w.id ∈ done then 0 else w.outputs.count vid)).sum

/-- Termination measure for the Kahn loop: queue length plus the remaining
positive in-degree mass. -/
def kahnPhi (c : Circuit) (deg : String → Int) (queue : List CircuitNode) : Nat :=
  queue.length + (c.nodes.map (fun n => (deg n.id).toNat)).sum

/-- The structural (value-free) part of a node, preserved by evaluation. -/
def nodeShape (n : CircuitNode) : String × NodeType × List String × List String × String :=
  (n.id, n.type, n.inputs, n.outputs, n.label)

/-- Invariant of the Kahn loop, in its mid-iteration form: `sorted'` is the
processed sequence (the node being expanded already appended), `rest` the
still-unprocessed suffix of its successor list, `deg`/`q` the live state.
Components: queue and sorted entries are circuit members; their ids are
pairwise distinct; the in-degree counter of each id equals its remaining
in-edge mass; processed/queued nodes have no remaining in-edges; unreached
nodes have some; the processed sequence is topologically ordered and every
queued node's in-neighbours are all processed. -/
def KahnMid (c : Circuit) (sorted' : List CircuitNode) (rest : List String)
    (deg : String → Int) (q : List CircuitNode) : Prop :=
  (∀ x ∈ q, x ∈ c.nodes) ∧
  (∀ x ∈ sorted', x ∈ c.nodes) ∧
  ((sorted' ++ q).map (fun n => n.id)).Nodup ∧
  (∀ vid, deg vid =
    ((countEdgesInto c (sorted'.map (fun n => n.id)) vid + rest.count vid : Nat) : Int)) ∧
  (∀ v ∈ c.nodes, v.id ∈ (sorted' ++ q).map (fun n => n.id) →
    countEdgesInto c (sorted'.map (fun n => n.id)) v.id + rest.count v.id = 0) ∧
  (∀ v ∈ c.nodes, v.id ∉ (sorted' ++ q).map (fun n => n.id) →
    countEdgesInto c (sorted'.map (fun n => n.id)) v.id + rest.count v.id ≠ 0) ∧
  (∀ j v, sorted'.get? j = some v → ∀ u ∈ c.nodes, v.id ∈ u.outputs →
    ∃ i, i < j ∧ sorted'.get? i = some u) ∧
  (∀ v ∈ q, ∀ u ∈ c.nodes, v.id ∈ u.outputs → u ∈ sorted')

/-- What holds of the sorted sequence when the loop has drained the queue. -/
def KahnFinal (c : Circuit) (res : List CircuitNode) : Prop :=
  (∀ x ∈ res, x ∈ c.nodes) ∧
  (res.map (fun n => n.id)).Nodup ∧
  (∀ j v, res.get? j = some v → ∀ u ∈ c.nodes, v.id ∈ u.outputs →
    ∃ i, i < j ∧ res.get? i = some u) ∧
  (∀ v ∈ c.nodes, v.id ∉ res.map (fun n => n.id) →
    ∃ w ∈ c.nodes, w.id ∉ res.map (fun n => n.id) ∧ v.id ∈ w.outputs)

/-- A layering function on node kinds: every edge of a synthesized circuit
strictly increases it, whence acyclicity. -/
def rankOf : NodeType → Nat
  | NodeType.INPUT => 0
  | NodeType.NOT => 1
  | NodeType.AND => 2
  | NodeType.OR => 3
  | NodeType.OUTPUT => 4
  | NodeType.XOR => 5

/-- A layering function on the ids of a synthesized circuit (discriminating on
the id's first character): every edge strictly increases it. -/
def idRank (s : String) : Nat :=
  if s = "OR_FINAL" then 3
  else if s = "OUTPUT" then 4
  else
    match s.data.head? with
    | some 'I' => 0
    | some 'N' => 1
    | some 'A' => 2
    | _ => 5

/-- Decimal evaluation of a digit-character string, MSB first; left inverse of
`Nat.repr` and hence the injectivity witness for the synthesized ids. -/
def evalDec (cs : List Char) : Nat :=
  cs.foldl (fun a c => 10 * a + (c.toNat - 48)) 0

/-! #### The fully-wired shape of a synthesized circuit -/

/-- The bit positions of minterm `row` that are 0, i.e. the input indices that
get a fresh NOT gate. -/
def notBits (n row : Nat) : List Nat :=
  (List.range n).filter (fun b => !(mintermBit n row b))

/-- Final state of INPUT node `b`: wired (directly or via its NOT gates) into
one target per minterm. -/
def expInput (n : Nat) (ms : List Nat) (b : Nat) : CircuitNode :=
  { id := mkInputId b, type := NodeType.INPUT, inputs := [],
    outputs := ms.enum.map (fun p => if mintermBit n p.2 b then mkAndId p.1 else mkNotId p.1 b),
    value := false, label := "INPUT" }

/-- Final state of the NOT gate for bit `b` of minterm index `m`. -/
def expNot (m b : Nat) : CircuitNode :=
  { id := mkNotId m b, type := NodeType.NOT, inputs := [mkInputId b],
    outputs := [mkAndId m], value := false, label := "NOT" }

/-- The NOT gate for bit `b` of minterm `m` right after its input wire is
attached, before its output wire is. -/
def expNotHalf (m b : Nat) : CircuitNode :=
  { id := mkNotId m b, type := NodeType.NOT, inputs := [mkInputId b],
    outputs := [], value := false, label := "NOT" }

/-- Final state of AND gate `m` for minterm `row`: one literal per input. -/
def expAnd (n m row : Nat) : CircuitNode :=
  { id := mkAndId m, type := NodeType.AND,
    inputs := (List.range n).map (fun b => if mintermBit n row b then mkInputId b else mkNotId m b),
    outputs := ["OR_FINAL"], value := false, label := "AND" }

/-- Final state of the OR gate collecting the `k` minterm AND gates. -/
def expOr (k : Nat) : CircuitNode :=
  { id := "OR_FINAL", type := NodeType.OR, inputs := (List.range k).map mkAndId,
    outputs := ["OUTPUT"], value := false, label := "OR" }

/-- Final state of the final OUTPUT node. -/
def expOut : CircuitNode :=
  { id := "OUTPUT", type := NodeType.OUTPUT, inputs := ["OR_FINAL"], outputs := [],
    value := false, label := "OUTPUT" }

/-- The nodes contributed by minterm `p = (mIdx, rowIdx)`, in insertion order:
the AND gate, then the fresh NOT gates in ascending bit order. -/
def expMintermNodes (n : Nat) (p : Nat × Nat) : List CircuitNode :=
  expAnd n p.1 p.2 :: (notBits n p.2).map (expNot p.1)

/-- Intermediate state of INPUT node `b` while the minterm loop runs: wired
into the targets of the already-processed minterms `ps`, plus — when the
current minterm `(t, row)` has already processed bit `b` (`b < bits`) — its
target for the current minterm. -/
def expInputMid (n : Nat) (ps : List (Nat × Nat)) (t row bits b : Nat) : CircuitNode :=
  { id := mkInputId b, type := NodeType.INPUT, inputs := [],
    outputs := ps.map (fun p => if mintermBit n p.2 b then mkAndId p.1 else mkNotId p.1 b)
      ++ (if b < bits then [if mintermBit n row b then mkAndId t else mkNotId t b] else []),
    value := false, label := "INPUT" }

/-- State of INPUT node `b` between two minterm iterations: wired into the
targets of the processed minterms `ps` only. -/
def expInputPs (n : Nat) (ps : List (Nat × Nat)) (b : Nat) : CircuitNode :=
  { id := mkInputId b, type := NodeType.INPUT, inputs := [],
    outputs := ps.map (fun p => if mintermBit n p.2 b then mkAndId p.1 else mkNotId p.1 b),
    value := false, label := "INPUT" }

/-- AND gate `t` after its first `bits` literals are wired, before the OR
stage. -/
def expAndPartial (n t row bits : Nat) : CircuitNode :=
  { id := mkAndId t, type := NodeType.AND,
    inputs := (List.range bits).map (fun b => if mintermBit n row b then mkInputId b
      else mkNotId t b),
    outputs := [], value := false, label := "AND" }

/-- The block of minterm `p` after the minterm loop but before the OR stage:
the AND gate still has no successor. -/
def expMintermNoOr (n : Nat) (p : Nat × Nat) : List CircuitNode :=
  expAndPartial n p.1 p.2 n :: (notBits n p.2).map (expNot p.1)

/-- The block of minterm `p` while the current minterm is being wired. -/
def expMintermBlockMid (n t row bits : Nat) : List CircuitNode :=
  expAndPartial n t row bits ::
    ((List.range bits).filter (fun b => !(mintermBit n row b))).map (expNot t)

/-- The block of minterm `p` during the OR-wiring stage: minterms with index
below `j` already feed the OR gate, the others do not yet. -/
def expMintermSt (n j : Nat) (p : Nat × Nat) : List CircuitNode :=
  if p.1 < j then expMintermNodes n p else expMintermNoOr n p

/-- The OR gate after its first `t` AND gates are wired, before the final
OUTPUT stage. -/
def expOrPartial (t : Nat) : CircuitNode :=
  { id := "OR_FINAL", type := NodeType.OR, inputs := (List.range t).map mkAndId,
    outputs := [], value := false, label := "OR" }

/-- The final node list of `generateCircuit n outs` in the non-degenerate
case, in insertion order. -/
def expNodes (n : Nat) (outs : List Bool) : List CircuitNode :=
  let ms := minterms outs
  ((List.range n).map (expInput n ms)) ++
    (ms.enum.map (expMintermNodes n)).flatten ++ [expOr ms.length, expOut]

/-! #### Concrete circuits used in counterexamples and witnesses -/

/-- Two disconnected INPUT nodes `A`, `B` (insertion order `A` then `B`). -/
def wTwoIn : Circuit :=
  addNode (addNode ⟨[]⟩ (mkInputNode "A")) (mkInputNode "B")

/-- A single wire `A (INPUT) → B (OUTPUT)`. -/
def wChain : Circuit :=
  addConnection (addNode (addNode ⟨[]⟩ (mkInputNode "A")) (mkOutputNode "B")) "A" "B"

/-- A NOT gate wired to itself — the canonical cyclic circuit. -/
def wLoop : Circuit :=
  addConnection (addNode ⟨[]⟩ (mkNotGate "N")) "N" "N"

/-- A two-input XOR node used to witness the per-kind compute semantics. -/
def wXorNode : CircuitNode :=
  { id := "g", type := NodeType.XOR, inputs := ["A", "B"], outputs := [], value := false,
    label := "XOR" }

/-! ### Object-identity (arena) model for the mutation invariant (C10)

The TS node lists hold object references compared with `includes` (reference
equality), and `Circuit.addNode` may silently overwrite a map key while older
objects keep referencing the displaced node.  To state the edge-symmetry
invariant faithfully at the object level, nodes live in an arena (`List ONode`,
the index being the object identity) and the circuit's map binds ids to arena
indices. -/

/-- A node object: as `CircuitNode`, but edge lists hold arena indices
(object identities). -/
structure ONode where
  id : String
  type : NodeType
  inputs : List Nat
  outputs : List Nat
  value : Bool
  label : String
deriving DecidableEq, Repr

/-- Placeholder for out-of-range arena reads (never reached under the
invariant). -/
def dummyONode : ONode :=
  { id := "", type := NodeType.AND, inputs := [], outputs := [], value := false, label := "" }

/-- The world: all allocated node objects plus one circuit's id→object map. -/
structure World where
  arena : List ONode
  keys : List (String × Nat)
deriving DecidableEq, Repr

/-- Read an object. -/
def oget (w : World) (r : Nat) : ONode :=
  w.arena.getD r dummyONode

/-- In-place mutation of one object. -/
def modifyRef (a : List ONode) (r : Nat) (f : ONode → ONode) : List ONode :=
  a.set r (f (a.getD r dummyONode))

/-- `new XxxGate(id, ...)`: allocate a fresh node object with empty edge
lists; returns the new world and the object's identity. -/
def allocNode (w : World) (id : String) (t : NodeType) (label : String) : World × Nat :=
  let fresh : ONode :=
    { id := id, type := t, inputs := [], outputs := [], value := false, label := label }
  (⟨w.arena ++ [fresh], w.keys⟩, w.arena.length)

/-- `node.addInput(other)` at object level: no-op when the edge already
exists, else push `other` onto `self.inputs` and `self` onto
`other.outputs`. -/
def oAddInput (w : World) (selfR otherR : Nat) : World :=
  if otherR ∈ (oget w selfR).inputs then w
  else
    ⟨modifyRef (modifyRef w.arena selfR (fun n => { n with inputs := n.inputs ++ [otherR] }))
      otherR (fun n => { n with outputs := n.outputs ++ [selfR] }), w.keys⟩

/-- `node.removeInput(other)`: if the edge exists remove its first occurrence
from `self.inputs` (`indexOf`/`splice`) and symmetrically `self` from
`other.outputs` when present. -/
def oRemoveInput (w : World) (selfR otherR : Nat) : World :=
  if otherR ∈ (oget w selfR).inputs then
    ⟨modifyRef (modifyRef w.arena selfR (fun n => { n with inputs := n.inputs.erase otherR }))
      otherR (fun n => { n with outputs := n.outputs.erase selfR }), w.keys⟩
  else w

/-- JS `Map.set` on `(id, ref)`: overwrite in place or append. -/
def setAssoc : List (String × Nat) → String → Nat → List (String × Nat)
  | [], k, r => [(k, r)]
  | p :: ps, k, r => if p.1 = k then (k, r) :: ps else p :: setAssoc ps k r

/-- JS `Map.delete`. -/
def delAssoc : List (String × Nat) → String → List (String × Nat)
  | [], _ => []
  | p :: ps, k => if p.1 = k then ps else p :: delAssoc ps k

/-- JS `Map.get`. -/
def lookupAssoc (ks : List (String × Nat)) (k : String) : Option Nat :=
  (ks.find? (fun p => p.1 = k)).map (fun p => p.2)

/-- `Circuit.addNode(node)`. -/
def oAddNode (w : World) (r : Nat) : World :=
  ⟨w.arena, setAssoc w.keys (oget w r).id r⟩

/-- `Circuit.addConnection(fromId, toId)`. -/
def oAddConnection (w : World) (fromId toId : String) : World :=
  match lookupAssoc w.keys fromId, lookupAssoc w.keys toId with
  | some f, some t => oAddInput w t f
  | _, _ => w

/-- `Circuit.removeNode(nodeId)`: sever all input edges (iterating over a
copy of the list), then all output edges (over a copy taken after the first
phase, as in the source), then delete the map binding. -/
def oRemoveNode (w : World) (id : String) : World :=
  match lookupAssoc w.keys id with
  | none => w
  | some r =>
    let w1 := (oget w r).inputs.foldl (fun w' i => oRemoveInput w' r i) w
    let w2 := (oget w1 r).outputs.foldl (fun w' o => oRemoveInput w' o r) w1
    ⟨w2.arena, delAssoc w2.keys id⟩

/-- The object-level edge invariant of C10: every edge is recorded exactly
once on each side (`a ∈ b.inputs` iff `b ∈ a.outputs`, lists duplicate-free),
all references stay inside the arena, and the circuit map's references do
too. -/
def WorldInv (w : World) : Prop :=
  (∀ n ∈ w.arena, n.inputs.Nodup ∧ n.outputs.Nodup ∧
    (∀ r ∈ n.inputs, r < w.arena.length) ∧ (∀ r ∈ n.outputs, r < w.arena.length)) ∧
  (∀ a, a < w.arena.length → ∀ b, b < w.arena.length →
    (a ∈ (oget w b).inputs ↔ b ∈ (oget w a).outputs)) ∧
  (∀ p ∈ w.keys, p.2 < w.arena.length)

instance (w : World) : Decidable (WorldInv w) := by
  unfold WorldInv oget; infer_instance

/-! ## Theorems

### A. Decimal id strings: injectivity of the synthesized identifiers -/

theorem toDigitsCore_ten_append (f : Nat) : ∀ (n : Nat) (ds : List Char),
    Nat.toDigitsCore 10 f n ds = Nat.toDigitsCore 10 f n [] ++ ds := by
  induction f with
  | zero => intro n ds; simp [Nat.toDigitsCore]
  | succ f ih =>
    intro n ds
    simp only [Nat.toDigitsCore]
    by_cases h : n / 10 = 0
    · simp [h]
    · simp only [h, if_false]
      rw [ih (n / 10) (Nat.digitChar (n % 10) :: ds), ih (n / 10) [Nat.digitChar (n % 10)]]
      simp

theorem toDigitsCore_ten_fuel (n : Nat) : ∀ f₁ f₂ : Nat, n < f₁ → n < f₂ →
    Nat.toDigitsCore 10 f₁ n [] = Nat.toDigitsCore 10 f₂ n [] := by
  induction n using Nat.strong_induction_on with
  | _ n ih =>
    intro f₁ f₂ h₁ h₂
    match f₁, f₂ with
    | a + 1, b + 1 =>
      simp only [Nat.toDigitsCore]
      by_cases h : n / 10 = 0
      · simp [h]
      · simp only [h, if_false]
        rw [toDigitsCore_ten_append a, toDigitsCore_ten_append b]
        have hdiv : n / 10 < n := Nat.div_lt_self (Nat.pos_of_ne_zero (by
          intro h0; subst h0; simp at h)) (by norm_num)
        rw [ih (n / 10) hdiv a b (by omega) (by omega)]

theorem toDigits_ten_eq (n : Nat) :
    Nat.toDigits 10 n =
      (if n / 10 = 0 then [] else Nat.toDigits 10 (n / 10)) ++ [Nat.digitChar (n % 10)] := by
  show Nat.toDigitsCore 10 (n + 1) n [] = _
  simp only [Nat.toDigitsCore]
  by_cases h : n / 10 = 0
  · simp [h]
  · simp only [h, if_false]
    rw [toDigitsCore_ten_append n]
    have hdiv : n / 10 < n := Nat.div_lt_self (Nat.pos_of_ne_zero (by
      intro h0; subst h0; simp at h)) (by norm_num)
    rw [toDigitsCore_ten_fuel (n / 10) n (n / 10 + 1) hdiv (Nat.lt_succ_self _)]
    rfl

theorem digitChar_toNat {d : Nat} (h : d < 10) : (Nat.digitChar d).toNat = 48 + d := by
  interval_cases d <;> rfl

theorem digitChar_ne_underscore {d : Nat} (h : d < 10) : Nat.digitChar d ≠ '_' := by
  interval_cases d <;> decide

theorem evalDec_append_singleton (xs : List Char) (c : Char) :
    evalDec (xs ++ [c]) = 10 * evalDec xs + (c.toNat - 48) := by
  simp [evalDec, List.foldl_append]

theorem evalDec_toDigits (n : Nat) : evalDec (Nat.toDigits 10 n) = n := by
  induction n using Nat.strong_induction_on with
  | _ n ih =>
    rw [toDigits_ten_eq]
    by_cases h : n / 10 = 0
    · have hn : n < 10 := by omega
      simp only [h, if_true]
      rw [List.nil_append, show [Nat.digitChar (n % 10)] = [] ++ [Nat.digitChar (n % 10)] by rfl,
        evalDec_append_singleton, digitChar_toNat (Nat.mod_lt n (by norm_num))]
      have : n % 10 = n := Nat.mod_eq_of_lt hn
      simp [evalDec, this]
    · have hdiv : n / 10 < n := Nat.div_lt_self (Nat.pos_of_ne_zero (by
        intro h0; subst h0; simp at h)) (by norm_num)
      simp only [h, if_false]
      rw [evalDec_append_singleton, ih (n / 10) hdiv,
        digitChar_toNat (Nat.mod_lt n (by omega))]
      omega

theorem repr_data_eq (n : Nat) : (Nat.repr n).data = Nat.toDigits 10 n :=
  rfl

theorem repr_injective : Function.Injective Nat.repr := by
  intro a b h
  have hd : Nat.toDigits 10 a = Nat.toDigits 10 b := by
    have := congrArg String.data h
    rwa [repr_data_eq, repr_data_eq] at this
  have := congrArg evalDec hd
  rwa [evalDec_toDigits, evalDec_toDigits] at this

theorem mem_toDigits_ten (n : Nat) : ∀ c ∈ Nat.toDigits 10 n, ∃ d, d < 10 ∧ c = Nat.digitChar d := by
  induction n using Nat.strong_induction_on with
  | _ n ih =>
    intro c hc
    rw [toDigits_ten_eq] at hc
    rcases List.mem_append.mp hc with h1 | h2
    · by_cases h : n / 10 = 0
      · simp [h] at h1
      · have hdiv : n / 10 < n := Nat.div_lt_self (Nat.pos_of_ne_zero (by
          intro h0; subst h0; simp at h)) (by norm_num)
        exact ih (n / 10) hdiv c (by simpa [h] using h1)
    · exact ⟨n % 10, Nat.mod_lt n (by norm_num), by simpa using h2⟩

theorem underscore_not_mem_toDigits (n : Nat) : '_' ∉ Nat.toDigits 10 n := by
  intro h
  obtain ⟨d, hd, hc⟩ := mem_toDigits_ten n '_' h
  exact digitChar_ne_underscore hd hc.symm

theorem underscore_split : ∀ (a a' b b' : List Char), '_' ∉ a → '_' ∉ a' →
    a ++ '_' :: b = a' ++ '_' :: b' → a = a' ∧ b = b' := by
  intro a
  induction a with
  | nil =>
    intro a' b b' _ ha' h
    cases a' with
    | nil => simpa using h
    | cons c t =>
      simp only [List.nil_append, List.cons_append, List.cons.injEq] at h
      exact absurd (h.1 ▸ List.mem_cons_self c t) ha'
  | cons c t ih =>
    intro a' b b' ha ha' h
    cases a' with
    | nil =>
      simp only [List.cons_append, List.nil_append, List.cons.injEq] at h
      exact absurd (h.1 ▸ List.mem_cons_self c t) ha
    | cons c' t' =>
      simp only [List.cons_append, List.cons.injEq] at h
      obtain ⟨h1, h2⟩ :=
        ih t' b b' (fun hm => ha (List.mem_cons_of_mem c hm))
          (fun hm => ha' (List.mem_cons_of_mem c' hm)) h.2
      exact ⟨by rw [h.1, h1], h2⟩

theorem mkInputId_inj {i j : Nat} (h : mkInputId i = mkInputId j) : i = j := by
  have hd := congrArg String.data h
  simp only [mkInputId, String.data_append] at hd
  exact repr_injective (String.ext (List.append_cancel_left hd))

theorem mkAndId_inj {i j : Nat} (h : mkAndId i = mkAndId j) : i = j := by
  have hd := congrArg String.data h
  simp only [mkAndId, String.data_append] at hd
  exact repr_injective (String.ext (List.append_cancel_left hd))

theorem mkNotId_inj {m b m' b' : Nat} (h : mkNotId m b = mkNotId m' b') : m = m' ∧ b = b' := by
  have hd := congrArg String.data h
  simp only [mkNotId, String.data_append] at hd
  have hd' : (Nat.repr m).data ++ '_' :: (Nat.repr b).data
      = (Nat.repr m').data ++ '_' :: (Nat.repr b').data := by
    have : ("NOT_" : String).data ++ ((Nat.repr m).data ++ '_' :: (Nat.repr b).data)
        = ("NOT_" : String).data ++ ((Nat.repr m').data ++ '_' :: (Nat.repr b').data) := by
      simpa [List.append_assoc] using hd
    exact List.append_cancel_left this
  obtain ⟨h1, h2⟩ := underscore_split _ _ _ _
    (by rw [repr_data_eq]; exact underscore_not_mem_toDigits m)
    (by rw [repr_data_eq]; exact underscore_not_mem_toDigits m') hd'
  exact ⟨repr_injective (String.ext h1), repr_injective (String.ext h2)⟩

theorem head_data_mkInputId (i : Nat) : (mkInputId i).data.head? = some 'I' := by
  simp [mkInputId, String.data_append]

theorem head_data_mkAndId (i : Nat) : (mkAndId i).data.head? = some 'A' := by
  simp [mkAndId, String.data_append]

theorem head_data_mkNotId (m b : Nat) : (mkNotId m b).data.head? = some 'N' := by
  simp [mkNotId, String.data_append]

theorem mkInputId_ne_mkAndId (i j : Nat) : mkInputId i ≠ mkAndId j := by
  intro h
  have := (head_data_mkInputId i).symm.trans ((congrArg (fun s => s.data.head?) h).trans
    (head_data_mkAndId j))
  simp at this

theorem mkInputId_ne_mkNotId (i m b : Nat) : mkInputId i ≠ mkNotId m b := by
  intro h
  have := (head_data_mkInputId i).symm.trans ((congrArg (fun s => s.data.head?) h).trans
    (head_data_mkNotId m b))
  simp at this

theorem mkAndId_ne_mkNotId (i m b : Nat) : mkAndId i ≠ mkNotId m b := by
  intro h
  have := (head_data_mkAndId i).symm.trans ((congrArg (fun s => s.data.head?) h).trans
    (head_data_mkNotId m b))
  simp at this

theorem mkInputId_ne_or (i : Nat) : mkInputId i ≠ "OR_FINAL" := by
  intro h
  have := (head_data_mkInputId i).symm.trans (congrArg (fun s => s.data.head?) h)
  simp at this

theorem mkInputId_ne_out (i : Nat) : mkInputId i ≠ "OUTPUT" := by
  intro h
  have := (head_data_mkInputId i).symm.trans (congrArg (fun s => s.data.head?) h)
  simp at this

theorem mkInputId_ne_outFinal (i : Nat) : mkInputId i ≠ "OUTPUT_FINAL" := by
  intro h
  have := (head_data_mkInputId i).symm.trans (congrArg (fun s => s.data.head?) h)
  simp at this

theorem mkAndId_ne_or (i : Nat) : mkAndId i ≠ "OR_FINAL" := by
  intro h
  have := (head_data_mkAndId i).symm.trans (congrArg (fun s => s.data.head?) h)
  simp at this

theorem mkAndId_ne_out (i : Nat) : mkAndId i ≠ "OUTPUT" := by
  intro h
  have := (head_data_mkAndId i).symm.trans (congrArg (fun s => s.data.head?) h)
  simp at this

theorem mkNotId_ne_or (m b : Nat) : mkNotId m b ≠ "OR_FINAL" := by
  intro h
  have := (head_data_mkNotId m b).symm.trans (congrArg (fun s => s.data.head?) h)
  simp at this

theorem mkNotId_ne_out (m b : Nat) : mkNotId m b ≠ "OUTPUT" := by
  intro h
  have := (head_data_mkNotId m b).symm.trans (congrArg (fun s => s.data.head?) h)
  simp at this

/-! ### B. Map and edge-count infrastructure -/

theorem eq_of_mem_of_id_eq : ∀ {l : List CircuitNode}, (l.map (fun n => n.id)).Nodup →
    ∀ {a b : CircuitNode}, a ∈ l → b ∈ l → a.id = b.id → a = b := by
  intro l
  induction l with
  | nil => intro _ a b ha; simp at ha
  | cons m t ih =>
    intro hnd a b ha hb hid
    simp only [List.map_cons, List.nodup_cons] at hnd
    rcases List.mem_cons.mp ha with rfl | ha' <;> rcases List.mem_cons.mp hb with rfl | hb'
    · rfl
    · exact absurd (List.mem_map.mpr ⟨b, hb', hid.symm⟩) hnd.1
    · exact absurd (List.mem_map.mpr ⟨a, ha', hid⟩) hnd.1
    · exact ih hnd.2 ha' hb' hid

theorem getNode_some {c : Circuit} {i : String} {n : CircuitNode}
    (h : getNode c i = some n) : n ∈ c.nodes ∧ n.id = i := by
  refine ⟨List.mem_of_find?_eq_some h, ?_⟩
  have := List.find?_some h
  simpa using this

theorem getNode_of_mem {c : Circuit} (hnd : (idsOf c).Nodup) {n : CircuitNode}
    (hm : n ∈ c.nodes) : getNode c n.id = some n := by
  have hne : getNode c n.id ≠ none := by
    intro hnone
    have := List.find?_eq_none.mp hnone n hm
    simp at this
  obtain ⟨m, hm'⟩ := Option.ne_none_iff_exists'.mp hne
  obtain ⟨hmem, hid⟩ := getNode_some hm'
  rw [hm', eq_of_mem_of_id_eq hnd hmem hm hid]

theorem getNode_none {c : Circuit} {i : String}
    (h : getNode c i = none) : ∀ n ∈ c.nodes, n.id ≠ i := by
  intro n hn
  have := List.find?_eq_none.mp h n hn
  simpa using this

theorem countEdgesInto_ne_zero {c : Circuit} {done : List String} {vid : String}
    (h : countEdgesInto c done vid ≠ 0) :
    ∃ w ∈ c.nodes, w.id ∉ done ∧ vid ∈ w.outputs := by
  unfold countEdgesInto at h
  obtain ⟨x, hx, hxne⟩ : ∃ x ∈ c.nodes.map (fun w => if w.id ∈ done then 0 else w.outputs.count vid), x ≠ 0 := by
    by_contra hall
    push_neg at hall
    exact h (List.sum_eq_zero hall)
  obtain ⟨w, hw, hwx⟩ := List.mem_map.mp hx
  by_cases hd : w.id ∈ done
  · rw [if_pos hd] at hwx; exact absurd hwx.symm hxne
  · rw [if_neg hd] at hwx
    refine ⟨w, hw, hd, ?_⟩
    have : w.outputs.count vid ≠ 0 := by rw [hwx]; exact hxne
    exact List.count_pos_iff.mp (Nat.pos_of_ne_zero this)

theorem countEdgesInto_eq_zero {c : Circuit} {done : List String} {vid : String}
    (h : countEdgesInto c done vid = 0) :
    ∀ w ∈ c.nodes, w.id ∉ done → vid ∉ w.outputs := by
  intro w hw hd hv
  have hz := List.sum_eq_zero_iff.mp h _
    (List.mem_map.mpr ⟨w, hw, rfl⟩)
  rw [if_neg hd] at hz
  exact absurd (List.count_pos_iff.mpr hv) (by omega)

theorem countEdgesInto_mono_nil {c : Circuit} {done : List String} {vid : String}
    (h : countEdgesInto c [] vid = 0) : countEdgesInto c done vid = 0 := by
  unfold countEdgesInto at h ⊢
  apply List.sum_eq_zero
  intro x hx
  obtain ⟨w, hw, rfl⟩ := List.mem_map.mp hx
  by_cases hd : w.id ∈ done
  · rw [if_pos hd]
  · rw [if_neg hd]
    have hz := List.sum_eq_zero_iff.mp h _
      (List.mem_map.mpr ⟨w, hw, rfl⟩)
    simpa using hz

theorem edges_split_list {u : CircuitNode} {done : List String} (vid : String) :
    ∀ {l : List CircuitNode}, (l.map (fun n => n.id)).Nodup → u ∈ l → u.id ∉ done →
    (l.map (fun w => if w.id ∈ done then 0 else w.outputs.count vid)).sum
      = (l.map (fun w => if w.id ∈ done ++ [u.id] then 0 else w.outputs.count vid)).sum
        + u.outputs.count vid := by
  intro l
  induction l with
  | nil => intro _ hu; simp at hu
  | cons m t ih =>
    intro hnd hu hdone
    simp only [List.map_cons, List.nodup_cons] at hnd
    simp only [List.map_cons, List.sum_cons]
    rcases List.mem_cons.mp hu with rfl | hu'
    · -- head is u: it flips from counted to excluded, the tail is unaffected
      rw [if_neg hdone, if_pos (by simp)]
      have htail : ∀ w ∈ t, (if w.id ∈ done then 0 else w.outputs.count vid)
          = (if w.id ∈ done ++ [u.id] then 0 else w.outputs.count vid) := by
        intro w hw
        have hne : w.id ≠ u.id := by
          intro he
          exact hnd.1 (List.mem_map.mpr ⟨w, hw, he⟩)
        by_cases hd : w.id ∈ done
        · rw [if_pos hd, if_pos (List.mem_append.mpr (Or.inl hd))]
        · rw [if_neg hd, if_neg (by simp [hd, hne])]
      rw [List.map_congr_left htail]
      omega
    · -- u is in the tail; the head's id differs from u.id
      have hne : m.id ≠ u.id := by
        intro he
        exact hnd.1 (List.mem_map.mpr ⟨u, hu', he.symm⟩)
      have hhead : (if m.id ∈ done then 0 else m.outputs.count vid)
          = (if m.id ∈ done ++ [u.id] then 0 else m.outputs.count vid) := by
        by_cases hd : m.id ∈ done
        · rw [if_pos hd, if_pos (List.mem_append.mpr (Or.inl hd))]
        · rw [if_neg hd, if_neg (by simp [hd, hne])]
      rw [hhead, ih hnd.2 hu' hdone]
      omega

theorem countEdgesInto_split {c : Circuit} (hnd : (idsOf c).Nodup) {u : CircuitNode}
    (hu : u ∈ c.nodes) {done : List String} (hdone : u.id ∉ done) (vid : String) :
    countEdgesInto c done vid
      = countEdgesInto c (done ++ [u.id]) vid + u.outputs.count vid :=
  edges_split_list vid hnd hu hdone

theorem foldInc_eval : ∀ (os : List String) (g : String → Int) (vid : String),
    (os.foldl (fun g' oid => updateFn g' oid (g' oid + 1)) g) vid = g vid + os.count vid := by
  intro os
  induction os with
  | nil => intro g vid; simp
  | cons o t ih =>
    intro g vid
    simp only [List.foldl_cons]
    rw [ih]
    by_cases h : vid = o
    · subst h
      simp [updateFn, List.count_cons]
      omega
    · simp [updateFn, h, List.count_cons, Ne.symm h]

theorem initInDeg_eval (c : Circuit) (vid : String) :
    initInDeg c vid = ((countEdgesInto c [] vid : Nat) : Int) := by
  unfold initInDeg countEdgesInto
  have main : ∀ (l : List CircuitNode) (g : String → Int),
      (l.foldl (fun f n => n.outputs.foldl (fun g' oid => updateFn g' oid (g' oid + 1)) f) g) vid
        = g vid + ((l.map (fun w => if w.id ∈ ([] : List String) then 0
            else w.outputs.count vid)).sum : Nat) := by
    intro l
    induction l with
    | nil => intro g; simp
    | cons m t ih =>
      intro g
      simp only [List.foldl_cons, List.map_cons, List.sum_cons]
      rw [ih, foldInc_eval]
      simp
      omega
  rw [main]
  simp

/-! ### C. Kahn's algorithm: invariant preservation -/

theorem updateFn_self (f : String → Int) (k : String) (v : Int) : updateFn f k v k = v := by
  simp [updateFn]

theorem updateFn_other (f : String → Int) {k x : String} (v : Int) (h : x ≠ k) :
    updateFn f k v x = f x := by
  simp [updateFn, h]

theorem kahnVisit_push {c : Circuit} {deg : String → Int} {q : List CircuitNode}
    {vid : String} {v : CircuitNode} (hz : deg vid - 1 = 0) (hl : getNode c vid = some v) :
    kahnVisit c (deg, q) vid = (updateFn deg vid (deg vid - 1), q ++ [v]) := by
  simp [kahnVisit, updateFn, hz, hl]

theorem kahnVisit_nopush {c : Circuit} {deg : String → Int} {q : List CircuitNode}
    {vid : String} (hz : deg vid - 1 ≠ 0) :
    kahnVisit c (deg, q) vid = (updateFn deg vid (deg vid - 1), q) := by
  simp [kahnVisit, updateFn, hz]

theorem kahnVisit_nolookup {c : Circuit} {deg : String → Int} {q : List CircuitNode}
    {vid : String} (hz : deg vid - 1 = 0) (hl : getNode c vid = none) :
    kahnVisit c (deg, q) vid = (updateFn deg vid (deg vid - 1), q) := by
  simp [kahnVisit, updateFn, hz, hl]

theorem kahnMid_step {c : Circuit} (hnd : (idsOf c).Nodup) {sorted' : List CircuitNode}
    {vid : String} {rest' : List String} {deg : String → Int} {q : List CircuitNode}
    (h : KahnMid c sorted' (vid :: rest') deg q) :
    KahnMid c sorted' rest' (kahnVisit c (deg, q) vid).1 (kahnVisit c (deg, q) vid).2 := by
  obtain ⟨hA1, hA2, hB, hC, hD, hE, hF1, hF2⟩ := h
  have hdegvid : deg vid
      = ((countEdgesInto c (sorted'.map (fun n => n.id)) vid + (vid :: rest').count vid : Nat) : Int) :=
    hC vid
  rw [List.count_cons_self] at hdegvid
  -- the new in-degree function satisfies the shifted counting invariant
  have hC' : ∀ x, updateFn deg vid (deg vid - 1) x
      = ((countEdgesInto c (sorted'.map (fun n => n.id)) x + rest'.count x : Nat) : Int) := by
    intro x
    by_cases hx : x = vid
    · subst hx
      rw [updateFn_self, hdegvid]
      push_cast
      ring
    · rw [updateFn_other _ _ hx, hC x, List.count_cons_of_ne hx]
  by_cases hz : deg vid - 1 = 0
  · -- the decremented counter hit zero
    have hzero : countEdgesInto c (sorted'.map (fun n => n.id)) vid + rest'.count vid = 0 := by
      have := hC' vid
      rw [updateFn_self, hz] at this
      exact_mod_cast this.symm
    cases hl : getNode c vid with
    | none =>
      rw [kahnVisit_nolookup hz hl]
      refine ⟨hA1, hA2, hB, hC', ?_, ?_, hF1, hF2⟩
      · intro w hw hmem
        have := hD w hw hmem
        rw [List.count_cons] at this
        omega
      · intro w hw hmem
        have hwne : w.id ≠ vid := fun he => getNode_none hl w hw he
        have := hE w hw hmem
        rw [List.count_cons_of_ne hwne] at this
        exact this
    | some v =>
      obtain ⟨hvmem, hvid⟩ := getNode_some hl
      rw [kahnVisit_push hz hl]
      have hnotmem : vid ∉ (sorted' ++ q).map (fun n => n.id) := by
        intro hmem
        have := hD v hvmem (hvid ▸ hmem)
        rw [hvid, List.count_cons_self] at this
        omega
      refine ⟨?_, hA2, ?_, hC', ?_, ?_, hF1, ?_⟩
      · intro x hx
        rcases List.mem_append.mp hx with hx | hx
        · exact hA1 x hx
        · rw [List.mem_singleton.mp hx]; exact hvmem
      · -- distinctness of processed ++ queued ids after the push
        have : (sorted' ++ (q ++ [v])).map (fun n => n.id)
            = ((sorted' ++ q).map (fun n => n.id)) ++ [v.id] := by
          simp
        rw [this]
        apply List.Nodup.append hB (List.nodup_singleton _)
        intro x hx hx'
        rw [List.mem_singleton.mp hx'] at hx
        exact hnotmem (hvid ▸ hx)
      · intro w hw hmem
        have hmem' : w.id ∈ (sorted' ++ q).map (fun n => n.id) ∨ w.id = vid := by
          rcases List.mem_map.mp hmem with ⟨x, hx, hxid⟩
          rcases List.mem_append.mp hx with hx | hx
          · exact Or.inl (List.mem_map.mpr ⟨x, List.mem_append.mpr (Or.inl hx), hxid⟩)
          · rcases List.mem_append.mp hx with hx | hx
            · exact Or.inl (List.mem_map.mpr ⟨x, List.mem_append.mpr (Or.inr hx), hxid⟩)
            · rw [List.mem_singleton.mp hx] at hxid
              exact Or.inr (hxid ▸ hvid)
        rcases hmem' with hmem' | hmem'
        · have := hD w hw hmem'
          rw [List.count_cons] at this
          omega
        · rw [hmem']
          exact hzero
      · intro w hw hmem
        have hsub : ∀ x, x ∈ (sorted' ++ q).map (fun n => n.id) →
            x ∈ (sorted' ++ (q ++ [v])).map (fun n => n.id) := by
          intro x hx
          rcases List.mem_map.mp hx with ⟨y, hy, hyid⟩
          refine List.mem_map.mpr ⟨y, ?_, hyid⟩
          rcases List.mem_append.mp hy with hy | hy
          · exact List.mem_append.mpr (Or.inl hy)
          · exact List.mem_append.mpr (Or.inr (List.mem_append.mpr (Or.inl hy)))
        have hw1 : w.id ∉ (sorted' ++ q).map (fun n => n.id) := fun hx => hmem (hsub _ hx)
        have hv_new : vid ∈ (sorted' ++ (q ++ [v])).map (fun n => n.id) := by
          refine List.mem_map.mpr ⟨v, ?_, hvid⟩
          exact List.mem_append.mpr
            (Or.inr (List.mem_append.mpr (Or.inr (List.mem_singleton.mpr rfl))))
        have hwne : w.id ≠ vid := fun he => hmem (he ▸ hv_new)
        have := hE w hw hw1
        rw [List.count_cons_of_ne hwne] at this
        exact this
      · -- every in-neighbour of the pushed node is already processed
        intro x hx u hu hedge
        rcases List.mem_append.mp hx with hx | hx
        · exact hF2 x hx u hu hedge
        · rw [List.mem_singleton.mp hx] at hedge
          have hce : countEdgesInto c (sorted'.map (fun n => n.id)) vid = 0 := by omega
          by_cases hus : u.id ∈ sorted'.map (fun n => n.id)
          · rcases List.mem_map.mp hus with ⟨s, hs, hsid⟩
            rw [eq_of_mem_of_id_eq hnd hu (hA2 s hs) hsid.symm]
            exact hs
          · exact absurd (hvid ▸ hedge) (countEdgesInto_eq_zero hce u hu hus)
  · -- the counter did not hit zero: only the in-degree function changes
    rw [kahnVisit_nopush hz]
    refine ⟨hA1, hA2, hB, hC', ?_, ?_, hF1, hF2⟩
    · intro w hw hmem
      have := hD w hw hmem
      rw [List.count_cons] at this
      omega
    · intro w hw hmem
      by_cases hwv : w.id = vid
      · have := hC' vid
        rw [updateFn_self] at this
        have hne : ((countEdgesInto c (sorted'.map (fun n => n.id)) vid + rest'.count vid : Nat) : Int) ≠ 0 :=
          this ▸ hz
        rw [hwv]
        exact_mod_cast hne
      · have := hE w hw hmem
        rw [List.count_cons_of_ne hwv] at this
        exact this

theorem kahnVisit_phi {c : Circuit} {sorted' : List CircuitNode} {vid : String}
    {rest' : List String} {deg : String → Int} {q : List CircuitNode}
    (h : KahnMid c sorted' (vid :: rest') deg q) :
    kahnPhi c (kahnVisit c (deg, q) vid).1 (kahnVisit c (deg, q) vid).2 ≤ kahnPhi c deg q := by
  obtain ⟨hA1, hA2, hB, hC, hD, hE, hF1, hF2⟩ := h
  have hpt : ∀ x, (updateFn deg vid (deg vid - 1) x).toNat ≤ (deg x).toNat := by
    intro x
    by_cases hx : x = vid
    · subst hx
      rw [updateFn_self]
      exact Int.toNat_le_toNat (by omega)
    · rw [updateFn_other _ _ hx]
  have hsum : ∀ l : List CircuitNode,
      (l.map (fun n => ((updateFn deg vid (deg vid - 1)) n.id).toNat)).sum
        ≤ (l.map (fun n => (deg n.id).toNat)).sum :=
    fun l => List.sum_le_sum (fun n _ => hpt n.id)
  by_cases hz : deg vid - 1 = 0
  · cases hl : getNode c vid with
    | none =>
      rw [kahnVisit_nolookup hz hl]
      show kahnPhi c (updateFn deg vid (deg vid - 1)) q ≤ kahnPhi c deg q
      unfold kahnPhi
      have := hsum c.nodes
      omega
    | some v =>
      obtain ⟨hvmem, hvid⟩ := getNode_some hl
      rw [kahnVisit_push hz hl]
      show kahnPhi c (updateFn deg vid (deg vid - 1)) (q ++ [v]) ≤ kahnPhi c deg q
      unfold kahnPhi
      simp only [List.length_append, List.length_singleton]
      -- the pushed node's own counter drops from 1 to 0, paying for the push
      obtain ⟨l1, l2, hsplit⟩ := List.append_of_mem hvmem
      have hv1 : (deg v.id).toNat = 1 := by rw [hvid]; omega
      have hv0 : ((updateFn deg vid (deg vid - 1)) v.id).toNat = 0 := by
        rw [hvid, updateFn_self]; omega
      rw [hsplit]
      simp only [List.map_append, List.sum_append, List.map_cons, List.sum_cons, hv0, hv1]
      have h1 := hsum l1
      have h2 := hsum l2
      omega
  · rw [kahnVisit_nopush hz]
    show kahnPhi c (updateFn deg vid (deg vid - 1)) q ≤ kahnPhi c deg q
    unfold kahnPhi
    have := hsum c.nodes
    omega

theorem kahnMid_fold {c : Circuit} (hnd : (idsOf c).Nodup) :
    ∀ (rest : List String) (st : (String → Int) × List CircuitNode)
      (sorted' : List CircuitNode), KahnMid c sorted' rest st.1 st.2 →
    KahnMid c sorted' [] (rest.foldl (kahnVisit c) st).1 (rest.foldl (kahnVisit c) st).2
      ∧ kahnPhi c (rest.foldl (kahnVisit c) st).1 (rest.foldl (kahnVisit c) st).2
          ≤ kahnPhi c st.1 st.2 := by
  intro rest
  induction rest with
  | nil => intro st sorted' h; exact ⟨h, le_refl _⟩
  | cons vid rest' ih =>
    intro st sorted' h
    rw [← Prod.mk.eta (p := st)] at h ⊢
    simp only [List.foldl_cons]
    obtain ⟨hmid, hphi⟩ := ih (kahnVisit c (st.1, st.2) vid) sorted' (by
      have := kahnMid_step hnd h
      rwa [Prod.mk.eta] at this)
    refine ⟨hmid, le_trans hphi ?_⟩
    exact kahnVisit_phi h

theorem kahnMid_pop {c : Circuit} (hnd : (idsOf c).Nodup) {deg : String → Int}
    {u : CircuitNode} {qs sorted : List CircuitNode}
    (h : KahnMid c sorted [] deg (u :: qs)) :
    KahnMid c (sorted ++ [u]) u.outputs deg qs := by
  obtain ⟨hA1, hA2, hB, hC, hD, hE, hF1, hF2⟩ := h
  have hu : u ∈ c.nodes := hA1 u (List.mem_cons_self u qs)
  have hids : ((sorted ++ [u]) ++ qs).map (fun n => n.id)
      = (sorted ++ u :: qs).map (fun n => n.id) := by simp
  have huid : u.id ∉ sorted.map (fun n => n.id) := by
    intro hmem
    have h1 : (sorted.map (fun n => n.id)).Disjoint ((u :: qs).map (fun n => n.id)) := by
      have := hB
      rw [List.map_append, List.nodup_append] at this
      exact this.2.2
    exact (List.disjoint_left.mp h1 hmem) (by simp)
  have hsplit : ∀ vid, countEdgesInto c (sorted.map (fun n => n.id)) vid
      = countEdgesInto c ((sorted ++ [u]).map (fun n => n.id)) vid + u.outputs.count vid := by
    intro vid
    have := countEdgesInto_split hnd hu huid vid
    rw [List.map_append]
    simpa using this
  refine ⟨?_, ?_, ?_, ?_, ?_, ?_, ?_, ?_⟩
  · exact fun x hx => hA1 x (List.mem_cons_of_mem u hx)
  · intro x hx
    rcases List.mem_append.mp hx with hx | hx
    · exact hA2 x hx
    · rw [List.mem_singleton.mp hx]; exact hu
  · rw [hids]; exact hB
  · intro vid
    rw [hC vid, hsplit vid]
    simp
  · intro v hv hmem
    rw [hids] at hmem
    have := hD v hv hmem
    rw [List.count_nil] at this
    have := hsplit v.id
    omega
  · intro v hv hmem
    rw [hids] at hmem
    have := hE v hv hmem
    rw [List.count_nil] at this
    have h2 := hsplit v.id
    omega
  · intro j v hj w hw hedge
    rcases Nat.lt_trichotomy j sorted.length with hlt | heq | hgt
    · rw [List.get?_append hlt] at hj
      obtain ⟨i, hij, hi⟩ := hF1 j v hj w hw hedge
      exact ⟨i, hij, by rw [List.get?_append (lt_trans hij hlt)]; exact hi⟩
    · subst heq
      rw [List.get?_concat_length] at hj
      have hv : v = u := by injection hj with hj; exact hj.symm
      subst hv
      have hws := hF2 v (List.mem_cons_self v qs) w hw hedge
      obtain ⟨i, hi⟩ := List.mem_iff_get?.mp hws
      have hilt : i < sorted.length := by
        rcases List.get?_eq_some.mp hi with ⟨hl, _⟩
        exact hl
      exact ⟨i, hilt, by rw [List.get?_append hilt]; exact hi⟩
    · have : (sorted ++ [u]).get? j = none := by
        rw [List.get?_eq_none]
        simp
        omega
      rw [this] at hj
      exact absurd hj (by simp)
  · intro v hv w hw hedge
    exact List.mem_append.mpr (Or.inl (hF2 v (List.mem_cons_of_mem u hv) w hw hedge))

theorem kahnMid_drained {c : Circuit} {sorted : List CircuitNode} {deg : String → Int}
    (h : KahnMid c sorted [] deg []) : KahnFinal c sorted := by
  obtain ⟨hA1, hA2, hB, hC, hD, hE, hF1, hF2⟩ := h
  refine ⟨hA2, ?_, hF1, ?_⟩
  · simpa using hB
  · intro v hv hmem
    have h1 : v.id ∉ (sorted ++ ([] : List CircuitNode)).map (fun n => n.id) := by
      simpa using hmem
    have h2 := hE v hv h1
    rw [List.count_nil] at h2
    exact countEdgesInto_ne_zero (by omega)

theorem kahnLoop_spec {c : Circuit} (hnd : (idsOf c).Nodup) :
    ∀ (fuel : Nat) (deg : String → Int) (queue sorted : List CircuitNode),
    KahnMid c sorted [] deg queue → kahnPhi c deg queue ≤ fuel →
    KahnFinal c (kahnLoop c fuel deg queue sorted) := by
  intro fuel
  induction fuel with
  | zero =>
    intro deg queue sorted h hphi
    have hq : queue = [] := by
      cases queue with
      | nil => rfl
      | cons u qs =>
        unfold kahnPhi at hphi
        simp at hphi
    subst hq
    exact kahnMid_drained h
  | succ fuel ih =>
    intro deg queue sorted h hphi
    cases queue with
    | nil => exact kahnMid_drained h
    | cons u qs =>
      show KahnFinal c
        (kahnLoop c fuel (u.outputs.foldl (kahnVisit c) (deg, qs)).1
          (u.outputs.foldl (kahnVisit c) (deg, qs)).2 (sorted ++ [u]))
      have hpop := kahnMid_pop hnd h
      obtain ⟨hmid, hphi'⟩ := kahnMid_fold hnd u.outputs (deg, qs) (sorted ++ [u]) hpop
      apply ih _ _ _ hmid
      have hphi2 : kahnPhi c (u.outputs.foldl (kahnVisit c) (deg, qs)).1
          (u.outputs.foldl (kahnVisit c) (deg, qs)).2 ≤ kahnPhi c deg qs := hphi'
      have hqs : kahnPhi c deg qs + 1 = kahnPhi c deg (u :: qs) := by
        unfold kahnPhi
        simp [Nat.succ_add]
      omega

/-! ### D. Kahn's algorithm: initialisation and fuel bound -/

theorem kahnInit {c : Circuit} (hnd : (idsOf c).Nodup) :
    KahnMid c [] [] (initInDeg c)
      (c.nodes.filter (fun n => initInDeg c n.id = 0)) := by
  refine ⟨?_, ?_, ?_, ?_, ?_, ?_, ?_, ?_⟩
  · exact fun x hx => (List.mem_filter.mp hx).1
  · intro x hx; simp at hx
  · simp only [List.nil_append]
    exact List.Nodup.sublist (List.Sublist.map (fun n => n.id) (List.filter_sublist c.nodes)) hnd
  · intro vid
    rw [initInDeg_eval]
    simp
  · intro v hv hmem
    simp only [List.nil_append] at hmem
    obtain ⟨v', hv', hvid⟩ := List.mem_map.mp hmem
    obtain ⟨hv'mem, hv'z⟩ := List.mem_filter.mp hv'
    have hz : initInDeg c v'.id = 0 := by simpa using hv'z
    rw [initInDeg_eval] at hz
    rw [List.count_nil, ← hvid]
    simpa using hz
  · intro v hv hmem
    simp only [List.nil_append] at hmem
    rw [List.count_nil]
    intro hz
    apply hmem
    refine List.mem_map.mpr ⟨v, List.mem_filter.mpr ⟨hv, ?_⟩, rfl⟩
    rw [initInDeg_eval]
    simp at hz ⊢
    omega
  · intro j v hj; simp at hj
  · intro v hv w hw hedge
    obtain ⟨hvmem, hvz⟩ := List.mem_filter.mp hv
    have hz : initInDeg c v.id = 0 := by simpa using hvz
    rw [initInDeg_eval] at hz
    have hce : countEdgesInto c (([] : List CircuitNode).map (fun n => n.id)) v.id = 0 := by
      simpa using hz
    exact absurd hedge (countEdgesInto_eq_zero hce w hw (by simp))

theorem length_count_filter (i : String) :
    ∀ l : List String, l.length = l.count i + (l.filter (fun y => y ≠ i)).length := by
  intro l
  induction l with
  | nil => simp
  | cons y t ih =>
    by_cases hy : y = i
    · subst hy
      rw [List.count_cons_self]
      simp only [List.filter_cons]
      rw [if_neg (by simp)]
      simp only [List.length_cons]
      omega
    · rw [List.count_cons_of_ne (by simpa using (Ne.symm hy))]
      simp only [List.filter_cons]
      rw [if_pos (by simpa using hy)]
      simp only [List.length_cons]
      omega

theorem count_filter_ne {x i : String} (hxi : x ≠ i) :
    ∀ l : List String, (l.filter (fun y => y ≠ i)).count x = l.count x := by
  intro l
  induction l with
  | nil => simp
  | cons y t ih =>
    by_cases hy : y = i
    · subst hy
      simp only [List.filter_cons]
      rw [if_neg (by simp), List.count_cons_of_ne hxi]
      exact ih
    · simp only [List.filter_cons]
      rw [if_pos (by simpa using hy)]
      by_cases hx : x = y
      · subst hx
        rw [List.count_cons_self, List.count_cons_self]
        omega
      · rw [List.count_cons_of_ne hx, List.count_cons_of_ne hx]
        exact ih

theorem sum_count_le : ∀ (ids : List String), ids.Nodup → ∀ (l : List String),
    (ids.map (fun x => l.count x)).sum ≤ l.length := by
  intro ids
  induction ids with
  | nil => intro _ l; simp
  | cons i t ih =>
    intro hnd l
    rw [List.nodup_cons] at hnd
    simp only [List.map_cons, List.sum_cons]
    have hcongr : ∀ x ∈ t, l.count x = (l.filter (fun y => y ≠ i)).count x := by
      intro x hx
      refine (count_filter_ne ?_ l).symm
      intro he
      subst he
      exact hnd.1 hx
    rw [List.map_congr_left hcongr]
    have h1 := ih hnd.2 (l.filter (fun y => y ≠ i))
    have h2 := length_count_filter i l
    omega

theorem sum_map_add (f g : String → Nat) : ∀ l : List String,
    (l.map (fun x => f x + g x)).sum = (l.map f).sum + (l.map g).sum := by
  intro l
  induction l with
  | nil => simp
  | cons x t ih =>
    simp only [List.map_cons, List.sum_cons, ih]
    omega

theorem sum_in_le_sum_out : ∀ (ws : List CircuitNode) (ids : List String), ids.Nodup →
    (ids.map (fun x => (ws.map (fun w => w.outputs.count x)).sum)).sum
      ≤ (ws.map (fun w => w.outputs.length)).sum := by
  intro ws
  induction ws with
  | nil =>
    intro ids _
    simp
  | cons w t ih =>
    intro ids hnd
    simp only [List.map_cons, List.sum_cons]
    have hadd : (ids.map (fun x => w.outputs.count x
        + (t.map (fun w' => w'.outputs.count x)).sum)).sum
        = (ids.map (fun x => w.outputs.count x)).sum
          + (ids.map (fun x => (t.map (fun w' => w'.outputs.count x)).sum)).sum :=
      sum_map_add _ _ ids
    rw [hadd]
    have h1 := sum_count_le ids hnd w.outputs
    have h2 := ih ids hnd
    omega

theorem kahnPhi_init_le {c : Circuit} (hnd : (idsOf c).Nodup) :
    kahnPhi c (initInDeg c) (c.nodes.filter (fun n => initInDeg c n.id = 0)) ≤ kahnFuel c := by
  unfold kahnPhi kahnFuel
  have h1 : (c.nodes.filter (fun n => initInDeg c n.id = 0)).length ≤ c.nodes.length :=
    List.length_filter_le _ _
  have h2 : (c.nodes.map (fun n => (initInDeg c n.id).toNat)).sum
      ≤ (c.nodes.map (fun n => n.outputs.length)).sum := by
    have heq : ∀ n ∈ c.nodes, (initInDeg c n.id).toNat
        = (c.nodes.map (fun w => w.outputs.count n.id)).sum := by
      intro n _
      rw [initInDeg_eval]
      rw [Int.toNat_natCast]
      unfold countEdgesInto
      exact congrArg List.sum (List.map_congr_left (fun w _ => by simp))
    rw [List.map_congr_left heq]
    have hmm : (c.nodes.map (fun n => (c.nodes.map (fun w => w.outputs.count n.id)).sum))
        = ((c.nodes.map (fun n => n.id)).map
            (fun x => (c.nodes.map (fun w => w.outputs.count x)).sum)) := by
      rw [List.map_map]
      rfl
    rw [hmm]
    exact sum_in_le_sum_out c.nodes (c.nodes.map (fun n => n.id))
      (show (c.nodes.map (fun n => n.id)).Nodup from hnd)
  omega

/-! ### E. `getEvaluationOrder`: soundness and completeness -/

theorem getEvaluationOrder_eq (c : Circuit) :
    getEvaluationOrder c =
      if (kahnLoop c (kahnFuel c) (initInDeg c)
            (c.nodes.filter (fun n => initInDeg c n.id = 0)) []).length = c.nodes.length
      then some (kahnLoop c (kahnFuel c) (initInDeg c)
            (c.nodes.filter (fun n => initInDeg c n.id = 0)) [])
      else none := rfl

theorem evalOrder_some_spec {c : Circuit} (hnd : (idsOf c).Nodup) {ord : List CircuitNode}
    (h : getEvaluationOrder c = some ord) :
    KahnFinal c ord ∧ ord.length = c.nodes.length := by
  rw [getEvaluationOrder_eq] at h
  by_cases hlen : (kahnLoop c (kahnFuel c) (initInDeg c)
      (c.nodes.filter (fun n => initInDeg c n.id = 0)) []).length = c.nodes.length
  · rw [if_pos hlen] at h
    injection h with h
    subst h
    exact ⟨kahnLoop_spec hnd _ _ _ _ (kahnInit hnd) (kahnPhi_init_le hnd), hlen⟩
  · rw [if_neg hlen] at h
    exact absurd h (by simp)

theorem hasCycle_of_trapped {c : Circuit} (P : String → Prop)
    (hne : ∃ v ∈ c.nodes, P v.id)
    (hstep : ∀ v ∈ c.nodes, P v.id → ∃ w ∈ c.nodes, P w.id ∧ v.id ∈ w.outputs) :
    HasCycle c := by
  classical
  obtain ⟨v₀, hv₀, hp₀⟩ := hne
  have step : ∀ x : { x : CircuitNode // x ∈ c.nodes ∧ P x.id },
      ∃ y : { x : CircuitNode // x ∈ c.nodes ∧ P x.id }, Edge c y.1 x.1 := by
    rintro ⟨x, hx, hpx⟩
    obtain ⟨w, hw, hpw, he⟩ := hstep x hx hpx
    exact ⟨⟨w, hw, hpw⟩, hw, hx, he⟩
  choose g hg using step
  let f : Nat → { x : CircuitNode // x ∈ c.nodes ∧ P x.id } :=
    fun n => Nat.rec ⟨v₀, hv₀, hp₀⟩ (fun _ x => g x) n
  have hchain : ∀ a d : Nat, Relation.TransGen (Edge c) (f (a + d + 1)).1 (f a).1 := by
    intro a d
    induction d with
    | zero => exact Relation.TransGen.single (hg (f a))
    | succ d ih =>
      have hidx : a + (d + 1) + 1 = (a + d + 1) + 1 := by omega
      rw [hidx]
      exact Relation.TransGen.head (hg (f (a + d + 1))) ih
  have hmap : ∀ n ∈ Finset.range (c.nodes.length + 1), (f n).1 ∈ c.nodes.toFinset :=
    fun n _ => List.mem_toFinset.mpr (f n).2.1
  have hcard : (c.nodes.toFinset).card < (Finset.range (c.nodes.length + 1)).card := by
    rw [Finset.card_range]
    exact Nat.lt_succ_of_le (List.toFinset_card_le _)
  obtain ⟨a, _, b, _, hab, hfab⟩ :=
    Finset.exists_ne_map_eq_of_card_lt_of_maps_to hcard hmap
  rcases Nat.lt_or_ge a b with hlt | hge
  · obtain ⟨d, rfl⟩ : ∃ d, b = a + d + 1 := ⟨b - a - 1, by omega⟩
    exact ⟨(f a).1, by nth_rewrite 1 [hfab]; exact hchain a d⟩
  · have hlt' : b < a := by omega
    obtain ⟨d, rfl⟩ : ∃ d, a = b + d + 1 := ⟨a - b - 1, by omega⟩
    exact ⟨(f b).1, by nth_rewrite 1 [← hfab]; exact hchain b d⟩

theorem evalOrder_isSome_of_acyclic {c : Circuit} (hnd : (idsOf c).Nodup)
    (hacyc : Acyclic c) : ∃ ord, getEvaluationOrder c = some ord := by
  have hfin : KahnFinal c (kahnLoop c (kahnFuel c) (initInDeg c)
      (c.nodes.filter (fun n => initInDeg c n.id = 0)) []) :=
    kahnLoop_spec hnd _ _ _ _ (kahnInit hnd) (kahnPhi_init_le hnd)
  obtain ⟨hsub, hndres, htopo, htrap⟩ := hfin
  set res := kahnLoop c (kahnFuel c) (initInDeg c)
      (c.nodes.filter (fun n => initInDeg c n.id = 0)) [] with hres
  have hall : ∀ v ∈ c.nodes, v.id ∈ res.map (fun n => n.id) := by
    by_contra hmiss
    push_neg at hmiss
    obtain ⟨v, hv, hvid⟩ := hmiss
    exact hacyc (hasCycle_of_trapped (fun x => x ∉ res.map (fun n => n.id))
      ⟨v, hv, hvid⟩ (fun w hw hpw => htrap w hw hpw))
  have hperm : (res.map (fun n => n.id)).Perm (idsOf c) := by
    apply List.perm_of_nodup_nodup_toFinset_eq hndres hnd
    ext x
    simp only [List.mem_toFinset]
    constructor
    · intro hx
      obtain ⟨n, hn, hnid⟩ := List.mem_map.mp hx
      exact hnid ▸ List.mem_map.mpr ⟨n, hsub n hn, rfl⟩
    · intro hx
      obtain ⟨n, hn, hnid⟩ := List.mem_map.mp hx
      exact hnid ▸ hall n hn
  have hlen : res.length = c.nodes.length := by
    have h1 := hperm.length_eq
    rw [List.length_map] at h1
    have h2 : (idsOf c).length = c.nodes.length := List.length_map _ _
    omega
  exact ⟨res, by rw [getEvaluationOrder_eq, if_pos hlen]⟩

theorem transGen_positions {c : Circuit} (hnd : (idsOf c).Nodup) {ord : List CircuitNode}
    (hsub : ∀ x ∈ ord, x ∈ c.nodes) (hndres : (ord.map (fun n => n.id)).Nodup)
    (htopo : ∀ j v, ord.get? j = some v → ∀ u ∈ c.nodes, v.id ∈ u.outputs →
      ∃ i, i < j ∧ ord.get? i = some u)
    (hall : ∀ v ∈ c.nodes, v ∈ ord) :
    ∀ a b, Relation.TransGen (Edge c) a b →
      ∃ i j, i < j ∧ ord.get? i = some a ∧ ord.get? j = some b := by
  have hordnd : ord.Nodup := List.Nodup.of_map _ hndres
  intro a b h
  induction h with
  | single hab =>
    obtain ⟨j, hj⟩ := List.mem_iff_get?.mp (hall _ hab.2.1)
    obtain ⟨i, hij, hi⟩ := htopo j _ hj a hab.1 hab.2.2
    exact ⟨i, j, hij, hi, hj⟩
  | tail hab hbc ih =>
    obtain ⟨i, j, hij, hi, hj⟩ := ih
    obtain ⟨k, hk⟩ := List.mem_iff_get?.mp (hall _ hbc.2.1)
    obtain ⟨j', hj'k, hj'⟩ := htopo k _ hk _ hbc.1 hbc.2.2
    have hjj' : j = j' := by
      apply List.get?_inj _ hordnd (hj.trans hj'.symm)
      rcases List.get?_eq_some.mp hj with ⟨hl, _⟩
      exact hl
    exact ⟨i, k, by omega, hi, hk⟩

theorem evalOrder_covers {c : Circuit} (hnd : (idsOf c).Nodup)
    {ord : List CircuitNode} (h : getEvaluationOrder c = some ord) :
    ∀ v ∈ c.nodes, v ∈ ord := by
  obtain ⟨⟨hsub, hndres, _, _⟩, hlen⟩ := evalOrder_some_spec hnd h
  have hperm : (ord.map (fun n => n.id)).Perm (idsOf c) := by
    apply List.perm_of_nodup_nodup_toFinset_eq hndres hnd
    have hsubids : ∀ x ∈ ord.map (fun n => n.id), x ∈ idsOf c := by
      intro x hx
      obtain ⟨n, hn, hnid⟩ := List.mem_map.mp hx
      exact hnid ▸ List.mem_map.mpr ⟨n, hsub n hn, rfl⟩
    apply Finset.eq_of_subset_of_card_le
    · intro x hx
      exact List.mem_toFinset.mpr (hsubids x (List.mem_toFinset.mp hx))
    · rw [List.toFinset_card_of_nodup hnd, List.toFinset_card_of_nodup hndres]
      unfold idsOf
      rw [List.length_map, List.length_map]
      omega
  intro v hv
  have : v.id ∈ ord.map (fun n => n.id) :=
    hperm.mem_iff.mpr (List.mem_map.mpr ⟨v, hv, rfl⟩)
  obtain ⟨n, hn, hnid⟩ := List.mem_map.mp this
  rw [← eq_of_mem_of_id_eq hnd (hsub n hn) hv hnid]
  exact hn

theorem acyclic_of_evalOrder {c : Circuit} (hnd : (idsOf c).Nodup)
    {ord : List CircuitNode} (h : getEvaluationOrder c = some ord) : Acyclic c := by
  obtain ⟨⟨hsub, hndres, htopo, _⟩, hlen⟩ := evalOrder_some_spec hnd h
  have hordnd : ord.Nodup := List.Nodup.of_map _ hndres
  have hall : ∀ v ∈ c.nodes, v ∈ ord := evalOrder_covers hnd h
  rintro ⟨u, hcyc⟩
  obtain ⟨i, j, hij, hi, hj⟩ := transGen_positions hnd hsub hndres htopo hall u u hcyc
  have : i = j := by
    apply List.get?_inj _ hordnd (hi.trans hj.symm)
    rcases List.get?_eq_some.mp hi with ⟨hl, _⟩
    exact hl
  omega

/-! ### F. Evaluation: single-pass value propagation -/

theorem updateNode_map_shape {g : CircuitNode → CircuitNode}
    (hg : ∀ m, nodeShape (g m) = nodeShape m) :
    ∀ (l : List CircuitNode) (i : String),
    (updateNode l i g).map nodeShape = l.map nodeShape := by
  intro l
  induction l with
  | nil => intro i; rfl
  | cons n t ih =>
    intro i
    unfold updateNode
    by_cases hn : n.id = i
    · rw [if_pos hn]
      simp only [List.map_cons, hg n]
    · rw [if_neg hn]
      simp only [List.map_cons, ih i]

theorem getNode_updateNode_ne {g : CircuitNode → CircuitNode}
    (hg : ∀ m, (g m).id = m.id) {i k : String} (hne : i ≠ k) :
    ∀ l : List CircuitNode, getNode ⟨updateNode l k g⟩ i = getNode ⟨l⟩ i := by
  intro l
  induction l with
  | nil => rfl
  | cons n t ih =>
    show (updateNode (n :: t) k g).find? (fun m => m.id = i)
      = ((n :: t).find? (fun m => m.id = i) : Option CircuitNode)
    unfold updateNode
    by_cases hn : n.id = k
    · rw [if_pos hn]
      rw [List.find?_cons_of_neg _ (by simp [hg n, hn]; exact Ne.symm hne),
        List.find?_cons_of_neg _ (by simp [hn]; exact Ne.symm hne)]
    · rw [if_neg hn]
      by_cases hni : n.id = i
      · rw [List.find?_cons_of_pos _ (by simp [hni]), List.find?_cons_of_pos _ (by simp [hni])]
      · rw [List.find?_cons_of_neg _ (by simp [hni]), List.find?_cons_of_neg _ (by simp [hni])]
        exact ih

theorem getNode_updateNode_self {g : CircuitNode → CircuitNode}
    (hg : ∀ m, (g m).id = m.id) (k : String) :
    ∀ l : List CircuitNode, getNode ⟨updateNode l k g⟩ k = (getNode ⟨l⟩ k).map g := by
  intro l
  induction l with
  | nil => rfl
  | cons n t ih =>
    show (updateNode (n :: t) k g).find? (fun m => m.id = k)
      = ((n :: t).find? (fun m => m.id = k) : Option CircuitNode).map g
    unfold updateNode
    by_cases hn : n.id = k
    · rw [if_pos hn]
      rw [List.find?_cons_of_pos _ (by simp [hg n, hn]),
        List.find?_cons_of_pos _ (by simp [hn])]
      rfl
    · rw [if_neg hn]
      rw [List.find?_cons_of_neg _ (by simp [hn]), List.find?_cons_of_neg _ (by simp [hn])]
      exact ih

theorem evalStep_shape (d : Circuit) (u : CircuitNode) :
    (evalStep d u).nodes.map nodeShape = d.nodes.map nodeShape := by
  unfold evalStep
  by_cases ht : u.type = NodeType.INPUT
  · rw [if_pos ht]
  · rw [if_neg ht]
    exact updateNode_map_shape (g := fun m => { m with value := compute d u })
      (fun m => rfl) d.nodes u.id

theorem evalStep_value_other {d : Circuit} {u : CircuitNode} {i : String}
    (hne : i ≠ u.id) : nodeValueById (evalStep d u) i = nodeValueById d i := by
  unfold evalStep
  by_cases ht : u.type = NodeType.INPUT
  · rw [if_pos ht]
  · rw [if_neg ht]
    unfold nodeValueById
    rw [getNode_updateNode_ne (g := fun m => { m with value := compute d u })
      (fun m => rfl) hne]

theorem evalStep_value_self {d : Circuit} {u : CircuitNode}
    (ht : u.type ≠ NodeType.INPUT) (hmem : u.id ∈ idsOf d) :
    nodeValueById (evalStep d u) u.id = compute d u := by
  unfold evalStep
  rw [if_neg ht]
  unfold nodeValueById
  rw [getNode_updateNode_self (g := fun m => { m with value := compute d u })
    (fun m => rfl) u.id]
  obtain ⟨n, hn, hnid⟩ := List.mem_map.mp hmem
  have hne : getNode d u.id ≠ none := by
    intro hnone
    exact getNode_none hnone n hn hnid
  obtain ⟨m, hm⟩ := Option.ne_none_iff_exists'.mp hne
  rw [hm]
  rfl

theorem eval_fold_shape : ∀ (todo : List CircuitNode) (d : Circuit),
    (todo.foldl evalStep d).nodes.map nodeShape = d.nodes.map nodeShape := by
  intro todo
  induction todo with
  | nil => intro d; rfl
  | cons u rest ih =>
    intro d
    simp only [List.foldl_cons]
    rw [ih (evalStep d u), evalStep_shape]

theorem idsOf_of_shape_eq {c c' : Circuit}
    (hs : c'.nodes.map nodeShape = c.nodes.map nodeShape) : idsOf c' = idsOf c := by
  have h1 : ∀ cc : Circuit, idsOf cc = (cc.nodes.map nodeShape).map (fun s => s.1) := by
    intro cc
    unfold idsOf
    rw [List.map_map]
    rfl
  rw [h1, h1, hs]

theorem eval_fold_value_stable : ∀ (todo : List CircuitNode) (d : Circuit) (i : String),
    i ∉ todo.map (fun n => n.id) →
    nodeValueById (todo.foldl evalStep d) i = nodeValueById d i := by
  intro todo
  induction todo with
  | nil => intro d i _; rfl
  | cons u rest ih =>
    intro d i hi
    simp only [List.map_cons, List.mem_cons] at hi
    push_neg at hi
    simp only [List.foldl_cons]
    rw [ih (evalStep d u) i hi.2, evalStep_value_other hi.1]

theorem eval_fold_input_stable : ∀ (todo : List CircuitNode) (d : Circuit) (i : String),
    (∀ v ∈ todo, v.id = i → v.type = NodeType.INPUT) →
    nodeValueById (todo.foldl evalStep d) i = nodeValueById d i := by
  intro todo
  induction todo with
  | nil => intro d i _; rfl
  | cons u rest ih =>
    intro d i hin
    simp only [List.foldl_cons]
    rw [ih (evalStep d u) i (fun v hv => hin v (List.mem_cons_of_mem u hv))]
    by_cases hui : u.id = i
    · have ht := hin u (List.mem_cons_self u rest) hui
      unfold evalStep
      rw [if_pos ht]
    · exact evalStep_value_other (fun he => hui he.symm)

theorem compute_INPUT {c : Circuit} {v : CircuitNode} (h : v.type = NodeType.INPUT) :
    compute c v = v.value := by
  unfold compute; rw [h]

theorem compute_OUTPUT {c : Circuit} {v : CircuitNode} (h : v.type = NodeType.OUTPUT) :
    compute c v = (match v.inputs with
      | [] => false
      | i :: _ => nodeValueById c i) := by
  unfold compute; rw [h]

theorem compute_AND {c : Circuit} {v : CircuitNode} (h : v.type = NodeType.AND) :
    compute c v = v.inputs.all (fun i => nodeValueById c i) := by
  unfold compute; rw [h]

theorem compute_OR {c : Circuit} {v : CircuitNode} (h : v.type = NodeType.OR) :
    compute c v = v.inputs.any (fun i => nodeValueById c i) := by
  unfold compute; rw [h]

theorem compute_NOT {c : Circuit} {v : CircuitNode} (h : v.type = NodeType.NOT) :
    compute c v = (match v.inputs with
      | [] => false
      | i :: _ => !(nodeValueById c i)) := by
  unfold compute; rw [h]

theorem compute_XOR {c : Circuit} {v : CircuitNode} (h : v.type = NodeType.XOR) :
    compute c v = ((v.inputs.countP (fun i => nodeValueById c i)) % 2 == 1) := by
  unfold compute; rw [h]

theorem all_congr_vals {p q : String → Bool} : ∀ l : List String,
    (∀ i ∈ l, p i = q i) → l.all p = l.all q := by
  intro l
  induction l with
  | nil => intro _; rfl
  | cons i t ih =>
    intro h
    rw [List.all_cons, List.all_cons, h i (List.mem_cons_self i t),
      ih (fun j hj => h j (List.mem_cons_of_mem i hj))]

theorem any_congr_vals {p q : String → Bool} : ∀ l : List String,
    (∀ i ∈ l, p i = q i) → l.any p = l.any q := by
  intro l
  induction l with
  | nil => intro _; rfl
  | cons i t ih =>
    intro h
    rw [List.any_cons, List.any_cons, h i (List.mem_cons_self i t),
      ih (fun j hj => h j (List.mem_cons_of_mem i hj))]

theorem countP_congr_vals {p q : String → Bool} : ∀ l : List String,
    (∀ i ∈ l, p i = q i) → l.countP p = l.countP q := by
  intro l
  induction l with
  | nil => intro _; rfl
  | cons i t ih =>
    intro h
    rw [List.countP_cons, List.countP_cons, h i (List.mem_cons_self i t),
      ih (fun j hj => h j (List.mem_cons_of_mem i hj))]

theorem compute_congr {d d' : Circuit} {v : CircuitNode}
    (h : ∀ i ∈ v.inputs, nodeValueById d' i = nodeValueById d i) :
    compute d' v = compute d v := by
  cases htype : v.type with
  | INPUT => rw [compute_INPUT htype, compute_INPUT htype]
  | OUTPUT =>
    rw [compute_OUTPUT htype, compute_OUTPUT htype]
    cases hi : v.inputs with
    | nil => rfl
    | cons i t =>
      show nodeValueById d' i = nodeValueById d i
      exact h i (by rw [hi]; exact List.mem_cons_self i t)
  | NOT =>
    rw [compute_NOT htype, compute_NOT htype]
    cases hi : v.inputs with
    | nil => rfl
    | cons i t =>
      show (!(nodeValueById d' i)) = (!(nodeValueById d i))
      rw [h i (by rw [hi]; exact List.mem_cons_self i t)]
  | AND =>
    rw [compute_AND htype, compute_AND htype]
    exact all_congr_vals v.inputs h
  | OR =>
    rw [compute_OR htype, compute_OR htype]
    exact any_congr_vals v.inputs h
  | XOR =>
    rw [compute_XOR htype, compute_XOR htype]
    rw [countP_congr_vals v.inputs h]

theorem eval_fold_fixpoint :
    ∀ (todo : List CircuitNode) (d : Circuit),
    (todo.map (fun n => n.id)).Nodup →
    (∀ v ∈ todo, v.id ∈ idsOf d) →
    (∀ k v, todo.get? k = some v → v.type ≠ NodeType.INPUT →
      ∀ i ∈ v.inputs, i ∉ (todo.drop k).map (fun n => n.id)) →
    ∀ k v, todo.get? k = some v → v.type ≠ NodeType.INPUT →
      nodeValueById (todo.foldl evalStep d) v.id = compute (todo.foldl evalStep d) v := by
  intro todo
  induction todo with
  | nil => intro d _ _ _ k v hk; simp at hk
  | cons u rest ih =>
    intro d hnd hids hord k v hk htv
    simp only [List.foldl_cons]
    rw [List.map_cons, List.nodup_cons] at hnd
    cases k with
    | zero =>
      have hvu : v = u := by injection hk with hk; exact hk.symm
      subst hvu
      -- value written at step 0 is never overwritten, and its input values are final
      have hnin : ∀ i ∈ v.inputs, i ∉ (v :: rest).map (fun n => n.id) := by
        intro i hi
        exact hord 0 v hk htv i hi
      have hstable : nodeValueById (rest.foldl evalStep (evalStep d v)) v.id
          = nodeValueById (evalStep d v) v.id :=
        eval_fold_value_stable rest (evalStep d v) v.id hnd.1
      rw [hstable, evalStep_value_self htv (hids v (List.mem_cons_self v rest))]
      apply compute_congr
      intro i hi
      have hi1 : i ∉ rest.map (fun n => n.id) := by
        intro hmem
        exact hnin i hi (by simp [hmem])
      have hi2 : i ≠ v.id := by
        intro he
        exact hnin i hi (by simp [he])
      rw [eval_fold_value_stable rest (evalStep d v) i hi1, evalStep_value_other hi2]
    | succ k =>
      have hk' : rest.get? k = some v := hk
      apply ih (evalStep d u) hnd.2
      · intro w hw
        have : idsOf (evalStep d u) = idsOf d := idsOf_of_shape_eq (evalStep_shape d u)
        rw [this]
        exact hids w (List.mem_cons_of_mem u hw)
      · intro k' v' hk'' htv' i hi
        exact hord (k' + 1) v' hk'' htv' i hi
      · exact hk'
      · exact htv

/-! ### G. Structure-only facts transfer across value changes -/

theorem nodeShape_id {a b : CircuitNode} (h : nodeShape a = nodeShape b) : a.id = b.id :=
  congrArg (fun s => s.1) h

theorem nodeShape_type {a b : CircuitNode} (h : nodeShape a = nodeShape b) : a.type = b.type :=
  congrArg (fun s => s.2.1) h

theorem nodeShape_inputs {a b : CircuitNode} (h : nodeShape a = nodeShape b) :
    a.inputs = b.inputs :=
  congrArg (fun s => s.2.2.1) h

theorem nodeShape_outputs {a b : CircuitNode} (h : nodeShape a = nodeShape b) :
    a.outputs = b.outputs :=
  congrArg (fun s => s.2.2.2.1) h

theorem nodeShape_label {a b : CircuitNode} (h : nodeShape a = nodeShape b) :
    a.label = b.label :=
  congrArg (fun s => s.2.2.2.2) h

theorem shape_partner {c c' : Circuit}
    (hs : c'.nodes.map nodeShape = c.nodes.map nodeShape) :
    ∀ a ∈ c'.nodes, ∃ b ∈ c.nodes, nodeShape b = nodeShape a := by
  intro a ha
  have hmem : nodeShape a ∈ c.nodes.map nodeShape := by
    rw [← hs]
    exact List.mem_map.mpr ⟨a, ha, rfl⟩
  obtain ⟨b, hb, hba⟩ := List.mem_map.mp hmem
  exact ⟨b, hb, hba⟩

theorem hasCycle_of_shape_eq {c c' : Circuit} (hnd : (idsOf c).Nodup)
    (hs : c'.nodes.map nodeShape = c.nodes.map nodeShape) :
    HasCycle c' → HasCycle c := by
  rintro ⟨u, hcyc⟩
  have main : ∀ a b, Relation.TransGen (Edge c') a b →
      ∀ x ∈ c.nodes, nodeShape x = nodeShape a →
      ∃ y ∈ c.nodes, nodeShape y = nodeShape b ∧ Relation.TransGen (Edge c) x y := by
    intro a b h
    induction h with
    | single hab =>
      intro x hx hxa
      obtain ⟨y, hy, hyb⟩ := shape_partner hs _ hab.2.1
      refine ⟨y, hy, hyb, Relation.TransGen.single ⟨hx, hy, ?_⟩⟩
      rw [nodeShape_id hyb, nodeShape_outputs hxa]
      exact hab.2.2
    | tail hab hbc ih =>
      intro x hx hxa
      obtain ⟨y, hy, hyb, htg⟩ := ih x hx hxa
      obtain ⟨z, hz, hzc⟩ := shape_partner hs _ hbc.2.1
      refine ⟨z, hz, hzc, Relation.TransGen.tail htg ⟨hy, hz, ?_⟩⟩
      rw [nodeShape_id hzc, nodeShape_outputs hyb]
      exact hbc.2.2
  have hu : u ∈ c'.nodes := by
    cases hcyc with
    | single h => exact h.1
    | tail _ h => exact h.2.1
  obtain ⟨x, hx, hxu⟩ := shape_partner hs u hu
  obtain ⟨y, hy, hyu, htg⟩ := main u u hcyc x hx hxu
  have hxy : x = y :=
    eq_of_mem_of_id_eq hnd hx hy ((nodeShape_id hxu).trans (nodeShape_id hyu).symm)
  exact ⟨x, by rw [hxy] at htg ⊢ <;> exact htg⟩

theorem wellFormed_of_shape_eq {c c' : Circuit}
    (hs : c'.nodes.map nodeShape = c.nodes.map nodeShape) :
    WellFormed c → WellFormed c' := by
  rintro ⟨hnd, hin, hout, hsym⟩
  refine ⟨?_, ?_, ?_, ?_⟩
  · rw [idsOf_of_shape_eq hs]; exact hnd
  · intro n hn i hi
    obtain ⟨m, hm, hmn⟩ := shape_partner hs n hn
    rw [idsOf_of_shape_eq hs]
    exact hin m hm i (by rw [nodeShape_inputs hmn]; exact hi)
  · intro n hn o ho
    obtain ⟨m, hm, hmn⟩ := shape_partner hs n hn
    rw [idsOf_of_shape_eq hs]
    exact hout m hm o (by rw [nodeShape_outputs hmn]; exact ho)
  · intro a ha b hb
    obtain ⟨a', ha', haa⟩ := shape_partner hs a ha
    obtain ⟨b', hb', hbb⟩ := shape_partner hs b hb
    rw [← nodeShape_id haa, ← nodeShape_id hbb, ← nodeShape_inputs hbb,
      ← nodeShape_outputs haa]
    exact hsym a' ha' b' hb'

theorem acyclic_of_shape_eq {c c' : Circuit} (hnd : (idsOf c).Nodup)
    (hs : c'.nodes.map nodeShape = c.nodes.map nodeShape) :
    Acyclic c → Acyclic c' := by
  intro hacyc hcyc
  exact hacyc (hasCycle_of_shape_eq hnd hs hcyc)

/-! ### H. `evaluate`: the central single-pass correctness fact -/

theorem evaluate_eq (c : Circuit) :
    evaluate c = (getEvaluationOrder c).map (fun ord => ord.foldl evalStep c) := by
  unfold evaluate
  cases getEvaluationOrder c <;> rfl

theorem evaluate_spec {c : Circuit} (hwf : WellFormed c) {c' : Circuit}
    (h : evaluate c = some c') :
    c'.nodes.map nodeShape = c.nodes.map nodeShape ∧
    (∀ v ∈ c.nodes, v.type = NodeType.INPUT → nodeValueById c' v.id = v.value) ∧
    (∀ v ∈ c.nodes, v.type ≠ NodeType.INPUT → nodeValueById c' v.id = compute c' v) := by
  obtain ⟨hnd, hin, hout, hsym⟩ := hwf
  rw [evaluate_eq] at h
  cases hord : getEvaluationOrder c with
  | none => rw [hord] at h; exact absurd h (by simp)
  | some ord =>
    rw [hord] at h
    simp only [Option.map_some'] at h
    injection h with h
    subst h
    obtain ⟨⟨hsub, hndres, htopo, _⟩, hlen⟩ := evalOrder_some_spec hnd hord
    have hcover := evalOrder_covers hnd hord
    have hordnd : ord.Nodup := List.Nodup.of_map _ hndres
    refine ⟨eval_fold_shape ord c, ?_, ?_⟩
    · intro v hv htv
      have hstable : nodeValueById (ord.foldl evalStep c) v.id = nodeValueById c v.id := by
        apply eval_fold_input_stable
        intro w hw hwid
        rw [eq_of_mem_of_id_eq hnd (hsub w hw) hv hwid]
        exact htv
      rw [hstable]
      unfold nodeValueById
      rw [getNode_of_mem hnd hv]
    · intro v hv htv
      obtain ⟨k, hk⟩ := List.mem_iff_get?.mp (hcover v hv)
      apply eval_fold_fixpoint ord c hndres
        (fun w hw => List.mem_map.mpr ⟨w, hsub w hw, rfl⟩) ?_ k v hk htv
      intro k' w hk' htw i hi
      have hw : w ∈ c.nodes := hsub w (List.get?_mem hk')
      have hiid : i ∈ idsOf c := hin w hw i hi
      obtain ⟨x, hx, hxid⟩ := List.mem_map.mp hiid
      have hedge : w.id ∈ x.outputs := (hsym x hx w hw).mp (hxid ▸ hi)
      obtain ⟨i₀, hi₀k, hi₀⟩ := htopo k' w hk' x hx hedge
      intro hdrop
      obtain ⟨y, hy, hyid⟩ := List.mem_map.mp hdrop
      have hymem : y ∈ ord := List.mem_of_mem_drop hy
      have hyx : y = x := eq_of_mem_of_id_eq hnd (hsub y hymem) hx (by rw [hyid, ← hxid])
      subst hyx
      obtain ⟨j, hj⟩ := List.mem_iff_get?.mp hy
      have hj' : ord.get? (k' + j) = some y := by
        rw [← List.get?_drop]
        exact hj
      have : i₀ = k' + j := by
        apply List.get?_inj _ hordnd (hi₀.trans hj'.symm)
        rcases List.get?_eq_some.mp hi₀ with ⟨hl, _⟩
        exact hl
      omega

/-! ### I. Setting the input assignment of a truth-table row -/

theorem setValue_write {c : Circuit} {k : String} {w : Bool} (hk : k ∈ idsOf c) :
    nodeValueById ⟨updateNode c.nodes k (fun m => { m with value := w })⟩ k = w := by
  unfold nodeValueById
  rw [getNode_updateNode_self (g := fun m => { m with value := w }) (fun m => rfl) k]
  obtain ⟨n, hn, hnid⟩ := List.mem_map.mp hk
  have hne : getNode c k ≠ none := fun hnone => getNode_none hnone n hn hnid
  obtain ⟨m, hm⟩ := Option.ne_none_iff_exists'.mp hne
  rw [hm]
  rfl

theorem setFold_shape (i : Nat) : ∀ (ps : List (Nat × CircuitNode)) (c : Circuit),
    ((ps.foldl (fun c' p =>
        (⟨updateNode c'.nodes p.2.id (fun m => { m with value := i.testBit p.1 })⟩ : Circuit))
      c).nodes.map nodeShape) = c.nodes.map nodeShape := by
  intro ps
  induction ps with
  | nil => intro c; rfl
  | cons p rest ih =>
    intro c
    simp only [List.foldl_cons]
    rw [ih]
    exact updateNode_map_shape (g := fun m => { m with value := i.testBit p.1 })
      (fun m => rfl) c.nodes p.2.id

theorem setFold_value_stable (i : Nat) : ∀ (ps : List (Nat × CircuitNode)) (c : Circuit)
    (x : String), x ∉ ps.map (fun p => p.2.id) →
    nodeValueById (ps.foldl (fun c' p =>
        (⟨updateNode c'.nodes p.2.id (fun m => { m with value := i.testBit p.1 })⟩ : Circuit))
      c) x = nodeValueById c x := by
  intro ps
  induction ps with
  | nil => intro c x _; rfl
  | cons p rest ih =>
    intro c x hx
    simp only [List.map_cons, List.mem_cons] at hx
    push_neg at hx
    simp only [List.foldl_cons]
    rw [ih _ x hx.2]
    unfold nodeValueById
    rw [getNode_updateNode_ne (g := fun m => { m with value := i.testBit p.1 })
      (fun m => rfl) hx.1]

theorem setFold_value_write (i : Nat) : ∀ (ps : List (Nat × CircuitNode)) (c : Circuit),
    (ps.map (fun p => p.2.id)).Nodup → (∀ p ∈ ps, p.2.id ∈ idsOf c) →
    ∀ p ∈ ps, nodeValueById (ps.foldl (fun c' p' =>
        (⟨updateNode c'.nodes p'.2.id (fun m => { m with value := i.testBit p'.1 })⟩ : Circuit))
      c) p.2.id = i.testBit p.1 := by
  intro ps
  induction ps with
  | nil => intro c _ _ p hp; simp at hp
  | cons p₀ rest ih =>
    intro c hnd hids p hp
    rw [List.map_cons, List.nodup_cons] at hnd
    simp only [List.foldl_cons]
    rcases List.mem_cons.mp hp with rfl | hp'
    · rw [setFold_value_stable i rest _ p.2.id hnd.1]
      exact setValue_write (hids p (List.mem_cons_self p rest))
    · apply ih _ hnd.2 _ p hp'
      intro q hq
      have hsh : ((⟨updateNode c.nodes p₀.2.id
          (fun m => { m with value := i.testBit p₀.1 })⟩ : Circuit)).nodes.map nodeShape
          = c.nodes.map nodeShape :=
        updateNode_map_shape (g := fun m => { m with value := i.testBit p₀.1 })
          (fun m => rfl) c.nodes p₀.2.id
      rw [idsOf_of_shape_eq hsh]
      exact hids q (List.mem_cons_of_mem p₀ hq)

theorem setInputsFromIndex_shape (c : Circuit) (ins : List CircuitNode) (i : Nat) :
    (setInputsFromIndex c ins i).nodes.map nodeShape = c.nodes.map nodeShape :=
  setFold_shape i ins.enum c

theorem setInputsFromIndex_value {c : Circuit} {ins : List CircuitNode} {i : Nat}
    (hnd : (ins.map (fun n => n.id)).Nodup) (hids : ∀ n ∈ ins, n.id ∈ idsOf c)
    {idx : Nat} {inp : CircuitNode} (h : ins.get? idx = some inp) :
    nodeValueById (setInputsFromIndex c ins i) inp.id = i.testBit idx := by
  have hnd' : (ins.enum.map (fun p => p.2.id)).Nodup := by
    have : ins.enum.map (fun p => p.2.id) = (ins.enum.map Prod.snd).map (fun n => n.id) := by
      rw [List.map_map]; rfl
    rw [this, List.enum_map_snd]
    exact hnd
  have hmem : (idx, inp) ∈ ins.enum := List.mem_enum_iff_get?.mpr h
  exact setFold_value_write i ins.enum c hnd'
    (fun p hp => hids p.2 (by
      have := List.mem_enum_iff_get?.mp hp
      exact List.get?_mem this)) (idx, inp) hmem

theorem compute_congr_shape {d : Circuit} {v v' : CircuitNode}
    (hs : nodeShape v = nodeShape v') (ht : v.type ≠ NodeType.INPUT) :
    compute d v = compute d v' := by
  have htype := nodeShape_type hs
  have hinp := nodeShape_inputs hs
  cases hv : v.type with
  | INPUT => exact absurd hv ht
  | OUTPUT => rw [compute_OUTPUT hv, compute_OUTPUT (htype ▸ hv), hinp]
  | AND => rw [compute_AND hv, compute_AND (htype ▸ hv), hinp]
  | OR => rw [compute_OR hv, compute_OR (htype ▸ hv), hinp]
  | NOT => rw [compute_NOT hv, compute_NOT (htype ▸ hv), hinp]
  | XOR => rw [compute_XOR hv, compute_XOR (htype ▸ hv), hinp]

/-! ### J. The truth-table loop -/

theorem getNodesByType_sub (c : Circuit) (t : NodeType) :
    ∀ n ∈ getNodesByType c t, n ∈ c.nodes ∧ n.type = t := by
  intro n hn
  obtain ⟨h1, h2⟩ := List.mem_filter.mp hn
  exact ⟨h1, by simpa using h2⟩

theorem getNodesByType_ids_nodup {c : Circuit} (hnd : (idsOf c).Nodup) (t : NodeType) :
    ((getNodesByType c t).map (fun n => n.id)).Nodup :=
  List.Nodup.sublist (List.Sublist.map (fun n => n.id) (List.filter_sublist c.nodes)) hnd

theorem ttLoop_spec {c₀ : Circuit} (hwf : WellFormed c₀) (hacyc : Acyclic c₀)
    (outs : List CircuitNode) :
    ∀ (rem i : Nat) (c : Circuit) (acc : List Row),
    c.nodes.map nodeShape = c₀.nodes.map nodeShape →
    ∃ rows, ttLoop (getNodesByType c₀ NodeType.INPUT) outs rem i c acc = acc ++ rows ∧
      rows.length = rem ∧
      (∀ k row, rows.get? k = some row → ∃ c₂,
        c₂.nodes.map nodeShape = c₀.nodes.map nodeShape ∧
        row = mkRow c₂ (getNodesByType c₀ NodeType.INPUT) outs ∧
        (∀ idx inp, (getNodesByType c₀ NodeType.INPUT).get? idx = some inp →
          nodeValueById c₂ inp.id = (i + k).testBit idx) ∧
        (∀ v ∈ c₀.nodes, v.type ≠ NodeType.INPUT →
          nodeValueById c₂ v.id = compute c₂ v)) := by
  have hnd₀ := hwf.1
  intro rem
  induction rem with
  | zero =>
    intro i c acc hshape
    exact ⟨[], by simp [ttLoop], rfl, fun k row hk => by simp at hk⟩
  | succ rem ih =>
    intro i c acc hshape
    set ins := getNodesByType c₀ NodeType.INPUT with hins
    set c₁ := setInputsFromIndex c ins i with hc₁
    have hshape₁ : c₁.nodes.map nodeShape = c₀.nodes.map nodeShape := by
      rw [hc₁, setInputsFromIndex_shape, hshape]
    have hnd₁ : (idsOf c₁).Nodup := by rw [idsOf_of_shape_eq hshape₁]; exact hnd₀
    have hwf₁ : WellFormed c₁ := wellFormed_of_shape_eq hshape₁ hwf
    have hacyc₁ : Acyclic c₁ := acyclic_of_shape_eq hnd₀ hshape₁ hacyc
    obtain ⟨ord, hord⟩ := evalOrder_isSome_of_acyclic hnd₁ hacyc₁
    have heval : evaluate c₁ = some (ord.foldl evalStep c₁) := by
      rw [evaluate_eq, hord]
      rfl
    set c₂ := ord.foldl evalStep c₁ with hc₂
    obtain ⟨hshape₂', hinputs₂, hfix₂⟩ := evaluate_spec hwf₁ heval
    have hshape₂ : c₂.nodes.map nodeShape = c₀.nodes.map nodeShape :=
      hshape₂'.trans hshape₁
    obtain ⟨rows', heq', hlen', hrows'⟩ := ih (i + 1) c₂ (acc ++ [mkRow c₂ ins outs]) hshape₂
    refine ⟨mkRow c₂ ins outs :: rows', ?_, by simp [hlen'], ?_⟩
    · show ttLoop ins outs (rem + 1) i c acc = _
      have hstep : ttLoop ins outs (rem + 1) i c acc
          = ttLoop ins outs rem (i + 1) c₂ (acc ++ [mkRow c₂ ins outs]) := by
        simp only [ttLoop]
        rw [← hc₁, heval]
      rw [hstep, heq']
      simp
    · intro k row hk
      cases k with
      | zero =>
        have hrow : row = mkRow c₂ ins outs := by
          simp at hk
          exact hk.symm
        refine ⟨c₂, hshape₂, hrow, ?_, ?_⟩
        · intro idx inp hidx
          have hinp := getNodesByType_sub c₀ NodeType.INPUT inp (List.get?_mem hidx)
          -- the partner of inp inside c₁ is an INPUT node whose value was just set
          obtain ⟨v₁, hv₁, hv₁s⟩ :=
            shape_partner hshape₁.symm inp hinp.1
          have hv₁id : v₁.id = inp.id := nodeShape_id hv₁s
          have hv₁t : v₁.type = NodeType.INPUT := by
            rw [nodeShape_type hv₁s]; exact hinp.2
          have hpres := hinputs₂ v₁ hv₁ hv₁t
          have hset : nodeValueById c₁ inp.id = i.testBit idx := by
            apply setInputsFromIndex_value (getNodesByType_ids_nodup hnd₀ _)
            · intro n hn
              rw [idsOf_of_shape_eq hshape]
              exact List.mem_map.mpr ⟨n, (getNodesByType_sub c₀ _ n hn).1, rfl⟩
            · exact hidx
          have hval₁ : v₁.value = nodeValueById c₁ v₁.id := by
            unfold nodeValueById
            rw [getNode_of_mem hnd₁ hv₁]
          rw [hv₁id] at hpres hval₁
          rw [hpres, hval₁, hset]
          congr 1
        · intro v hv htv
          obtain ⟨v₁, hv₁, hv₁s⟩ := shape_partner hshape₁.symm v hv
          have hv₁id : v₁.id = v.id := nodeShape_id hv₁s
          have hv₁t : v₁.type ≠ NodeType.INPUT := by
            rw [nodeShape_type hv₁s]; exact htv
          have := hfix₂ v₁ hv₁ hv₁t
          rw [hv₁id] at this
          rw [this]
          exact compute_congr_shape hv₁s hv₁t
      | succ k =>
        obtain ⟨c₃, hs₃, hrow₃, hvals₃, hfix₃⟩ := hrows' k row hk
        refine ⟨c₃, hs₃, hrow₃, ?_, hfix₃⟩
        intro idx inp hidx
        rw [hvals₃ idx inp hidx]
        congr 1
        omega

theorem getTruthTable_spec {c₀ : Circuit} (hwf : WellFormed c₀) (hacyc : Acyclic c₀) :
    ∃ rows, getTruthTable c₀ = rows ∧
      rows.length = 2 ^ (getNodesByType c₀ NodeType.INPUT).length ∧
      (∀ k row, rows.get? k = some row → ∃ c₂,
        c₂.nodes.map nodeShape = c₀.nodes.map nodeShape ∧
        row = mkRow c₂ (getNodesByType c₀ NodeType.INPUT)
          (getNodesByType c₀ NodeType.OUTPUT) ∧
        (∀ idx inp, (getNodesByType c₀ NodeType.INPUT).get? idx = some inp →
          nodeValueById c₂ inp.id = k.testBit idx) ∧
        (∀ v ∈ c₀.nodes, v.type ≠ NodeType.INPUT →
          nodeValueById c₂ v.id = compute c₂ v)) := by
  obtain ⟨rows, heq, hlen, hrows⟩ :=
    ttLoop_spec hwf hacyc (getNodesByType c₀ NodeType.OUTPUT)
      (2 ^ (getNodesByType c₀ NodeType.INPUT).length) 0 c₀ [] rfl
  refine ⟨rows, by simpa [getTruthTable] using heq, hlen, ?_⟩
  intro k row hk
  obtain ⟨c₂, h1, h2, h3, h4⟩ := hrows k row hk
  exact ⟨c₂, h1, h2, by simpa using h3, h4⟩

/-! ### K. Remaining generic helpers -/

theorem evalOrder_none_of_cycle {c : Circuit} (hnd : (idsOf c).Nodup)
    (hcyc : HasCycle c) : getEvaluationOrder c = none := by
  cases h : getEvaluationOrder c with
  | none => rfl
  | some ord => exact absurd hcyc (acyclic_of_evalOrder hnd h)

theorem acyclic_of_rank (c : Circuit) (f : String → Nat)
    (h : ∀ u ∈ c.nodes, ∀ v ∈ c.nodes, v.id ∈ u.outputs → f u.id < f v.id) :
    Acyclic c := by
  rintro ⟨u, hcyc⟩
  have main : ∀ a b, Relation.TransGen (Edge c) a b → f a.id < f b.id := by
    intro a b htg
    induction htg with
    | single hab => exact h _ hab.1 _ hab.2.1 hab.2.2
    | tail _ hbc ih => exact lt_trans ih (h _ hbc.1 _ hbc.2.1 hbc.2.2)
  exact lt_irrefl _ (main u u hcyc)

theorem perm_nodes_of_evalOrder {c : Circuit} (hnd : (idsOf c).Nodup)
    {ord : List CircuitNode} (h : getEvaluationOrder c = some ord) :
    ord.Perm c.nodes := by
  obtain ⟨⟨hsub, hndres, _, _⟩, _⟩ := evalOrder_some_spec hnd h
  have hcover := evalOrder_covers hnd h
  apply List.perm_of_nodup_nodup_toFinset_eq (List.Nodup.of_map _ hndres)
    (List.Nodup.of_map (fun n => n.id) (show (c.nodes.map (fun n => n.id)).Nodup from hnd))
  ext x
  simp only [List.mem_toFinset]
  exact ⟨fun hx => hsub x hx, fun hx => hcover x hx⟩

/-! ## The claims

### C2 — truth-table row shape (corrected: bit order is LSB-first) -/

/-- C2 counterexample: on the two-input circuit `wTwoIn` (inputs `A` then `B`),
row 1 of `getTruthTable` records `A ↦ true, B ↦ false`, whereas the claim's
MSB-first convention (`specMsbFirstBit`) predicts `A ↦ false, B ↦ true`. -/
theorem C2_counterexample :
    ((getTruthTable wTwoIn).get? 1).map (fun r => r.inputs)
        = some [("A", true), ("B", false)]
      ∧ [specMsbFirstBit 2 1 0, specMsbFirstBit 2 1 1] = [false, true] := by
  constructor
  · decide
  · decide

/-- C2 (amended): for every well-formed acyclic circuit, `getTruthTable`
returns exactly `2^n` rows in ascending order of the assignment integer, and
row `k` records, for the input at iteration position `idx`, bit `idx` of `k`
— i.e. the least-significant bit goes to the first INPUT node (the code maps
`(i >> idx) & 1` to input `idx`), not the most-significant one. -/
theorem C2_truth_table_rows (c : Circuit) (hwf : WellFormed c) (hacyc : Acyclic c) :
    (getTruthTable c).length = 2 ^ (getNodesByType c NodeType.INPUT).length ∧
    ∀ k row, (getTruthTable c).get? k = some row →
      row.inputs = (getNodesByType c NodeType.INPUT).enum.map
        (fun p => (p.2.id, k.testBit p.1)) ∧
      row.inputLabels = (getNodesByType c NodeType.INPUT).map
        (fun n => (n.id, n.label)) := by
  obtain ⟨rows, heq, hlen, hrows⟩ := getTruthTable_spec hwf hacyc
  rw [heq]
  refine ⟨hlen, ?_⟩
  intro k row hk
  obtain ⟨c₂, hs₂, hrow, hvals, _⟩ := hrows k row hk
  subst hrow
  constructor
  · show (getNodesByType c NodeType.INPUT).map
        (fun inp => (inp.id, nodeValueById c₂ inp.id)) = _
    have h1 : (getNodesByType c NodeType.INPUT).map
        (fun inp => (inp.id, nodeValueById c₂ inp.id))
        = (getNodesByType c NodeType.INPUT).enum.map
            (fun p => (p.2.id, nodeValueById c₂ p.2.id)) := by
      rw [show ((getNodesByType c NodeType.INPUT).enum.map
          (fun p => (p.2.id, nodeValueById c₂ p.2.id)))
          = ((getNodesByType c NodeType.INPUT).enum.map Prod.snd).map
              (fun inp => (inp.id, nodeValueById c₂ inp.id)) by rw [List.map_map]; rfl]
      rw [List.enum_map_snd]
    rw [h1]
    apply List.map_congr_left
    intro p hp
    have := hvals p.1 p.2 (List.mem_enum_iff_get?.mp hp)
    rw [this]
  · rfl

/-- C2 witness at the concrete two-input circuit. -/
theorem C2_witness :
    (getTruthTable wTwoIn).length = 2 ^ (getNodesByType wTwoIn NodeType.INPUT).length ∧
    ∀ k row, (getTruthTable wTwoIn).get? k = some row →
      row.inputs = (getNodesByType wTwoIn NodeType.INPUT).enum.map
        (fun p => (p.2.id, k.testBit p.1)) ∧
      row.inputLabels = (getNodesByType wTwoIn NodeType.INPUT).map
        (fun n => (n.id, n.label)) :=
  C2_truth_table_rows wTwoIn (by decide) (acyclic_of_rank wTwoIn (fun _ => 0) (by decide))

/-! ### C3 — `getEvaluationOrder` is a topological order of all nodes -/

/-- C3: for every well-formed acyclic circuit, `getEvaluationOrder()` succeeds
and returns a permutation of the node set (every node exactly once), in which
the source of every edge appears strictly before its target. -/
theorem C3_evaluation_order (c : Circuit) (hwf : WellFormed c) (hacyc : Acyclic c) :
    ∃ ord, getEvaluationOrder c = some ord ∧ ord.Perm c.nodes ∧
      ∀ u ∈ c.nodes, ∀ v ∈ c.nodes, v.id ∈ u.outputs →
        ∃ i j, i < j ∧ ord.get? i = some u ∧ ord.get? j = some v := by
  have hnd := hwf.1
  obtain ⟨ord, hord⟩ := evalOrder_isSome_of_acyclic hnd hacyc
  obtain ⟨⟨hsub, hndres, htopo, _⟩, _⟩ := evalOrder_some_spec hnd hord
  refine ⟨ord, hord, perm_nodes_of_evalOrder hnd hord, ?_⟩
  intro u hu v hv hedge
  obtain ⟨j, hj⟩ := List.mem_iff_get?.mp (evalOrder_covers hnd hord v hv)
  obtain ⟨i, hij, hi⟩ := htopo j v hj u hu hedge
  exact ⟨i, j, hij, hi, hj⟩

/-- C3 witness at the concrete wire `A → B`. -/
theorem C3_witness :
    ∃ ord, getEvaluationOrder wChain = some ord ∧ ord.Perm wChain.nodes ∧
      ∀ u ∈ wChain.nodes, ∀ v ∈ wChain.nodes, v.id ∈ u.outputs →
        ∃ i j, i < j ∧ ord.get? i = some u ∧ ord.get? j = some v :=
  C3_evaluation_order wChain (by decide)
    (acyclic_of_rank wChain (fun s => if s = "A" then 0 else 1) (by decide))

/-! ### C4 — cyclic circuits: CycleDetected, and no partial evaluation -/

/-- C4: on every well-formed circuit containing a directed cycle, both
`getEvaluationOrder()` and `evaluate()` raise CycleDetected (modelled as
`none`), and the circuit state observed after the failed `evaluate()` call is
exactly the original one — no node's stored value has been modified. -/
theorem C4_cycle_detected (c : Circuit) (hwf : WellFormed c) (hcyc : HasCycle c) :
    getEvaluationOrder c = none ∧ evaluate c = none ∧ evalStateAfter c = c := by
  have h1 := evalOrder_none_of_cycle hwf.1 hcyc
  have h2 : evaluate c = none := by rw [evaluate_eq, h1]; rfl
  refine ⟨h1, h2, ?_⟩
  unfold evalStateAfter
  rw [h2]

/-- C4 witness at the concrete self-looped NOT gate. -/
theorem C4_witness :
    getEvaluationOrder wLoop = none ∧ evaluate wLoop = none ∧ evalStateAfter wLoop = wLoop :=
  C4_cycle_detected wLoop (by decide)
    ⟨{ id := "N", type := NodeType.NOT, inputs := ["N"], outputs := ["N"],
        value := false, label := "NOT" },
      Relation.TransGen.single (by refine ⟨?_, ?_, ?_⟩ <;> decide)⟩

/-! ### C5 — `compute()` per-kind semantics -/

/-- C5: `compute()` matches §4.1 for every kind: INPUT returns the stored
value; OUTPUT its first input's value (false with none); AND is true iff all
inputs are true (vacuously true with none); OR true iff some input is true
(false with none); NOT negates its first input (false with none); XOR is true
iff an odd number of inputs are true.  (XOR's `compute` is modelled from the
spec, its declaration being absent from the provided sources.) -/
theorem C5_compute_semantics (c : Circuit) (n : CircuitNode) :
    (n.type = NodeType.INPUT → compute c n = n.value) ∧
    (n.type = NodeType.OUTPUT → compute c n = (match n.inputs with
      | [] => false
      | i :: _ => nodeValueById c i)) ∧
    (n.type = NodeType.AND →
      (compute c n = true ↔ ∀ i ∈ n.inputs, nodeValueById c i = true)) ∧
    (n.type = NodeType.OR →
      (compute c n = true ↔ ∃ i ∈ n.inputs, nodeValueById c i = true)) ∧
    (n.type = NodeType.NOT → compute c n = (match n.inputs with
      | [] => false
      | i :: _ => !(nodeValueById c i))) ∧
    (n.type = NodeType.XOR →
      (compute c n = true ↔ (n.inputs.countP (fun i => nodeValueById c i)) % 2 = 1)) := by
  refine ⟨fun h => compute_INPUT h, fun h => compute_OUTPUT h, fun h => ?_,
    fun h => ?_, fun h => compute_NOT h, fun h => ?_⟩
  · rw [compute_AND h]
    exact List.all_eq_true
  · rw [compute_OR h]
    simp [List.any_eq_true]
  · rw [compute_XOR h]
    exact beq_iff_eq

/-- C5 witness: one concrete evaluation per kind on tiny nodes. -/
theorem C5_witness :
    compute wChain (mkAndGate "g") = true ∧
    (compute wChain wXorNode = true ↔
      ((wXorNode.inputs.countP (fun i => nodeValueById wChain i)) % 2 = 1)) := by
  constructor
  · exact ((C5_compute_semantics wChain (mkAndGate "g")).2.2.1 rfl).mpr (by decide)
  · exact (C5_compute_semantics wChain wXorNode).2.2.2.2.2 rfl

/-! ### C7 — cyclic circuits: empty truth table, no exception -/

/-- C7: on every well-formed circuit with a directed cycle, `getTruthTable()`
returns the empty table (the function is total — the CycleDetected failure is
converted, never propagated), and on acyclic circuits the table is never empty
(it has `2^n ≥ 1` rows), so the empty table is precisely the unevaluability
signal. -/
theorem C7_truth_table_cycle (c : Circuit) (hwf : WellFormed c) :
    (HasCycle c → getTruthTable c = []) ∧
    (Acyclic c → getTruthTable c ≠ []) := by
  constructor
  · intro hcyc
    show ttLoop (getNodesByType c NodeType.INPUT) (getNodesByType c NodeType.OUTPUT)
      (2 ^ (getNodesByType c NodeType.INPUT).length) 0 c [] = []
    obtain ⟨m, hm⟩ : ∃ m, 2 ^ (getNodesByType c NodeType.INPUT).length = m + 1 :=
      ⟨2 ^ (getNodesByType c NodeType.INPUT).length - 1,
        (Nat.succ_pred_eq_of_pos (Nat.pos_pow_of_pos _ (by norm_num))).symm⟩
    rw [hm]
    have hshape := setInputsFromIndex_shape c (getNodesByType c NodeType.INPUT) 0
    have hnd₁ : (idsOf (setInputsFromIndex c (getNodesByType c NodeType.INPUT) 0)).Nodup := by
      rw [idsOf_of_shape_eq hshape]
      exact hwf.1
    have hcyc₁ : HasCycle (setInputsFromIndex c (getNodesByType c NodeType.INPUT) 0) := by
      by_contra hnc
      exact hnc (hasCycle_of_shape_eq hnd₁ hshape.symm hcyc) |>.elim
    have heval : evaluate (setInputsFromIndex c (getNodesByType c NodeType.INPUT) 0) = none := by
      rw [evaluate_eq, evalOrder_none_of_cycle hnd₁ hcyc₁]
      rfl
    simp only [ttLoop]
    rw [heval]
  · intro hacyc
    obtain ⟨rows, heq, hlen, _⟩ := getTruthTable_spec hwf hacyc
    rw [heq]
    intro hnil
    rw [hnil] at hlen
    simp at hlen
    exact absurd hlen.symm (Nat.pos_iff_ne_zero.mp (Nat.pos_pow_of_pos _ (by norm_num)))

/-- C7 witness at the concrete self-looped NOT gate. -/
theorem C7_witness : getTruthTable wLoop = [] :=
  (C7_truth_table_cycle wLoop (by decide)).1
    ⟨{ id := "N", type := NodeType.NOT, inputs := ["N"], outputs := ["N"],
        value := false, label := "NOT" },
      Relation.TransGen.single (by refine ⟨?_, ?_, ?_⟩ <;> decide)⟩

/-! ### L. Synthesis: list-surgery lemmas -/

theorem setNodeList_fresh {n : CircuitNode} : ∀ {l : List CircuitNode},
    n.id ∉ l.map (fun m => m.id) → setNodeList l n = l ++ [n] := by
  intro l
  induction l with
  | nil => intro _; rfl
  | cons m t ih =>
    intro h
    simp only [List.map_cons, List.mem_cons] at h
    push_neg at h
    unfold setNodeList
    rw [if_neg (fun he => h.1 he.symm), ih h.2]
    rfl

theorem addNode_fresh {c : Circuit} {n : CircuitNode} (h : n.id ∉ idsOf c) :
    (addNode c n).nodes = c.nodes ++ [n] :=
  setNodeList_fresh h

theorem updateNode_cons_ne {m : CircuitNode} {i : String} (l : List CircuitNode)
    (f : CircuitNode → CircuitNode) (hne : m.id ≠ i) :
    updateNode (m :: l) i f = m :: updateNode l i f := by
  simp only [updateNode]
  rw [if_neg hne]

theorem updateNode_skip {i : String} {f : CircuitNode → CircuitNode} :
    ∀ {l1 l2 : List CircuitNode}, i ∉ l1.map (fun m => m.id) →
    updateNode (l1 ++ l2) i f = l1 ++ updateNode l2 i f := by
  intro l1
  induction l1 with
  | nil => intro l2 _; rfl
  | cons m t ih =>
    intro l2 h
    simp only [List.map_cons, List.mem_cons] at h
    push_neg at h
    show updateNode (m :: (t ++ l2)) i f = m :: (t ++ updateNode l2 i f)
    rw [updateNode_cons_ne _ _ (fun he => h.1 he.symm), ih h.2]

theorem updateNode_head (m : CircuitNode) (l : List CircuitNode)
    (f : CircuitNode → CircuitNode) : updateNode (m :: l) m.id f = f m :: l := by
  simp [updateNode]

theorem getNode_skip {i : String} : ∀ {l1 l2 : List CircuitNode},
    i ∉ l1.map (fun m => m.id) → getNode ⟨l1 ++ l2⟩ i = getNode ⟨l2⟩ i := by
  intro l1
  induction l1 with
  | nil => intro l2 _; rfl
  | cons m t ih =>
    intro l2 h
    simp only [List.map_cons, List.mem_cons] at h
    push_neg at h
    show (m :: (t ++ l2)).find? (fun x => x.id = i) = _
    rw [List.find?_cons_of_neg _ (by simp; exact fun he => h.1 he.symm)]
    exact ih h.2

theorem getNode_head (m : CircuitNode) (l : List CircuitNode) :
    getNode ⟨m :: l⟩ m.id = some m := by
  show (m :: l).find? (fun x => x.id = m.id) = some m
  rw [List.find?_cons_of_pos _ (by simp)]

theorem addConnection_explicit {c : Circuit} {fromId toId : String} {f t_ : CircuitNode}
    (hf : getNode c fromId = some f) (ht : getNode c toId = some t_)
    (hni : fromId ∉ t_.inputs) :
    addConnection c fromId toId
      = ⟨updateNode (updateNode c.nodes toId (fun x => { x with inputs := x.inputs ++ [fromId] }))
          fromId (fun x => { x with outputs := x.outputs ++ [toId] })⟩ := by
  unfold addConnection
  rw [hf, ht]
  show (if fromId ∈ t_.inputs then c else _) = _
  rw [if_neg hni]

/-! ### M. Synthesis: the input-creation phase -/

theorem phase1_nodes (n : Nat) :
    ((List.range n).foldl (fun c i => addNode c (mkInputNode (mkInputId i))) ⟨[]⟩).nodes
      = (List.range n).map (fun b => mkInputNode (mkInputId b)) := by
  induction n with
  | zero => rfl
  | succ n ih =>
    rw [List.range_succ, List.foldl_append, List.map_append]
    simp only [List.foldl_cons, List.foldl_nil, List.map_cons, List.map_nil]
    have hfresh : (mkInputNode (mkInputId n)).id
        ∉ idsOf ((List.range n).foldl (fun c i => addNode c (mkInputNode (mkInputId i))) ⟨[]⟩) := by
      show mkInputId n ∉ _
      unfold idsOf
      rw [ih, List.map_map]
      intro hmem
      obtain ⟨b, hb, hbid⟩ := List.mem_map.mp hmem
      rw [List.mem_range] at hb
      exact absurd (mkInputId_inj hbid) (by omega)
    rw [addNode_fresh hfresh, ih]

/-! ### N. Synthesis: id bookkeeping and node-shape stepping lemmas -/

theorem notin_map {A : Type} {g : A → String} {x : String} {l : List A}
    (h : ∀ a ∈ l, g a ≠ x) : x ∉ l.map g := by
  intro hx
  obtain ⟨a, ha, hax⟩ := List.mem_map.mp hx
  exact h a ha hax

theorem range_split {n b : Nat} (h : b < n) :
    List.range n = List.range b ++ b :: List.range' (b + 1) (n - b - 1) := by
  have h2 : List.range' b (n - b) = b :: List.range' (b + 1) (n - b - 1) := by
    conv_lhs => rw [show n - b = (n - b - 1) + 1 from by omega]
    rw [List.range'_succ]
  rw [← h2, List.range_eq_range', List.range_eq_range']
  have h3 := List.range'_append 0 b (n - b) 1
  simp only [Nat.one_mul, Nat.zero_add] at h3
  rw [h3]
  congr 1
  omega

theorem getNode_mid {l1 l2 : List CircuitNode} {m : CircuitNode}
    (h : m.id ∉ l1.map (fun x => x.id)) : getNode ⟨l1 ++ m :: l2⟩ m.id = some m := by
  rw [getNode_skip h]
  exact getNode_head m l2

theorem updateNode_mid {l1 l2 : List CircuitNode} {m : CircuitNode}
    {f : CircuitNode → CircuitNode} (h : m.id ∉ l1.map (fun x => x.id)) :
    updateNode (l1 ++ m :: l2) m.id f = l1 ++ f m :: l2 := by
  rw [updateNode_skip h, updateNode_head]

theorem ids_expInputMid (n : Nat) (ps : List (Nat × Nat)) (t row bits : Nat)
    (l : List Nat) :
    (l.map (expInputMid n ps t row bits)).map (fun m => m.id) = l.map mkInputId := by
  rw [List.map_map]
  rfl

theorem ids_expNot (t : Nat) (l : List Nat) :
    (l.map (expNot t)).map (fun m => m.id) = l.map (mkNotId t) := by
  rw [List.map_map]
  rfl

theorem expInputMid_zero (n : Nat) (ps : List (Nat × Nat)) (t row b : Nat) :
    expInputMid n ps t row 0 b = expInputPs n ps b := by
  unfold expInputMid expInputPs
  rw [if_neg (Nat.not_lt_zero b)]
  simp

theorem expInputMid_full (n : Nat) (ps : List (Nat × Nat)) (t row b : Nat) (h : b < n) :
    expInputMid n ps t row n b = expInputPs n (ps ++ [(t, row)]) b := by
  unfold expInputMid expInputPs
  rw [if_pos h, List.map_append]
  rfl

theorem expInputPs_enum (n : Nat) (ms : List Nat) (b : Nat) :
    expInputPs n ms.enum b = expInput n ms b := rfl

theorem expInputMid_congr (n : Nat) (ps : List (Nat × Nat)) (t row bits b : Nat)
    (h : b ≠ bits) :
    expInputMid n ps t row (bits + 1) b = expInputMid n ps t row bits b := by
  unfold expInputMid
  by_cases hb : b < bits
  · rw [if_pos hb, if_pos (by omega)]
  · rw [if_neg hb, if_neg (by omega)]

theorem expAndPartial_zero (n t row : Nat) :
    expAndPartial n t row 0 = mkAndGate (mkAndId t) := by
  unfold expAndPartial mkAndGate
  simp

theorem expAndPartial_snoc (n t row bits : Nat) :
    ({ expAndPartial n t row bits with inputs := (expAndPartial n t row bits).inputs
        ++ [if mintermBit n row bits then mkInputId bits else mkNotId t bits] } : CircuitNode)
      = expAndPartial n t row (bits + 1) := by
  unfold expAndPartial
  simp [List.range_succ]

theorem expMintermBlockMid_zero (n t row : Nat) :
    expMintermBlockMid n t row 0 = [expAndPartial n t row 0] := rfl

theorem expMintermBlockMid_full (n t row : Nat) :
    expMintermBlockMid n t row n = expMintermNoOr n (t, row) := rfl

theorem expMintermBlockMid_snoc_true (n t row bits : Nat)
    (hbit : mintermBit n row bits = true) :
    expMintermBlockMid n t row (bits + 1)
      = expAndPartial n t row (bits + 1) ::
          ((List.range bits).filter (fun b => !(mintermBit n row b))).map (expNot t) := by
  unfold expMintermBlockMid
  congr 1
  rw [List.range_succ, List.filter_append]
  simp [hbit]

theorem expMintermBlockMid_snoc_false (n t row bits : Nat)
    (hbit : mintermBit n row bits = false) :
    expMintermBlockMid n t row (bits + 1)
      = (expAndPartial n t row (bits + 1) ::
          ((List.range bits).filter (fun b => !(mintermBit n row b))).map (expNot t))
        ++ [expNot t bits] := by
  unfold expMintermBlockMid
  rw [List.range_succ, List.filter_append]
  simp [hbit]

theorem notin_ids_of_map {x : String} {f : Nat → CircuitNode} {l : List Nat}
    (h : ∀ b ∈ l, (f b).id ≠ x) : x ∉ (l.map f).map (fun m => m.id) := by
  rw [List.map_map]
  exact notin_map h

theorem expInputMid_snoc (n : Nat) (ps : List (Nat × Nat)) (t row bits : Nat) :
    ({ expInputMid n ps t row bits bits with
        outputs := (expInputMid n ps t row bits bits).outputs
          ++ [if mintermBit n row bits then mkAndId t else mkNotId t bits] } : CircuitNode)
      = expInputMid n ps t row (bits + 1) bits := by
  unfold expInputMid
  rw [if_neg (Nat.lt_irrefl bits), if_pos (Nat.lt_succ_self bits)]
  simp

theorem addNode_fresh_mk {c : Circuit} {n : CircuitNode} (h : n.id ∉ idsOf c) :
    addNode c n = ⟨c.nodes ++ [n]⟩ := by
  rw [← addNode_fresh h]

theorem blockMid_ids (n t row bits : Nat) :
    (expMintermBlockMid n t row bits).map (fun m => m.id)
      = mkAndId t :: ((List.range bits).filter (fun b => !(mintermBit n row b))).map (mkNotId t) := by
  show (expAndPartial n t row bits
      :: ((List.range bits).filter (fun b => !(mintermBit n row b))).map (expNot t)).map
        (fun m => m.id) = _
  rw [List.map_cons, ids_expNot]
  rfl

/-! ### O. Synthesis: one literal-wiring step of the minterm loop -/

theorem wireLiteral_step (n t row : Nat) (ps : List (Nat × Nat)) (B : List CircuitNode)
    (hB2 : mkAndId t ∉ B.map (fun m => m.id))
    (hB3 : ∀ b, mkNotId t b ∉ B.map (fun m => m.id))
    {bits : Nat} (hbits : bits < n) :
    wireLiteral n row t
        ⟨(List.range n).map (expInputMid n ps t row bits) ++ B
          ++ expMintermBlockMid n t row bits⟩ bits
      = ⟨(List.range n).map (expInputMid n ps t row (bits + 1)) ++ B
          ++ expMintermBlockMid n t row (bits + 1)⟩ := by
  have hsplitL : (List.range n).map (expInputMid n ps t row bits)
      = (List.range bits).map (expInputMid n ps t row bits)
        ++ expInputMid n ps t row bits bits
          :: (List.range' (bits + 1) (n - bits - 1)).map (expInputMid n ps t row bits) := by
    conv_lhs => rw [range_split hbits]
    rw [List.map_append, List.map_cons]
  have hA1 : (List.range bits).map (expInputMid n ps t row (bits + 1))
      = (List.range bits).map (expInputMid n ps t row bits) :=
    List.map_congr_left (fun b hb => expInputMid_congr n ps t row bits b
      (by rw [List.mem_range] at hb; omega))
  have hR1 : (List.range' (bits + 1) (n - bits - 1)).map (expInputMid n ps t row (bits + 1))
      = (List.range' (bits + 1) (n - bits - 1)).map (expInputMid n ps t row bits) :=
    List.map_congr_left (fun b hb => expInputMid_congr n ps t row bits b
      (by rw [List.mem_range'] at hb; obtain ⟨i, _, hi⟩ := hb; omega))
  have hsplitR : (List.range n).map (expInputMid n ps t row (bits + 1))
      = (List.range bits).map (expInputMid n ps t row bits)
        ++ expInputMid n ps t row (bits + 1) bits
          :: (List.range' (bits + 1) (n - bits - 1)).map (expInputMid n ps t row bits) := by
    conv_lhs => rw [range_split hbits]
    rw [List.map_append, List.map_cons, hA1, hR1]
  have hInNotinA1 : (expInputMid n ps t row bits bits).id
      ∉ ((List.range bits).map (expInputMid n ps t row bits)).map (fun m => m.id) := by
    apply notin_ids_of_map
    intro b hb he
    rw [List.mem_range] at hb
    have hbe : b = bits := mkInputId_inj he
    omega
  have hIds0 : ((List.range n).map (expInputMid n ps t row bits)).map (fun m => m.id)
      = (List.range n).map mkInputId := ids_expInputMid n ps t row bits (List.range n)
  have hAndNotinPre : (expAndPartial n t row bits).id
      ∉ (((List.range n).map (expInputMid n ps t row bits)) ++ B).map (fun m => m.id) := by
    rw [List.map_append, hIds0]
    intro hmem
    rcases List.mem_append.mp hmem with hm | hm
    · obtain ⟨a, _, heq⟩ := List.mem_map.mp hm
      exact (mkInputId_ne_mkAndId a t) heq
    · exact hB2 hm
  cases hbit : mintermBit n row bits with
  | true =>
    have h0 : (List.range n).map (expInputMid n ps t row bits) ++ B
          ++ expMintermBlockMid n t row bits
        = ((List.range n).map (expInputMid n ps t row bits) ++ B)
          ++ expAndPartial n t row bits
            :: ((List.range bits).filter (fun b => !(mintermBit n row b))).map (expNot t) := by
      simp [expMintermBlockMid, List.append_assoc]
    have hfrom : getNode ⟨(List.range n).map (expInputMid n ps t row bits) ++ B
          ++ expMintermBlockMid n t row bits⟩ (mkInputId bits)
        = some (expInputMid n ps t row bits bits) := by
      have h1 : (List.range n).map (expInputMid n ps t row bits) ++ B
            ++ expMintermBlockMid n t row bits
          = (List.range bits).map (expInputMid n ps t row bits)
            ++ expInputMid n ps t row bits bits
              :: ((List.range' (bits + 1) (n - bits - 1)).map (expInputMid n ps t row bits)
                ++ (B ++ expMintermBlockMid n t row bits)) := by
        rw [hsplitL]
        simp [List.append_assoc]
      rw [h1]
      exact getNode_mid hInNotinA1
    have hto : getNode ⟨(List.range n).map (expInputMid n ps t row bits) ++ B
          ++ expMintermBlockMid n t row bits⟩ (mkAndId t)
        = some (expAndPartial n t row bits) := by
      rw [h0]
      exact getNode_mid hAndNotinPre
    have hni : mkInputId bits ∉ (expAndPartial n t row bits).inputs := by
      show mkInputId bits ∉ (List.range bits).map
        (fun b => if mintermBit n row b then mkInputId b else mkNotId t b)
      intro hmem
      obtain ⟨b, hb, heq⟩ := List.mem_map.mp hmem
      rw [List.mem_range] at hb
      cases hmb : mintermBit n row b with
      | false =>
        rw [if_neg (by simp [hmb])] at heq
        exact (mkInputId_ne_mkNotId bits t b) heq.symm
      | true =>
        rw [if_pos hmb] at heq
        have hbe : b = bits := mkInputId_inj heq
        omega
    have hfa : ({ expAndPartial n t row bits with
          inputs := (expAndPartial n t row bits).inputs ++ [mkInputId bits] } : CircuitNode)
        = expAndPartial n t row (bits + 1) := by
      conv_lhs => rw [show mkInputId bits
          = (if mintermBit n row bits then mkInputId bits else mkNotId t bits) by
            rw [if_pos hbit]]
      exact expAndPartial_snoc n t row bits
    have hfo : ({ expInputMid n ps t row bits bits with
          outputs := (expInputMid n ps t row bits bits).outputs ++ [mkAndId t] } : CircuitNode)
        = expInputMid n ps t row (bits + 1) bits := by
      conv_lhs => rw [show mkAndId t
          = (if mintermBit n row bits then mkAndId t else mkNotId t bits) by
            rw [if_pos hbit]]
      exact expInputMid_snoc n ps t row bits
    unfold wireLiteral
    rw [if_pos hbit, addConnection_explicit hfrom hto hni]
    congr 1
    have e1 : updateNode (((List.range n).map (expInputMid n ps t row bits) ++ B)
          ++ expAndPartial n t row bits
            :: ((List.range bits).filter (fun b => !(mintermBit n row b))).map (expNot t))
          (mkAndId t) (fun x => { x with inputs := x.inputs ++ [mkInputId bits] })
        = ((List.range n).map (expInputMid n ps t row bits) ++ B)
          ++ ({ expAndPartial n t row bits with
              inputs := (expAndPartial n t row bits).inputs ++ [mkInputId bits] } : CircuitNode)
            :: ((List.range bits).filter (fun b => !(mintermBit n row b))).map (expNot t) :=
      @updateNode_mid ((List.range n).map (expInputMid n ps t row bits) ++ B)
        (((List.range bits).filter (fun b => !(mintermBit n row b))).map (expNot t))
        (expAndPartial n t row bits)
        (fun x => { x with inputs := x.inputs ++ [mkInputId bits] }) hAndNotinPre
    rw [hfa] at e1
    rw [h0, e1]
    have h2 : ((List.range n).map (expInputMid n ps t row bits) ++ B)
          ++ expAndPartial n t row (bits + 1)
            :: ((List.range bits).filter (fun b => !(mintermBit n row b))).map (expNot t)
        = (List.range bits).map (expInputMid n ps t row bits)
          ++ expInputMid n ps t row bits bits
            :: ((List.range' (bits + 1) (n - bits - 1)).map (expInputMid n ps t row bits)
              ++ (B ++ expAndPartial n t row (bits + 1)
                :: ((List.range bits).filter (fun b => !(mintermBit n row b))).map (expNot t))) := by
      rw [hsplitL]
      simp [List.append_assoc]
    rw [h2]
    have e2 : updateNode ((List.range bits).map (expInputMid n ps t row bits)
          ++ expInputMid n ps t row bits bits
            :: ((List.range' (bits + 1) (n - bits - 1)).map (expInputMid n ps t row bits)
              ++ (B ++ expAndPartial n t row (bits + 1)
                :: ((List.range bits).filter (fun b => !(mintermBit n row b))).map (expNot t))))
          (mkInputId bits) (fun x => { x with outputs := x.outputs ++ [mkAndId t] })
        = (List.range bits).map (expInputMid n ps t row bits)
          ++ ({ expInputMid n ps t row bits bits with
              outputs := (expInputMid n ps t row bits bits).outputs ++ [mkAndId t] } : CircuitNode)
            :: ((List.range' (bits + 1) (n - bits - 1)).map (expInputMid n ps t row bits)
              ++ (B ++ expAndPartial n t row (bits + 1)
                :: ((List.range bits).filter (fun b => !(mintermBit n row b))).map (expNot t))) :=
      @updateNode_mid ((List.range bits).map (expInputMid n ps t row bits))
        ((List.range' (bits + 1) (n - bits - 1)).map (expInputMid n ps t row bits)
          ++ (B ++ expAndPartial n t row (bits + 1)
            :: ((List.range bits).filter (fun b => !(mintermBit n row b))).map (expNot t)))
        (expInputMid n ps t row bits bits)
        (fun x => { x with outputs := x.outputs ++ [mkAndId t] }) hInNotinA1
    rw [hfo] at e2
    rw [e2, hsplitR, expMintermBlockMid_snoc_true n t row bits hbit]
    simp [List.append_assoc]
  | false =>
    have hNotFresh : (mkNotGate (mkNotId t bits)).id
        ∉ idsOf ⟨(List.range n).map (expInputMid n ps t row bits) ++ B
            ++ expMintermBlockMid n t row bits⟩ := by
      show mkNotId t bits
        ∉ ((List.range n).map (expInputMid n ps t row bits) ++ B
            ++ expMintermBlockMid n t row bits).map (fun m => m.id)
      rw [List.map_append, List.map_append, hIds0, blockMid_ids]
      intro hmem
      rcases List.mem_append.mp hmem with hm | hm
      · rcases List.mem_append.mp hm with hm1 | hm1
        · obtain ⟨a, _, heq⟩ := List.mem_map.mp hm1
          exact (mkInputId_ne_mkNotId a t bits) heq
        · exact hB3 bits hm1
      · rcases List.mem_cons.mp hm with hm1 | hm1
        · exact (mkAndId_ne_mkNotId t t bits) hm1.symm
        · obtain ⟨b, hb, heq⟩ := List.mem_map.mp hm1
          rw [List.mem_filter] at hb
          have hb2 := hb.1
          rw [List.mem_range] at hb2
          have hbe : b = bits := (mkNotId_inj heq).2
          omega
    unfold wireLiteral
    rw [if_neg (by simp [hbit])]
    show addConnection
        (addConnection
          (addNode ⟨(List.range n).map (expInputMid n ps t row bits) ++ B
              ++ expMintermBlockMid n t row bits⟩ (mkNotGate (mkNotId t bits)))
          (mkInputId bits) (mkNotId t bits))
        (mkNotId t bits) (mkAndId t)
      = ⟨(List.range n).map (expInputMid n ps t row (bits + 1)) ++ B
          ++ expMintermBlockMid n t row (bits + 1)⟩
    rw [addNode_fresh_mk hNotFresh]
    show addConnection
        (addConnection
          ⟨((List.range n).map (expInputMid n ps t row bits) ++ B
              ++ expMintermBlockMid n t row bits) ++ [mkNotGate (mkNotId t bits)]⟩
          (mkInputId bits) (mkNotId t bits))
        (mkNotId t bits) (mkAndId t)
      = ⟨(List.range n).map (expInputMid n ps t row (bits + 1)) ++ B
          ++ expMintermBlockMid n t row (bits + 1)⟩
    have hfrom1 : getNode ⟨((List.range n).map (expInputMid n ps t row bits) ++ B
            ++ expMintermBlockMid n t row bits) ++ [mkNotGate (mkNotId t bits)]⟩ (mkInputId bits)
        = some (expInputMid n ps t row bits bits) := by
      have h1 : ((List.range n).map (expInputMid n ps t row bits) ++ B
            ++ expMintermBlockMid n t row bits) ++ [mkNotGate (mkNotId t bits)]
          = (List.range bits).map (expInputMid n ps t row bits)
            ++ expInputMid n ps t row bits bits
              :: ((List.range' (bits + 1) (n - bits - 1)).map (expInputMid n ps t row bits)
                ++ (B ++ (expMintermBlockMid n t row bits ++ [mkNotGate (mkNotId t bits)]))) := by
        rw [hsplitL]
        simp [List.append_assoc]
      rw [h1]
      exact getNode_mid hInNotinA1
    have hto1 : getNode ⟨((List.range n).map (expInputMid n ps t row bits) ++ B
            ++ expMintermBlockMid n t row bits) ++ [mkNotGate (mkNotId t bits)]⟩ (mkNotId t bits)
        = some (mkNotGate (mkNotId t bits)) :=
      getNode_mid hNotFresh
    have hni1 : mkInputId bits ∉ (mkNotGate (mkNotId t bits)).inputs := by
      show mkInputId bits ∉ ([] : List String)
      exact List.not_mem_nil _
    rw [addConnection_explicit hfrom1 hto1 hni1]
    have e1 : updateNode (((List.range n).map (expInputMid n ps t row bits) ++ B
            ++ expMintermBlockMid n t row bits) ++ [mkNotGate (mkNotId t bits)])
          (mkNotId t bits) (fun x => { x with inputs := x.inputs ++ [mkInputId bits] })
        = ((List.range n).map (expInputMid n ps t row bits) ++ B
            ++ expMintermBlockMid n t row bits) ++ [expNotHalf t bits] :=
      @updateNode_mid ((List.range n).map (expInputMid n ps t row bits) ++ B
          ++ expMintermBlockMid n t row bits) [] (mkNotGate (mkNotId t bits))
        (fun x => { x with inputs := x.inputs ++ [mkInputId bits] }) hNotFresh
    rw [e1]
    have h2 : ((List.range n).map (expInputMid n ps t row bits) ++ B
            ++ expMintermBlockMid n t row bits) ++ [expNotHalf t bits]
        = (List.range bits).map (expInputMid n ps t row bits)
          ++ expInputMid n ps t row bits bits
            :: ((List.range' (bits + 1) (n - bits - 1)).map (expInputMid n ps t row bits)
              ++ (B ++ (expMintermBlockMid n t row bits ++ [expNotHalf t bits]))) := by
      rw [hsplitL]
      simp [List.append_assoc]
    rw [h2]
    have hfo1 : ({ expInputMid n ps t row bits bits with
          outputs := (expInputMid n ps t row bits bits).outputs ++ [mkNotId t bits] } : CircuitNode)
        = expInputMid n ps t row (bits + 1) bits := by
      conv_lhs => rw [show mkNotId t bits
          = (if mintermBit n row bits then mkAndId t else mkNotId t bits) by
            rw [if_neg (by simp [hbit])]]
      exact expInputMid_snoc n ps t row bits
    have e2 : updateNode ((List.range bits).map (expInputMid n ps t row bits)
          ++ expInputMid n ps t row bits bits
            :: ((List.range' (bits + 1) (n - bits - 1)).map (expInputMid n ps t row bits)
              ++ (B ++ (expMintermBlockMid n t row bits ++ [expNotHalf t bits]))))
          (mkInputId bits) (fun x => { x with outputs := x.outputs ++ [mkNotId t bits] })
        = (List.range bits).map (expInputMid n ps t row bits)
          ++ ({ expInputMid n ps t row bits bits with
              outputs := (expInputMid n ps t row bits bits).outputs
                ++ [mkNotId t bits] } : CircuitNode)
            :: ((List.range' (bits + 1) (n - bits - 1)).map (expInputMid n ps t row bits)
              ++ (B ++ (expMintermBlockMid n t row bits ++ [expNotHalf t bits]))) :=
      @updateNode_mid ((List.range bits).map (expInputMid n ps t row bits))
        ((List.range' (bits + 1) (n - bits - 1)).map (expInputMid n ps t row bits)
          ++ (B ++ (expMintermBlockMid n t row bits ++ [expNotHalf t bits])))
        (expInputMid n ps t row bits bits)
        (fun x => { x with outputs := x.outputs ++ [mkNotId t bits] }) hInNotinA1
    rw [hfo1] at e2
    rw [e2]
    have hMixIds : ((List.range bits).map (expInputMid n ps t row bits)
          ++ expInputMid n ps t row (bits + 1) bits
            :: (List.range' (bits + 1) (n - bits - 1)).map
                (expInputMid n ps t row bits)).map (fun m => m.id)
        = (List.range n).map mkInputId := by
      rw [← hsplitR]
      exact ids_expInputMid n ps t row (bits + 1) (List.range n)
    have hNotNotinL1 : (expNotHalf t bits).id
        ∉ (((List.range bits).map (expInputMid n ps t row bits)
            ++ expInputMid n ps t row (bits + 1) bits
              :: (List.range' (bits + 1) (n - bits - 1)).map (expInputMid n ps t row bits))
          ++ (B ++ expMintermBlockMid n t row bits)).map (fun m => m.id) := by
      rw [List.map_append, hMixIds, List.map_append, blockMid_ids]
      intro hmem
      rcases List.mem_append.mp hmem with hm | hm
      · obtain ⟨a, _, heq⟩ := List.mem_map.mp hm
        exact (mkInputId_ne_mkNotId a t bits) heq
      · rcases List.mem_append.mp hm with hm1 | hm1
        · exact hB3 bits hm1
        · rcases List.mem_cons.mp hm1 with hm2 | hm2
          · exact (mkAndId_ne_mkNotId t t bits) hm2.symm
          · obtain ⟨b, hb, heq⟩ := List.mem_map.mp hm2
            rw [List.mem_filter] at hb
            have hb2 := hb.1
            rw [List.mem_range] at hb2
            have hbe : b = bits := (mkNotId_inj heq).2
            omega
    have hfrom2 : getNode ⟨(List.range bits).map (expInputMid n ps t row bits)
          ++ expInputMid n ps t row (bits + 1) bits
            :: ((List.range' (bits + 1) (n - bits - 1)).map (expInputMid n ps t row bits)
              ++ (B ++ (expMintermBlockMid n t row bits ++ [expNotHalf t bits])))⟩
          (mkNotId t bits)
        = some (expNotHalf t bits) := by
      have h3 : (List.range bits).map (expInputMid n ps t row bits)
            ++ expInputMid n ps t row (bits + 1) bits
              :: ((List.range' (bits + 1) (n - bits - 1)).map (expInputMid n ps t row bits)
                ++ (B ++ (expMintermBlockMid n t row bits ++ [expNotHalf t bits])))
          = (((List.range bits).map (expInputMid n ps t row bits)
              ++ expInputMid n ps t row (bits + 1) bits
                :: (List.range' (bits + 1) (n - bits - 1)).map (expInputMid n ps t row bits))
            ++ (B ++ expMintermBlockMid n t row bits)) ++ expNotHalf t bits :: [] := by
        simp [List.append_assoc]
      rw [h3]
      exact getNode_mid hNotNotinL1
    have hAndNotinMixB : (expAndPartial n t row bits).id
        ∉ (((List.range bits).map (expInputMid n ps t row bits)
            ++ expInputMid n ps t row (bits + 1) bits
              :: (List.range' (bits + 1) (n - bits - 1)).map (expInputMid n ps t row bits))
          ++ B).map (fun m => m.id) := by
      rw [List.map_append, hMixIds]
      intro hmem
      rcases List.mem_append.mp hmem with hm | hm
      · obtain ⟨a, _, heq⟩ := List.mem_map.mp hm
        exact (mkInputId_ne_mkAndId a t) heq
      · exact hB2 hm
    have h0c : (List.range bits).map (expInputMid n ps t row bits)
          ++ expInputMid n ps t row (bits + 1) bits
            :: ((List.range' (bits + 1) (n - bits - 1)).map (expInputMid n ps t row bits)
              ++ (B ++ (expMintermBlockMid n t row bits ++ [expNotHalf t bits])))
        = (((List.range bits).map (expInputMid n ps t row bits)
            ++ expInputMid n ps t row (bits + 1) bits
              :: (List.range' (bits + 1) (n - bits - 1)).map (expInputMid n ps t row bits))
          ++ B) ++ expAndPartial n t row bits
            :: (((List.range bits).filter (fun b => !(mintermBit n row b))).map (expNot t)
              ++ [expNotHalf t bits]) := by
      simp [expMintermBlockMid, List.append_assoc]
    have hto2 : getNode ⟨(List.range bits).map (expInputMid n ps t row bits)
          ++ expInputMid n ps t row (bits + 1) bits
            :: ((List.range' (bits + 1) (n - bits - 1)).map (expInputMid n ps t row bits)
              ++ (B ++ (expMintermBlockMid n t row bits ++ [expNotHalf t bits])))⟩
          (mkAndId t)
        = some (expAndPartial n t row bits) := by
      rw [h0c]
      exact getNode_mid hAndNotinMixB
    have hni3 : mkNotId t bits ∉ (expAndPartial n t row bits).inputs := by
      show mkNotId t bits ∉ (List.range bits).map
        (fun b => if mintermBit n row b then mkInputId b else mkNotId t b)
      intro hmem
      obtain ⟨b, hb, heq⟩ := List.mem_map.mp hmem
      rw [List.mem_range] at hb
      cases hmb : mintermBit n row b with
      | false =>
        rw [if_neg (by simp [hmb])] at heq
        have hbe : b = bits := (mkNotId_inj heq).2
        omega
      | true =>
        rw [if_pos hmb] at heq
        exact (mkInputId_ne_mkNotId b t bits) heq
    rw [addConnection_explicit hfrom2 hto2 hni3]
    congr 1
    have e3 : updateNode ((((List.range bits).map (expInputMid n ps t row bits)
            ++ expInputMid n ps t row (bits + 1) bits
              :: (List.range' (bits + 1) (n - bits - 1)).map (expInputMid n ps t row bits))
          ++ B) ++ expAndPartial n t row bits
            :: (((List.range bits).filter (fun b => !(mintermBit n row b))).map (expNot t)
              ++ [expNotHalf t bits]))
          (mkAndId t) (fun x => { x with inputs := x.inputs ++ [mkNotId t bits] })
        = (((List.range bits).map (expInputMid n ps t row bits)
            ++ expInputMid n ps t row (bits + 1) bits
              :: (List.range' (bits + 1) (n - bits - 1)).map (expInputMid n ps t row bits))
          ++ B) ++ ({ expAndPartial n t row bits with
              inputs := (expAndPartial n t row bits).inputs ++ [mkNotId t bits] } : CircuitNode)
            :: (((List.range bits).filter (fun b => !(mintermBit n row b))).map (expNot t)
              ++ [expNotHalf t bits]) :=
      @updateNode_mid (((List.range bits).map (expInputMid n ps t row bits)
          ++ expInputMid n ps t row (bits + 1) bits
            :: (List.range' (bits + 1) (n - bits - 1)).map (expInputMid n ps t row bits))
        ++ B)
        (((List.range bits).filter (fun b => !(mintermBit n row b))).map (expNot t)
          ++ [expNotHalf t bits])
        (expAndPartial n t row bits)
        (fun x => { x with inputs := x.inputs ++ [mkNotId t bits] }) hAndNotinMixB
    have hfa2 : ({ expAndPartial n t row bits with
          inputs := (expAndPartial n t row bits).inputs ++ [mkNotId t bits] } : CircuitNode)
        = expAndPartial n t row (bits + 1) := by
      conv_lhs => rw [show mkNotId t bits
          = (if mintermBit n row bits then mkInputId bits else mkNotId t bits) by
            rw [if_neg (by simp [hbit])]]
      exact expAndPartial_snoc n t row bits
    rw [hfa2] at e3
    rw [h0c, e3]
    have hNotNotinL2 : (expNotHalf t bits).id
        ∉ ((((List.range bits).map (expInputMid n ps t row bits)
            ++ expInputMid n ps t row (bits + 1) bits
              :: (List.range' (bits + 1) (n - bits - 1)).map (expInputMid n ps t row bits))
          ++ B) ++ expAndPartial n t row (bits + 1)
            :: ((List.range bits).filter (fun b => !(mintermBit n row b))).map (expNot t)).map
          (fun m => m.id) := by
      rw [List.map_append, List.map_append, hMixIds, List.map_cons, ids_expNot]
      intro hmem
      rcases List.mem_append.mp hmem with hm | hm
      · rcases List.mem_append.mp hm with hm1 | hm1
        · obtain ⟨a, _, heq⟩ := List.mem_map.mp hm1
          exact (mkInputId_ne_mkNotId a t bits) heq
        · exact hB3 bits hm1
      · rcases List.mem_cons.mp hm with hm1 | hm1
        · exact (mkAndId_ne_mkNotId t t bits) hm1.symm
        · obtain ⟨b, hb, heq⟩ := List.mem_map.mp hm1
          rw [List.mem_filter] at hb
          have hb2 := hb.1
          rw [List.mem_range] at hb2
          have hbe : b = bits := (mkNotId_inj heq).2
          omega
    have h3 : (((List.range bits).map (expInputMid n ps t row bits)
            ++ expInputMid n ps t row (bits + 1) bits
              :: (List.range' (bits + 1) (n - bits - 1)).map (expInputMid n ps t row bits))
          ++ B) ++ expAndPartial n t row (bits + 1)
            :: (((List.range bits).filter (fun b => !(mintermBit n row b))).map (expNot t)
              ++ [expNotHalf t bits])
        = ((((List.range bits).map (expInputMid n ps t row bits)
            ++ expInputMid n ps t row (bits + 1) bits
              :: (List.range' (bits + 1) (n - bits - 1)).map (expInputMid n ps t row bits))
          ++ B) ++ expAndPartial n t row (bits + 1)
            :: ((List.range bits).filter (fun b => !(mintermBit n row b))).map (expNot t))
          ++ expNotHalf t bits :: [] := by
      simp [List.append_assoc]
    rw [h3]
    have e4 : updateNode (((((List.range bits).map (expInputMid n ps t row bits)
            ++ expInputMid n ps t row (bits + 1) bits
              :: (List.range' (bits + 1) (n - bits - 1)).map (expInputMid n ps t row bits))
          ++ B) ++ expAndPartial n t row (bits + 1)
            :: ((List.range bits).filter (fun b => !(mintermBit n row b))).map (expNot t))
          ++ expNotHalf t bits :: [])
          (mkNotId t bits) (fun x => { x with outputs := x.outputs ++ [mkAndId t] })
        = ((((List.range bits).map (expInputMid n ps t row bits)
            ++ expInputMid n ps t row (bits + 1) bits
              :: (List.range' (bits + 1) (n - bits - 1)).map (expInputMid n ps t row bits))
          ++ B) ++ expAndPartial n t row (bits + 1)
            :: ((List.range bits).filter (fun b => !(mintermBit n row b))).map (expNot t))
          ++ expNot t bits :: [] :=
      @updateNode_mid ((((List.range bits).map (expInputMid n ps t row bits)
          ++ expInputMid n ps t row (bits + 1) bits
            :: (List.range' (bits + 1) (n - bits - 1)).map (expInputMid n ps t row bits))
        ++ B) ++ expAndPartial n t row (bits + 1)
          :: ((List.range bits).filter (fun b => !(mintermBit n row b))).map (expNot t))
        [] (expNotHalf t bits)
        (fun x => { x with outputs := x.outputs ++ [mkAndId t] }) hNotNotinL2
    rw [e4, hsplitR, expMintermBlockMid_snoc_false n t row bits hbit]
    simp [List.append_assoc]

/-! ### P. Synthesis: the minterm loop, one minterm at a time -/

theorem wireLiteral_fold (n t row : Nat) (ps : List (Nat × Nat)) (B : List CircuitNode)
    (hB2 : mkAndId t ∉ B.map (fun m => m.id))
    (hB3 : ∀ b, mkNotId t b ∉ B.map (fun m => m.id)) :
    ∀ bits, bits ≤ n →
    (List.range bits).foldl (wireLiteral n row t)
        ⟨(List.range n).map (expInputMid n ps t row 0) ++ B ++ expMintermBlockMid n t row 0⟩
      = ⟨(List.range n).map (expInputMid n ps t row bits) ++ B
          ++ expMintermBlockMid n t row bits⟩ := by
  intro bits
  induction bits with
  | zero => intro _; rfl
  | succ bits ih =>
    intro hle
    rw [List.range_succ, List.foldl_append, ih (by omega)]
    simp only [List.foldl_cons, List.foldl_nil]
    exact wireLiteral_step n t row ps B hB2 hB3 (by omega)

theorem ids_expInputPs (n : Nat) (ps : List (Nat × Nat)) (l : List Nat) :
    (l.map (expInputPs n ps)).map (fun m => m.id) = l.map mkInputId := by
  rw [List.map_map]
  rfl

theorem addMinterm_nodes (n t row : Nat) (ps : List (Nat × Nat)) (B : List CircuitNode)
    (hB2 : mkAndId t ∉ B.map (fun m => m.id))
    (hB3 : ∀ b, mkNotId t b ∉ B.map (fun m => m.id)) :
    addMinterm n ⟨(List.range n).map (expInputPs n ps) ++ B⟩ t row
      = ⟨(List.range n).map (expInputPs n (ps ++ [(t, row)]))
          ++ (B ++ expMintermNoOr n (t, row))⟩ := by
  unfold addMinterm
  show (List.range n).foldl (wireLiteral n row t)
      (addNode ⟨(List.range n).map (expInputPs n ps) ++ B⟩ (mkAndGate (mkAndId t))) = _
  have hfresh : (mkAndGate (mkAndId t)).id
      ∉ idsOf ⟨(List.range n).map (expInputPs n ps) ++ B⟩ := by
    show mkAndId t ∉ ((List.range n).map (expInputPs n ps) ++ B).map (fun m => m.id)
    rw [List.map_append, ids_expInputPs]
    intro hmem
    rcases List.mem_append.mp hmem with hm | hm
    · obtain ⟨a, _, heq⟩ := List.mem_map.mp hm
      exact (mkInputId_ne_mkAndId a t) heq
    · exact hB2 hm
  rw [addNode_fresh_mk hfresh]
  show (List.range n).foldl (wireLiteral n row t)
      ⟨((List.range n).map (expInputPs n ps) ++ B) ++ [mkAndGate (mkAndId t)]⟩ = _
  have hzero : (List.range n).map (expInputPs n ps)
      = (List.range n).map (expInputMid n ps t row 0) :=
    (List.map_congr_left (fun b _ => expInputMid_zero n ps t row b)).symm
  have h0 : ((List.range n).map (expInputPs n ps) ++ B) ++ [mkAndGate (mkAndId t)]
      = (List.range n).map (expInputMid n ps t row 0) ++ B
        ++ expMintermBlockMid n t row 0 := by
    rw [hzero, expMintermBlockMid_zero, expAndPartial_zero]
  rw [h0, wireLiteral_fold n t row ps B hB2 hB3 n (Nat.le_refl n)]
  congr 1
  rw [expMintermBlockMid_full]
  have hfull : (List.range n).map (expInputMid n ps t row n)
      = (List.range n).map (expInputPs n (ps ++ [(t, row)])) :=
    List.map_congr_left (fun b hb => expInputMid_full n ps t row b
      (by rw [List.mem_range] at hb; exact hb))
  rw [hfull]
  simp [List.append_assoc]

theorem ids_expMintermNoOr (n : Nat) (q : Nat × Nat) :
    (expMintermNoOr n q).map (fun m => m.id)
      = mkAndId q.1 :: (notBits n q.2).map (mkNotId q.1) := by
  show ((expAndPartial n q.1 q.2 n) :: (notBits n q.2).map (expNot q.1)).map (fun m => m.id) = _
  rw [List.map_cons, ids_expNot]
  rfl

theorem notin_flatten_blocks {x : String} {n : Nat} {ps : List (Nat × Nat)}
    (h : ∀ q ∈ ps, x ∉ (expMintermNoOr n q).map (fun m => m.id)) :
    x ∉ ((ps.map (expMintermNoOr n)).flatten).map (fun m => m.id) := by
  intro hmem
  obtain ⟨y, hy, hyx⟩ := List.mem_map.mp hmem
  obtain ⟨l, hl, hyl⟩ := List.mem_flatten.mp hy
  obtain ⟨q, hq, hlq⟩ := List.mem_map.mp hl
  apply h q hq
  rw [← hlq] at hyl
  rw [← hyx]
  exact List.mem_map_of_mem _ hyl

theorem mintermFold_nodes (n : Nat) : ∀ (ls ps : List (Nat × Nat)),
    ((ps ++ ls).map (fun q => q.1)).Nodup →
    ls.foldl (fun c p => addMinterm n c p.1 p.2)
        ⟨(List.range n).map (expInputPs n ps) ++ (ps.map (expMintermNoOr n)).flatten⟩
      = ⟨(List.range n).map (expInputPs n (ps ++ ls))
          ++ ((ps ++ ls).map (expMintermNoOr n)).flatten⟩ := by
  intro ls
  induction ls with
  | nil =>
    intro ps _
    simp
  | cons p ls ih =>
    intro ps hnd
    have hfst : ∀ q ∈ ps, q.1 ≠ p.1 := by
      intro q hq heq
      rw [List.map_append, List.nodup_append] at hnd
      have hdisj := hnd.2.2
      have h1 : q.1 ∈ ps.map (fun q => q.1) := List.mem_map_of_mem _ hq
      have h2 : q.1 ∈ (p :: ls).map (fun q => q.1) := by
        rw [List.map_cons, heq]
        exact List.mem_cons_self _ _
      exact hdisj h1 h2
    have hB2 : mkAndId p.1
        ∉ ((ps.map (expMintermNoOr n)).flatten).map (fun m => m.id) := by
      apply notin_flatten_blocks
      intro q hq
      rw [ids_expMintermNoOr]
      intro hmem
      rcases List.mem_cons.mp hmem with h1 | h1
      · exact hfst q hq (mkAndId_inj h1).symm
      · obtain ⟨b, _, heq⟩ := List.mem_map.mp h1
        exact (mkAndId_ne_mkNotId p.1 q.1 b) heq.symm
    have hB3 : ∀ bb, mkNotId p.1 bb
        ∉ ((ps.map (expMintermNoOr n)).flatten).map (fun m => m.id) := by
      intro bb
      apply notin_flatten_blocks
      intro q hq
      rw [ids_expMintermNoOr]
      intro hmem
      rcases List.mem_cons.mp hmem with h1 | h1
      · exact (mkAndId_ne_mkNotId q.1 p.1 bb) h1.symm
      · obtain ⟨b, _, heq⟩ := List.mem_map.mp h1
        exact hfst q hq (mkNotId_inj heq).1
    rw [List.foldl_cons]
    show ls.foldl (fun c p => addMinterm n c p.1 p.2)
        (addMinterm n ⟨(List.range n).map (expInputPs n ps)
          ++ (ps.map (expMintermNoOr n)).flatten⟩ p.1 p.2) = _
    rw [addMinterm_nodes n p.1 p.2 ps ((ps.map (expMintermNoOr n)).flatten) hB2 hB3]
    have hshape : (List.range n).map (expInputPs n (ps ++ [(p.1, p.2)]))
          ++ ((ps.map (expMintermNoOr n)).flatten ++ expMintermNoOr n (p.1, p.2))
        = (List.range n).map (expInputPs n (ps ++ [p]))
          ++ ((ps ++ [p]).map (expMintermNoOr n)).flatten := by
      simp [List.flatten_append]
    rw [hshape]
    have harr : ps ++ p :: ls = (ps ++ [p]) ++ ls := by simp
    rw [harr] at hnd ⊢
    exact ih (ps ++ [p]) hnd

/-! ### Q. Synthesis: the OR-wiring stage -/

theorem enum_take_fst_lt {A : Type} {l : List A} {j : Nat} {p : Nat × A}
    (hp : p ∈ l.enum.take j) : p.1 < j := by
  rw [List.mem_iff_getElem] at hp
  obtain ⟨i, hi, hgi⟩ := hp
  have hij : i < j := by
    rw [List.length_take] at hi
    exact lt_of_lt_of_le hi (Nat.min_le_left _ _)
  rw [List.getElem_take] at hgi
  rw [List.getElem_enum] at hgi
  subst hgi
  show i < j
  exact hij

theorem enum_drop_fst_gt {A : Type} {l : List A} {j : Nat} {p : Nat × A}
    (hp : p ∈ l.enum.drop (j + 1)) : j < p.1 := by
  rw [List.mem_iff_getElem] at hp
  obtain ⟨i, hi, hgi⟩ := hp
  rw [List.getElem_drop] at hgi
  rw [List.getElem_enum] at hgi
  subst hgi
  show j < j + 1 + i
  omega

theorem enum_split {A : Type} (l : List A) (j : Nat) (h : j < l.length) :
    l.enum = l.enum.take j ++ (j, l[j]) :: l.enum.drop (j + 1) := by
  conv_lhs => rw [← List.take_append_drop j l.enum]
  congr 1
  rw [List.drop_eq_getElem_cons (by rw [List.enum_length]; exact h)]
  congr 1
  exact List.getElem_enum l j _

theorem expMintermSt_lt {n j : Nat} {q : Nat × Nat} (h : q.1 < j) :
    expMintermSt n j q = expMintermNodes n q := by
  unfold expMintermSt
  rw [if_pos h]

theorem expMintermSt_ge {n j : Nat} {q : Nat × Nat} (h : ¬ q.1 < j) :
    expMintermSt n j q = expMintermNoOr n q := by
  unfold expMintermSt
  rw [if_neg h]

theorem ids_expMintermNodes (n : Nat) (q : Nat × Nat) :
    (expMintermNodes n q).map (fun m => m.id)
      = mkAndId q.1 :: (notBits n q.2).map (mkNotId q.1) := by
  show ((expAnd n q.1 q.2) :: (notBits n q.2).map (expNot q.1)).map (fun m => m.id) = _
  rw [List.map_cons, ids_expNot]
  rfl

theorem ids_expMintermSt (n j : Nat) (q : Nat × Nat) :
    (expMintermSt n j q).map (fun m => m.id)
      = mkAndId q.1 :: (notBits n q.2).map (mkNotId q.1) := by
  by_cases h : q.1 < j
  · rw [expMintermSt_lt h]
    exact ids_expMintermNodes n q
  · rw [expMintermSt_ge h]
    exact ids_expMintermNoOr n q

theorem notin_flatten_map {A : Type} {x : String} {g : A → List CircuitNode} {ps : List A}
    (h : ∀ q ∈ ps, x ∉ (g q).map (fun m => m.id)) :
    x ∉ ((ps.map g).flatten).map (fun m => m.id) := by
  intro hmem
  obtain ⟨y, hy, hyx⟩ := List.mem_map.mp hmem
  obtain ⟨l, hl, hyl⟩ := List.mem_flatten.mp hy
  obtain ⟨q, hq, hlq⟩ := List.mem_map.mp hl
  apply h q hq
  rw [← hlq] at hyl
  rw [← hyx]
  exact List.mem_map_of_mem _ hyl

theorem expOrPartial_zero : expOrPartial 0 = mkOrGate "OR_FINAL" := by
  unfold expOrPartial mkOrGate
  simp

theorem expOrPartial_snoc (j : Nat) :
    ({ expOrPartial j with inputs := (expOrPartial j).inputs ++ [mkAndId j] } : CircuitNode)
      = expOrPartial (j + 1) := by
  unfold expOrPartial
  simp [List.range_succ]

theorem orWire_step (n j : Nat) (ms : List Nat) (hj : j < ms.length) :
    addConnection
        ⟨((List.range n).map (expInputPs n ms.enum)
            ++ (ms.enum.map (expMintermSt n j)).flatten) ++ [expOrPartial j]⟩
        (mkAndId j) "OR_FINAL"
      = ⟨((List.range n).map (expInputPs n ms.enum)
            ++ (ms.enum.map (expMintermSt n (j + 1))).flatten) ++ [expOrPartial (j + 1)]⟩ := by
  have hsplit := enum_split ms j hj
  have hFL : (ms.enum.map (expMintermSt n j)).flatten
      = ((ms.enum.take j).map (expMintermSt n j)).flatten
        ++ (expAndPartial n j (ms[j]) n
            :: ((notBits n (ms[j])).map (expNot j)
              ++ ((ms.enum.drop (j + 1)).map (expMintermSt n j)).flatten)) := by
    conv_lhs => rw [hsplit]
    rw [List.map_append, List.map_cons, List.flatten_append, List.flatten_cons]
    rw [@expMintermSt_ge n j (j, ms[j]) (by show ¬ j < j; omega)]
    rfl
  have hAndNotinL1 : (expAndPartial n j (ms[j]) n).id
      ∉ ((List.range n).map (expInputPs n ms.enum)
          ++ ((ms.enum.take j).map (expMintermSt n j)).flatten).map (fun m => m.id) := by
    rw [List.map_append, ids_expInputPs]
    intro hmem
    rcases List.mem_append.mp hmem with hm | hm
    · obtain ⟨a, _, heq⟩ := List.mem_map.mp hm
      exact (mkInputId_ne_mkAndId a j) heq
    · exact notin_flatten_map (fun q hq => by
        rw [ids_expMintermSt]
        intro hmem2
        rcases List.mem_cons.mp hmem2 with h1 | h1
        · have h2 : j = q.1 := mkAndId_inj h1
          have h3 := enum_take_fst_lt hq
          omega
        · obtain ⟨b, _, heq⟩ := List.mem_map.mp h1
          exact (mkAndId_ne_mkNotId j q.1 b) heq.symm) hm
  have hOrNotinPre : (expOrPartial j).id
      ∉ ((List.range n).map (expInputPs n ms.enum)
          ++ (ms.enum.map (expMintermSt n j)).flatten).map (fun m => m.id) := by
    rw [List.map_append, ids_expInputPs]
    intro hmem
    rcases List.mem_append.mp hmem with hm | hm
    · obtain ⟨a, _, heq⟩ := List.mem_map.mp hm
      exact (mkInputId_ne_or a) heq
    · exact notin_flatten_map (fun q hq => by
        rw [ids_expMintermSt]
        intro hmem2
        rcases List.mem_cons.mp hmem2 with h1 | h1
        · exact (mkAndId_ne_or q.1) h1.symm
        · obtain ⟨b, _, heq⟩ := List.mem_map.mp h1
          exact (mkNotId_ne_or q.1 b) heq) hm
  have hfrom : getNode ⟨((List.range n).map (expInputPs n ms.enum)
        ++ (ms.enum.map (expMintermSt n j)).flatten) ++ [expOrPartial j]⟩ (mkAndId j)
      = some (expAndPartial n j (ms[j]) n) := by
    have h0 : ((List.range n).map (expInputPs n ms.enum)
          ++ (ms.enum.map (expMintermSt n j)).flatten) ++ [expOrPartial j]
        = ((List.range n).map (expInputPs n ms.enum)
            ++ ((ms.enum.take j).map (expMintermSt n j)).flatten)
          ++ expAndPartial n j (ms[j]) n
            :: ((notBits n (ms[j])).map (expNot j)
              ++ (((ms.enum.drop (j + 1)).map (expMintermSt n j)).flatten
                ++ [expOrPartial j])) := by
      rw [hFL]
      simp [List.append_assoc]
    rw [h0]
    exact getNode_mid hAndNotinL1
  have hto : getNode ⟨((List.range n).map (expInputPs n ms.enum)
        ++ (ms.enum.map (expMintermSt n j)).flatten) ++ [expOrPartial j]⟩ "OR_FINAL"
      = some (expOrPartial j) :=
    getNode_mid hOrNotinPre
  have hni : mkAndId j ∉ (expOrPartial j).inputs := by
    show mkAndId j ∉ (List.range j).map mkAndId
    intro hmem
    obtain ⟨a, ha, heq⟩ := List.mem_map.mp hmem
    rw [List.mem_range] at ha
    have h2 : a = j := mkAndId_inj heq
    omega
  rw [addConnection_explicit hfrom hto hni]
  congr 1
  have e1 : updateNode (((List.range n).map (expInputPs n ms.enum)
        ++ (ms.enum.map (expMintermSt n j)).flatten) ++ [expOrPartial j]) "OR_FINAL"
        (fun x => { x with inputs := x.inputs ++ [mkAndId j] })
      = ((List.range n).map (expInputPs n ms.enum)
          ++ (ms.enum.map (expMintermSt n j)).flatten)
        ++ [({ expOrPartial j with
            inputs := (expOrPartial j).inputs ++ [mkAndId j] } : CircuitNode)] :=
    @updateNode_mid ((List.range n).map (expInputPs n ms.enum)
        ++ (ms.enum.map (expMintermSt n j)).flatten) [] (expOrPartial j)
      (fun x => { x with inputs := x.inputs ++ [mkAndId j] }) hOrNotinPre
  rw [expOrPartial_snoc j] at e1
  rw [e1]
  have h1 : ((List.range n).map (expInputPs n ms.enum)
        ++ (ms.enum.map (expMintermSt n j)).flatten) ++ [expOrPartial (j + 1)]
      = ((List.range n).map (expInputPs n ms.enum)
          ++ ((ms.enum.take j).map (expMintermSt n j)).flatten)
        ++ expAndPartial n j (ms[j]) n
          :: ((notBits n (ms[j])).map (expNot j)
            ++ (((ms.enum.drop (j + 1)).map (expMintermSt n j)).flatten
              ++ [expOrPartial (j + 1)])) := by
    rw [hFL]
    simp [List.append_assoc]
  rw [h1]
  have e2 : updateNode (((List.range n).map (expInputPs n ms.enum)
          ++ ((ms.enum.take j).map (expMintermSt n j)).flatten)
        ++ expAndPartial n j (ms[j]) n
          :: ((notBits n (ms[j])).map (expNot j)
            ++ (((ms.enum.drop (j + 1)).map (expMintermSt n j)).flatten
              ++ [expOrPartial (j + 1)])))
        (mkAndId j) (fun x => { x with outputs := x.outputs ++ ["OR_FINAL"] })
      = ((List.range n).map (expInputPs n ms.enum)
          ++ ((ms.enum.take j).map (expMintermSt n j)).flatten)
        ++ expAnd n j (ms[j])
          :: ((notBits n (ms[j])).map (expNot j)
            ++ (((ms.enum.drop (j + 1)).map (expMintermSt n j)).flatten
              ++ [expOrPartial (j + 1)])) :=
    @updateNode_mid ((List.range n).map (expInputPs n ms.enum)
        ++ ((ms.enum.take j).map (expMintermSt n j)).flatten)
      ((notBits n (ms[j])).map (expNot j)
        ++ (((ms.enum.drop (j + 1)).map (expMintermSt n j)).flatten
          ++ [expOrPartial (j + 1)]))
      (expAndPartial n j (ms[j]) n)
      (fun x => { x with outputs := x.outputs ++ ["OR_FINAL"] }) hAndNotinL1
  rw [e2]
  have hT : (ms.enum.take j).map (expMintermSt n (j + 1))
      = (ms.enum.take j).map (expMintermSt n j) :=
    List.map_congr_left (fun q hq => by
      have h2 := enum_take_fst_lt hq
      rw [expMintermSt_lt (by omega), expMintermSt_lt h2])
  have hD : (ms.enum.drop (j + 1)).map (expMintermSt n (j + 1))
      = (ms.enum.drop (j + 1)).map (expMintermSt n j) :=
    List.map_congr_left (fun q hq => by
      have h2 := enum_drop_fst_gt hq
      rw [expMintermSt_ge (by omega), expMintermSt_ge (by omega)])
  have hFL2 : (ms.enum.map (expMintermSt n (j + 1))).flatten
      = ((ms.enum.take j).map (expMintermSt n j)).flatten
        ++ (expAnd n j (ms[j])
            :: ((notBits n (ms[j])).map (expNot j)
              ++ ((ms.enum.drop (j + 1)).map (expMintermSt n j)).flatten)) := by
    conv_lhs => rw [hsplit]
    rw [List.map_append, List.map_cons, List.flatten_append, List.flatten_cons, hT, hD]
    rw [@expMintermSt_lt n (j + 1) (j, ms[j]) (by show j < j + 1; omega)]
    rfl
  rw [hFL2]
  simp [List.append_assoc]

theorem orWire_fold (n : Nat) (ms : List Nat) :
    ∀ j, j ≤ ms.length →
    (List.range j).foldl (fun c m => addConnection c (mkAndId m) "OR_FINAL")
        ⟨((List.range n).map (expInputPs n ms.enum)
            ++ (ms.enum.map (expMintermSt n 0)).flatten) ++ [expOrPartial 0]⟩
      = ⟨((List.range n).map (expInputPs n ms.enum)
            ++ (ms.enum.map (expMintermSt n j)).flatten) ++ [expOrPartial j]⟩ := by
  intro j
  induction j with
  | zero => intro _; rfl
  | succ j ih =>
    intro hle
    rw [List.range_succ, List.foldl_append, ih (by omega)]
    simp only [List.foldl_cons, List.foldl_nil]
    exact orWire_step n j ms (by omega)

/-! ### R. Synthesis: final assembly of the generated node list -/

theorem enum_fst_lt_len {A : Type} {l : List A} {p : Nat × A} (hp : p ∈ l.enum) :
    p.1 < l.length := by
  rw [List.mem_iff_getElem] at hp
  obtain ⟨i, hi, hgi⟩ := hp
  rw [List.getElem_enum] at hgi
  subst hgi
  show i < l.length
  rw [List.enum_length] at hi
  exact hi

theorem circuit_eq_of_nodes {c : Circuit} {l : List CircuitNode} (h : c.nodes = l) :
    c = ⟨l⟩ := by
  cases c
  cases h
  rfl

theorem phase1_circuit (n : Nat) :
    (List.range n).foldl (fun c i => addNode c (mkInputNode (mkInputId i))) ⟨[]⟩
      = ⟨(List.range n).map (expInputPs n ([] : List (Nat × Nat)))
          ++ ((([] : List (Nat × Nat)).map (expMintermNoOr n)).flatten)⟩ := by
  apply circuit_eq_of_nodes
  rw [phase1_nodes]
  show _ = (List.range n).map (expInputPs n ([] : List (Nat × Nat))) ++ []
  rw [List.append_nil]
  exact List.map_congr_left (fun b _ => rfl)

theorem synthTail (n : Nat) (ms : List Nat) :
    addConnection
      (addNode
        ((List.range ms.length).foldl (fun c m => addConnection c (mkAndId m) "OR_FINAL")
          (addNode
            (ms.enum.foldl (fun c p => addMinterm n c p.1 p.2)
              ((List.range n).foldl (fun c i => addNode c (mkInputNode (mkInputId i))) ⟨[]⟩))
            (mkOrGate "OR_FINAL")))
        (mkOutputNode "OUTPUT"))
      "OR_FINAL" "OUTPUT"
    = ⟨((List.range n).map (expInput n ms)
        ++ (ms.enum.map (expMintermNodes n)).flatten) ++ expOr ms.length :: [expOut]⟩ := by
  have hnd : ((([] : List (Nat × Nat)) ++ ms.enum).map (fun q => q.1)).Nodup := by
    simp only [List.nil_append]
    have he : ms.enum.map (fun q => q.1) = List.range ms.length := List.enum_map_fst ms
    rw [he]
    exact List.nodup_range _
  rw [phase1_circuit n, mintermFold_nodes n ms.enum [] hnd, List.nil_append]
  have hORfresh : (mkOrGate "OR_FINAL").id
      ∉ idsOf ⟨(List.range n).map (expInputPs n ms.enum)
          ++ (ms.enum.map (expMintermNoOr n)).flatten⟩ := by
    show "OR_FINAL" ∉ ((List.range n).map (expInputPs n ms.enum)
        ++ (ms.enum.map (expMintermNoOr n)).flatten).map (fun m => m.id)
    rw [List.map_append, ids_expInputPs]
    intro hmem
    rcases List.mem_append.mp hmem with hm | hm
    · obtain ⟨a, _, heq⟩ := List.mem_map.mp hm
      exact (mkInputId_ne_or a) heq
    · exact notin_flatten_map (fun q hq => by
        rw [ids_expMintermNoOr]
        intro hmem2
        rcases List.mem_cons.mp hmem2 with h1 | h1
        · exact (mkAndId_ne_or q.1) h1.symm
        · obtain ⟨b, _, heq⟩ := List.mem_map.mp h1
          exact (mkNotId_ne_or q.1 b) heq) hm
  rw [addNode_fresh_mk hORfresh]
  have hinit : (⟨((List.range n).map (expInputPs n ms.enum)
        ++ (ms.enum.map (expMintermNoOr n)).flatten)⟩ : Circuit).nodes ++ [mkOrGate "OR_FINAL"]
      = ((List.range n).map (expInputPs n ms.enum)
          ++ (ms.enum.map (expMintermSt n 0)).flatten) ++ [expOrPartial 0] := by
    show ((List.range n).map (expInputPs n ms.enum)
        ++ (ms.enum.map (expMintermNoOr n)).flatten) ++ [mkOrGate "OR_FINAL"] = _
    rw [expOrPartial_zero]
    have h0 : ms.enum.map (expMintermSt n 0) = ms.enum.map (expMintermNoOr n) :=
      List.map_congr_left (fun q _ => expMintermSt_ge (by omega))
    rw [h0]
  rw [hinit, orWire_fold n ms ms.length (Nat.le_refl ms.length)]
  have hOrNotinIF : (expOrPartial ms.length).id
      ∉ ((List.range n).map (expInputPs n ms.enum)
          ++ (ms.enum.map (expMintermSt n ms.length)).flatten).map (fun m => m.id) := by
    rw [List.map_append, ids_expInputPs]
    intro hmem
    rcases List.mem_append.mp hmem with hm | hm
    · obtain ⟨a, _, heq⟩ := List.mem_map.mp hm
      exact (mkInputId_ne_or a) heq
    · exact notin_flatten_map (fun q hq => by
        rw [ids_expMintermSt]
        intro hmem2
        rcases List.mem_cons.mp hmem2 with h1 | h1
        · exact (mkAndId_ne_or q.1) h1.symm
        · obtain ⟨b, _, heq⟩ := List.mem_map.mp h1
          exact (mkNotId_ne_or q.1 b) heq) hm
  have hOUTfresh : (mkOutputNode "OUTPUT").id
      ∉ idsOf ⟨((List.range n).map (expInputPs n ms.enum)
          ++ (ms.enum.map (expMintermSt n ms.length)).flatten) ++ [expOrPartial ms.length]⟩ := by
    show "OUTPUT" ∉ (((List.range n).map (expInputPs n ms.enum)
        ++ (ms.enum.map (expMintermSt n ms.length)).flatten)
      ++ [expOrPartial ms.length]).map (fun m => m.id)
    rw [List.map_append, List.map_append, ids_expInputPs]
    intro hmem
    rcases List.mem_append.mp hmem with hm | hm
    · rcases List.mem_append.mp hm with hm1 | hm1
      · obtain ⟨a, _, heq⟩ := List.mem_map.mp hm1
        exact (mkInputId_ne_out a) heq
      · exact notin_flatten_map (fun q hq => by
          rw [ids_expMintermSt]
          intro hmem2
          rcases List.mem_cons.mp hmem2 with h1 | h1
          · exact (mkAndId_ne_out q.1) h1.symm
          · obtain ⟨b, _, heq⟩ := List.mem_map.mp h1
            exact (mkNotId_ne_out q.1 b) heq) hm1
    · rcases List.mem_cons.mp hm with h1 | h1
      · have h2 : "OUTPUT" = "OR_FINAL" := h1
        exact absurd h2 (by decide)
      · exact absurd h1 (List.not_mem_nil _)
  rw [addNode_fresh_mk hOUTfresh]
  have h5 : (⟨((List.range n).map (expInputPs n ms.enum)
        ++ (ms.enum.map (expMintermSt n ms.length)).flatten)
      ++ [expOrPartial ms.length]⟩ : Circuit).nodes ++ [mkOutputNode "OUTPUT"]
      = ((List.range n).map (expInputPs n ms.enum)
          ++ (ms.enum.map (expMintermSt n ms.length)).flatten)
        ++ expOrPartial ms.length :: [mkOutputNode "OUTPUT"] := by
    show (((List.range n).map (expInputPs n ms.enum)
        ++ (ms.enum.map (expMintermSt n ms.length)).flatten)
      ++ [expOrPartial ms.length]) ++ [mkOutputNode "OUTPUT"] = _
    simp [List.append_assoc]
  rw [h5]
  have hfrom : getNode ⟨((List.range n).map (expInputPs n ms.enum)
        ++ (ms.enum.map (expMintermSt n ms.length)).flatten)
      ++ expOrPartial ms.length :: [mkOutputNode "OUTPUT"]⟩ "OR_FINAL"
      = some (expOrPartial ms.length) :=
    getNode_mid hOrNotinIF
  have hto : getNode ⟨((List.range n).map (expInputPs n ms.enum)
        ++ (ms.enum.map (expMintermSt n ms.length)).flatten)
      ++ expOrPartial ms.length :: [mkOutputNode "OUTPUT"]⟩ "OUTPUT"
      = some (mkOutputNode "OUTPUT") := by
    have h0 : ((List.range n).map (expInputPs n ms.enum)
          ++ (ms.enum.map (expMintermSt n ms.length)).flatten)
        ++ expOrPartial ms.length :: [mkOutputNode "OUTPUT"]
        = (((List.range n).map (expInputPs n ms.enum)
            ++ (ms.enum.map (expMintermSt n ms.length)).flatten)
          ++ [expOrPartial ms.length]) ++ mkOutputNode "OUTPUT" :: [] := by
      simp [List.append_assoc]
    rw [h0]
    exact getNode_mid hOUTfresh
  have hni : "OR_FINAL" ∉ (mkOutputNode "OUTPUT").inputs := by
    show "OR_FINAL" ∉ ([] : List String)
    exact List.not_mem_nil _
  rw [addConnection_explicit hfrom hto hni]
  congr 1
  have h0 : ((List.range n).map (expInputPs n ms.enum)
        ++ (ms.enum.map (expMintermSt n ms.length)).flatten)
      ++ expOrPartial ms.length :: [mkOutputNode "OUTPUT"]
      = (((List.range n).map (expInputPs n ms.enum)
          ++ (ms.enum.map (expMintermSt n ms.length)).flatten)
        ++ [expOrPartial ms.length]) ++ mkOutputNode "OUTPUT" :: [] := by
    simp [List.append_assoc]
  rw [h0]
  have e1 : updateNode ((((List.range n).map (expInputPs n ms.enum)
          ++ (ms.enum.map (expMintermSt n ms.length)).flatten)
        ++ [expOrPartial ms.length]) ++ mkOutputNode "OUTPUT" :: []) "OUTPUT"
        (fun x => { x with inputs := x.inputs ++ ["OR_FINAL"] })
      = (((List.range n).map (expInputPs n ms.enum)
          ++ (ms.enum.map (expMintermSt n ms.length)).flatten)
        ++ [expOrPartial ms.length]) ++ expOut :: [] :=
    @updateNode_mid (((List.range n).map (expInputPs n ms.enum)
        ++ (ms.enum.map (expMintermSt n ms.length)).flatten)
      ++ [expOrPartial ms.length]) [] (mkOutputNode "OUTPUT")
      (fun x => { x with inputs := x.inputs ++ ["OR_FINAL"] }) hOUTfresh
  rw [e1]
  have h1 : (((List.range n).map (expInputPs n ms.enum)
        ++ (ms.enum.map (expMintermSt n ms.length)).flatten)
      ++ [expOrPartial ms.length]) ++ expOut :: []
      = ((List.range n).map (expInputPs n ms.enum)
          ++ (ms.enum.map (expMintermSt n ms.length)).flatten)
        ++ expOrPartial ms.length :: [expOut] := by
    simp [List.append_assoc]
  rw [h1]
  have e2 : updateNode (((List.range n).map (expInputPs n ms.enum)
        ++ (ms.enum.map (expMintermSt n ms.length)).flatten)
      ++ expOrPartial ms.length :: [expOut]) "OR_FINAL"
        (fun x => { x with outputs := x.outputs ++ ["OUTPUT"] })
      = ((List.range n).map (expInputPs n ms.enum)
          ++ (ms.enum.map (expMintermSt n ms.length)).flatten)
        ++ expOr ms.length :: [expOut] :=
    @updateNode_mid ((List.range n).map (expInputPs n ms.enum)
        ++ (ms.enum.map (expMintermSt n ms.length)).flatten) [expOut]
      (expOrPartial ms.length)
      (fun x => { x with outputs := x.outputs ++ ["OUTPUT"] }) hOrNotinIF
  rw [e2]
  have hIN : (List.range n).map (expInputPs n ms.enum) = (List.range n).map (expInput n ms) :=
    List.map_congr_left (fun b _ => expInputPs_enum n ms b)
  have hFlat : ms.enum.map (expMintermSt n ms.length) = ms.enum.map (expMintermNodes n) :=
    List.map_congr_left (fun q hq => expMintermSt_lt (enum_fst_lt_len hq))
  rw [hIN, hFlat]

theorem generateCircuit_nodes {n : Nat} {outs : List Bool} (hne : minterms outs ≠ []) :
    (generateCircuit n outs).nodes = expNodes n outs := by
  simp only [generateCircuit]
  rw [if_neg (by simp [hne])]
  rw [synthTail n (minterms outs)]
  rfl

theorem generateCircuit_nodes_empty {n : Nat} {outs : List Bool} (he : minterms outs = []) :
    (generateCircuit n outs).nodes
      = (List.range n).map (fun b => mkInputNode (mkInputId b))
        ++ [mkOutputNode "OUTPUT_FINAL"] := by
  simp only [generateCircuit]
  rw [if_pos (by simp [he])]
  have hfresh : (mkOutputNode "OUTPUT_FINAL").id
      ∉ idsOf ((List.range n).foldl (fun c i => addNode c (mkInputNode (mkInputId i))) ⟨[]⟩) := by
    show "OUTPUT_FINAL" ∉ _
    unfold idsOf
    rw [phase1_nodes, List.map_map]
    intro hmem
    obtain ⟨a, _, heq⟩ := List.mem_map.mp hmem
    exact (mkInputId_ne_outFinal a) heq
  rw [addNode_fresh hfresh, phase1_nodes]

/-! ### S. The synthesized node list: membership, ids and distinctness -/

theorem mem_expNodes {n : Nat} {outs : List Bool} {v : CircuitNode} :
    v ∈ expNodes n outs ↔
      (∃ b, b < n ∧ v = expInput n (minterms outs) b)
      ∨ (∃ p ∈ (minterms outs).enum, v = expAnd n p.1 p.2)
      ∨ (∃ p ∈ (minterms outs).enum, ∃ b ∈ notBits n p.2, v = expNot p.1 b)
      ∨ v = expOr (minterms outs).length
      ∨ v = expOut := by
  unfold expNodes
  constructor
  · intro hv
    rcases List.mem_append.mp hv with hm | hm
    · rcases List.mem_append.mp hm with hm1 | hm1
      · obtain ⟨b, hb, heq⟩ := List.mem_map.mp hm1
        rw [List.mem_range] at hb
        exact Or.inl ⟨b, hb, heq.symm⟩
      · obtain ⟨l, hl, hvl⟩ := List.mem_flatten.mp hm1
        obtain ⟨p, hp, hlp⟩ := List.mem_map.mp hl
        rw [← hlp] at hvl
        rcases List.mem_cons.mp hvl with h1 | h1
        · exact Or.inr (Or.inl ⟨p, hp, h1⟩)
        · obtain ⟨b, hb, heq⟩ := List.mem_map.mp h1
          exact Or.inr (Or.inr (Or.inl ⟨p, hp, b, hb, heq.symm⟩))
    · rcases List.mem_cons.mp hm with h1 | h1
      · exact Or.inr (Or.inr (Or.inr (Or.inl h1)))
      · rcases List.mem_cons.mp h1 with h2 | h2
        · exact Or.inr (Or.inr (Or.inr (Or.inr h2)))
        · exact absurd h2 (List.not_mem_nil v)
  · intro hv
    rcases hv with ⟨b, hb, rfl⟩ | ⟨p, hp, rfl⟩ | ⟨p, hp, b, hb, rfl⟩ | rfl | rfl
    · exact List.mem_append.mpr (Or.inl (List.mem_append.mpr (Or.inl
        (List.mem_map.mpr ⟨b, List.mem_range.mpr hb, rfl⟩))))
    · refine List.mem_append.mpr (Or.inl (List.mem_append.mpr (Or.inr
        (List.mem_flatten.mpr ⟨expMintermNodes n p, List.mem_map.mpr ⟨p, hp, rfl⟩, ?_⟩))))
      exact List.mem_cons_self _ _
    · refine List.mem_append.mpr (Or.inl (List.mem_append.mpr (Or.inr
        (List.mem_flatten.mpr ⟨expMintermNodes n p, List.mem_map.mpr ⟨p, hp, rfl⟩, ?_⟩))))
      exact List.mem_cons.mpr (Or.inr (List.mem_map.mpr ⟨b, hb, rfl⟩))
    · exact List.mem_append.mpr (Or.inr (List.mem_cons_self _ _))
    · exact List.mem_append.mpr (Or.inr (List.mem_cons.mpr
        (Or.inr (List.mem_cons_self _ _))))

theorem ids_expInput (n : Nat) (ms : List Nat) (l : List Nat) :
    (l.map (expInput n ms)).map (fun m => m.id) = l.map mkInputId := by
  rw [List.map_map]
  rfl

theorem ids_expNodes (n : Nat) (outs : List Bool) :
    (expNodes n outs).map (fun m => m.id)
      = ((List.range n).map mkInputId
        ++ ((minterms outs).enum.map
            (fun q => mkAndId q.1 :: (notBits n q.2).map (mkNotId q.1))).flatten)
        ++ ["OR_FINAL", "OUTPUT"] := by
  unfold expNodes
  rw [List.map_append, List.map_append, ids_expInput]
  congr 2
  rw [List.map_flatten, List.map_map]
  congr 1
  exact List.map_congr_left (fun q _ => ids_expMintermNodes n q)

theorem notBits_nodup (n row : Nat) : (notBits n row).Nodup :=
  List.Nodup.filter _ (List.nodup_range n)

theorem mem_notBits {n row b : Nat} :
    b ∈ notBits n row ↔ b < n ∧ mintermBit n row b = false := by
  unfold notBits
  rw [List.mem_filter, List.mem_range]
  simp

theorem enum_pairwise_fst {A : Type} (l : List A) :
    l.enum.Pairwise (fun p q => p.1 ≠ q.1) := by
  have h : (l.enum.map (fun q => q.1)).Nodup := by
    have he : l.enum.map (fun q => q.1) = List.range l.length := List.enum_map_fst l
    rw [he]
    exact List.nodup_range _
  exact List.pairwise_map.mp h

theorem nodup_ids_expNodes (n : Nat) (outs : List Bool) :
    ((expNodes n outs).map (fun m => m.id)).Nodup := by
  rw [ids_expNodes]
  rw [List.nodup_append, List.nodup_append]
  refine ⟨⟨?_, ?_, ?_⟩, by decide, ?_⟩
  · exact List.Nodup.map (fun a b h => mkInputId_inj h) (List.nodup_range n)
  · rw [List.nodup_flatten]
    constructor
    · intro l hl
      obtain ⟨q, _, hlq⟩ := List.mem_map.mp hl
      rw [← hlq, List.nodup_cons]
      constructor
      · intro hmem
        obtain ⟨b, _, heq⟩ := List.mem_map.mp hmem
        exact (mkAndId_ne_mkNotId q.1 q.1 b) heq.symm
      · exact List.Nodup.map (fun a b h => (mkNotId_inj h).2) (notBits_nodup n q.2)
    · rw [List.pairwise_map]
      refine List.Pairwise.imp (fun {p} {q} hpq => ?_) (enum_pairwise_fst (minterms outs))
      intro x hxp hxq
      rcases List.mem_cons.mp hxp with h1 | h1
      · rcases List.mem_cons.mp hxq with h2 | h2
        · exact hpq (mkAndId_inj (h1.symm.trans h2))
        · obtain ⟨b, _, heq⟩ := List.mem_map.mp h2
          exact (mkAndId_ne_mkNotId p.1 q.1 b) (h1.symm.trans heq.symm)
      · obtain ⟨b, _, heq⟩ := List.mem_map.mp h1
        rcases List.mem_cons.mp hxq with h2 | h2
        · exact (mkAndId_ne_mkNotId q.1 p.1 b) (h2.symm.trans heq.symm)
        · obtain ⟨b2, _, heq2⟩ := List.mem_map.mp h2
          exact hpq ((mkNotId_inj (heq.trans heq2.symm)).1)
  · intro x hxA hxB
    obtain ⟨a, _, heqa⟩ := List.mem_map.mp hxA
    obtain ⟨l, hl, hxl⟩ := List.mem_flatten.mp hxB
    obtain ⟨q, _, hlq⟩ := List.mem_map.mp hl
    rw [← hlq] at hxl
    rcases List.mem_cons.mp hxl with h1 | h1
    · exact (mkInputId_ne_mkAndId a q.1) (heqa.trans h1)
    · obtain ⟨b, _, heq⟩ := List.mem_map.mp h1
      exact (mkInputId_ne_mkNotId a q.1 b) (heqa.trans heq.symm)
  · intro x hxAB hxC
    have hxor : x = "OR_FINAL" ∨ x = "OUTPUT" := by
      rcases List.mem_cons.mp hxC with h | h
      · exact Or.inl h
      · rcases List.mem_cons.mp h with h2 | h2
        · exact Or.inr h2
        · exact absurd h2 (List.not_mem_nil x)
    rcases List.mem_append.mp hxAB with hm | hm
    · obtain ⟨a, _, heqa⟩ := List.mem_map.mp hm
      rcases hxor with rfl | rfl
      · exact (mkInputId_ne_or a) heqa
      · exact (mkInputId_ne_out a) heqa
    · obtain ⟨l, hl, hxl⟩ := List.mem_flatten.mp hm
      obtain ⟨q, _, hlq⟩ := List.mem_map.mp hl
      rw [← hlq] at hxl
      rcases List.mem_cons.mp hxl with h1 | h1
      · rcases hxor with rfl | rfl
        · exact (mkAndId_ne_or q.1) h1.symm
        · exact (mkAndId_ne_out q.1) h1.symm
      · obtain ⟨b, _, heq⟩ := List.mem_map.mp h1
        rcases hxor with rfl | rfl
        · exact (mkNotId_ne_or q.1 b) heq
        · exact (mkNotId_ne_out q.1 b) heq

/-! ### T. Well-formedness and acyclicity of the synthesized circuit -/

theorem notin_singleton {x y : String} (h : x ≠ y) : x ∉ [y] :=
  fun hm => h (List.mem_singleton.mp hm)

theorem enum_fst_injOn {A : Type} {l : List A} {p q : Nat × A}
    (hp : p ∈ l.enum) (hq : q ∈ l.enum) (h : p.1 = q.1) : p = q := by
  by_contra hne
  exact List.Pairwise.forall (fun _ _ hxy => Ne.symm hxy)
    (enum_pairwise_fst l) hp hq hne h

theorem enum_mem_of_lt {A : Type} {l : List A} {m : Nat} (hm : m < l.length) :
    (m, l[m]) ∈ l.enum := by
  rw [List.mem_iff_getElem]
  exact ⟨m, by rw [List.enum_length]; exact hm, List.getElem_enum l m _⟩

theorem notin_litMap {x : String} {m k n row : Nat}
    (h1 : ∀ c, x ≠ mkInputId c) (h2 : ∀ c, x ≠ mkNotId m c) :
    x ∉ (List.range k).map
      (fun c => if mintermBit n row c then mkInputId c else mkNotId m c) := by
  intro hmem
  obtain ⟨c, _, heq⟩ := List.mem_map.mp hmem
  by_cases hb : mintermBit n row c
  · rw [if_pos hb] at heq
    exact h1 c heq.symm
  · rw [if_neg hb] at heq
    exact h2 c heq.symm

theorem notin_expInput_outputs {x : String} {n : Nat} {ms : List Nat} {b : Nat}
    (h1 : ∀ m, x ≠ mkAndId m) (h2 : ∀ m c, x ≠ mkNotId m c) :
    x ∉ (expInput n ms b).outputs := by
  intro hmem
  obtain ⟨p, _, heq⟩ := List.mem_map.mp hmem
  by_cases hbit : mintermBit n p.2 b
  · rw [if_pos hbit] at heq
    exact h1 p.1 heq.symm
  · rw [if_neg hbit] at heq
    exact h2 p.1 b heq.symm

theorem inputId_mem_expIds {n : Nat} {outs : List Bool} {b : Nat} (hb : b < n) :
    mkInputId b ∈ (expNodes n outs).map (fun m => m.id) := by
  rw [ids_expNodes]
  exact List.mem_append.mpr (Or.inl (List.mem_append.mpr (Or.inl
    (List.mem_map.mpr ⟨b, List.mem_range.mpr hb, rfl⟩))))

theorem andId_mem_expIds {n : Nat} {outs : List Bool} {p : Nat × Nat}
    (hp : p ∈ (minterms outs).enum) :
    mkAndId p.1 ∈ (expNodes n outs).map (fun m => m.id) := by
  rw [ids_expNodes]
  exact List.mem_append.mpr (Or.inl (List.mem_append.mpr (Or.inr
    (List.mem_flatten.mpr ⟨_, List.mem_map.mpr ⟨p, hp, rfl⟩, List.mem_cons_self _ _⟩))))

theorem notId_mem_expIds {n : Nat} {outs : List Bool} {p : Nat × Nat} {b : Nat}
    (hp : p ∈ (minterms outs).enum) (hb : b ∈ notBits n p.2) :
    mkNotId p.1 b ∈ (expNodes n outs).map (fun m => m.id) := by
  rw [ids_expNodes]
  exact List.mem_append.mpr (Or.inl (List.mem_append.mpr (Or.inr
    (List.mem_flatten.mpr ⟨_, List.mem_map.mpr ⟨p, hp, rfl⟩,
      List.mem_cons.mpr (Or.inr (List.mem_map.mpr ⟨b, hb, rfl⟩))⟩))))

theorem orId_mem_expIds (n : Nat) (outs : List Bool) :
    "OR_FINAL" ∈ (expNodes n outs).map (fun m => m.id) := by
  rw [ids_expNodes]
  exact List.mem_append.mpr (Or.inr (List.mem_cons_self _ _))

theorem outId_mem_expIds (n : Nat) (outs : List Bool) :
    "OUTPUT" ∈ (expNodes n outs).map (fun m => m.id) := by
  rw [ids_expNodes]
  exact List.mem_append.mpr (Or.inr (List.mem_cons.mpr (Or.inr (List.mem_cons_self _ _))))

theorem wf_expNodes (n : Nat) (outs : List Bool) :
    WellFormed ⟨expNodes n outs⟩ := by
  refine ⟨nodup_ids_expNodes n outs, ?_, ?_, ?_⟩
  · intro v hv i hi
    show i ∈ (expNodes n outs).map (fun m => m.id)
    rcases mem_expNodes.mp hv with ⟨ba, hba, rfl⟩ | ⟨pa, hpa, rfl⟩
      | ⟨pa, hpa, ba, hba, rfl⟩ | rfl | rfl
    · exact absurd hi (List.not_mem_nil i)
    · obtain ⟨c, hc, heq⟩ := List.mem_map.mp hi
      rw [List.mem_range] at hc
      by_cases hbit : mintermBit n pa.2 c
      · rw [if_pos hbit] at heq
        rw [← heq]
        exact inputId_mem_expIds hc
      · rw [if_neg hbit] at heq
        rw [← heq]
        exact notId_mem_expIds hpa (mem_notBits.mpr ⟨hc, by simp [hbit]⟩)
    · have h1 : i = mkInputId ba := List.mem_singleton.mp hi
      rw [h1]
      exact inputId_mem_expIds (mem_notBits.mp hba).1
    · obtain ⟨c, hc, heq⟩ := List.mem_map.mp hi
      rw [List.mem_range] at hc
      rw [← heq]
      exact andId_mem_expIds (enum_mem_of_lt hc)
    · have h1 : i = "OR_FINAL" := List.mem_singleton.mp hi
      rw [h1]
      exact orId_mem_expIds n outs
  · intro v hv o ho
    show o ∈ (expNodes n outs).map (fun m => m.id)
    rcases mem_expNodes.mp hv with ⟨ba, hba, rfl⟩ | ⟨pa, hpa, rfl⟩
      | ⟨pa, hpa, ba, hba, rfl⟩ | rfl | rfl
    · obtain ⟨p, hp, heq⟩ := List.mem_map.mp ho
      by_cases hbit : mintermBit n p.2 ba
      · rw [if_pos hbit] at heq
        rw [← heq]
        exact andId_mem_expIds hp
      · rw [if_neg hbit] at heq
        rw [← heq]
        exact notId_mem_expIds hp (mem_notBits.mpr ⟨hba, by simp [hbit]⟩)
    · have h1 : o = "OR_FINAL" := List.mem_singleton.mp ho
      rw [h1]
      exact orId_mem_expIds n outs
    · have h1 : o = mkAndId pa.1 := List.mem_singleton.mp ho
      rw [h1]
      exact andId_mem_expIds hpa
    · have h1 : o = "OUTPUT" := List.mem_singleton.mp ho
      rw [h1]
      exact outId_mem_expIds n outs
    · exact absurd ho (List.not_mem_nil o)
  · intro u hu v hv
    rcases mem_expNodes.mp hu with ⟨ba, hba, rfl⟩ | ⟨pa, hpa, rfl⟩
      | ⟨pa, hpa, ba, hba, rfl⟩ | rfl | rfl
    · rcases mem_expNodes.mp hv with ⟨bb, hbb, rfl⟩ | ⟨pb, hpb, rfl⟩
        | ⟨pb, hpb, b2, hb2, rfl⟩ | rfl | rfl
      · exact iff_of_false (List.not_mem_nil _)
          (notin_expInput_outputs (mkInputId_ne_mkAndId bb) (mkInputId_ne_mkNotId bb))
      · constructor
        · intro h
          obtain ⟨c, hc, heq⟩ := List.mem_map.mp h
          rw [List.mem_range] at hc
          by_cases hbit : mintermBit n pb.2 c
          · rw [if_pos hbit] at heq
            have hcb : c = ba := mkInputId_inj heq
            subst hcb
            exact List.mem_map.mpr ⟨pb, hpb, by rw [if_pos hbit]; rfl⟩
          · rw [if_neg hbit] at heq
            exact absurd heq.symm (mkInputId_ne_mkNotId ba pb.1 c)
        · intro h
          obtain ⟨p, hp, heq⟩ := List.mem_map.mp h
          by_cases hbit : mintermBit n p.2 ba
          · rw [if_pos hbit] at heq
            have hpf : p.1 = pb.1 := mkAndId_inj heq
            have hpe : p = pb := enum_fst_injOn hp hpb hpf
            subst hpe
            exact List.mem_map.mpr ⟨ba, List.mem_range.mpr hba, by rw [if_pos hbit]; rfl⟩
          · rw [if_neg hbit] at heq
            exact absurd heq.symm (mkAndId_ne_mkNotId pb.1 p.1 ba)
      · constructor
        · intro h
          have hba2 : mkInputId ba = mkInputId b2 := List.mem_singleton.mp h
          have hbe : ba = b2 := mkInputId_inj hba2
          subst hbe
          obtain ⟨_, hz⟩ := mem_notBits.mp hb2
          exact List.mem_map.mpr ⟨pb, hpb, by rw [if_neg (by simp [hz])]; rfl⟩
        · intro h
          obtain ⟨p, hp, heq⟩ := List.mem_map.mp h
          by_cases hbit : mintermBit n p.2 ba
          · rw [if_pos hbit] at heq
            exact absurd heq (mkAndId_ne_mkNotId p.1 pb.1 b2)
          · rw [if_neg hbit] at heq
            have hinj := mkNotId_inj heq
            exact List.mem_singleton.mpr (by rw [hinj.2]; rfl)
      · exact iff_of_false
          (notin_map (fun a _ => (mkInputId_ne_mkAndId ba a).symm))
          (notin_expInput_outputs (fun m => (mkAndId_ne_or m).symm)
            (fun m c => (mkNotId_ne_or m c).symm))
      · exact iff_of_false (notin_singleton (mkInputId_ne_or ba))
          (notin_expInput_outputs (fun m => (mkAndId_ne_out m).symm)
            (fun m c => (mkNotId_ne_out m c).symm))
    · rcases mem_expNodes.mp hv with ⟨bb, hbb, rfl⟩ | ⟨pb, hpb, rfl⟩
        | ⟨pb, hpb, b2, hb2, rfl⟩ | rfl | rfl
      · exact iff_of_false (List.not_mem_nil _)
          (notin_singleton (mkInputId_ne_or bb))
      · exact iff_of_false
          (notin_litMap (fun c => (mkInputId_ne_mkAndId c pa.1).symm)
            (fun c => mkAndId_ne_mkNotId pa.1 pb.1 c))
          (notin_singleton (mkAndId_ne_or pb.1))
      · exact iff_of_false
          (notin_singleton ((mkInputId_ne_mkAndId b2 pa.1).symm))
          (notin_singleton (mkNotId_ne_or pb.1 b2))
      · exact iff_of_true
          (List.mem_map.mpr ⟨pa.1, List.mem_range.mpr (enum_fst_lt_len hpa), rfl⟩)
          (List.mem_singleton.mpr rfl)
      · exact iff_of_false (notin_singleton (mkAndId_ne_or pa.1))
          (notin_singleton (show "OUTPUT" ≠ "OR_FINAL" by decide))
    · rcases mem_expNodes.mp hv with ⟨bb, hbb, rfl⟩ | ⟨pb, hpb, rfl⟩
        | ⟨pb, hpb, b2, hb2, rfl⟩ | rfl | rfl
      · exact iff_of_false (List.not_mem_nil _)
          (notin_singleton (mkInputId_ne_mkAndId bb pa.1))
      · constructor
        · intro h
          obtain ⟨c, hc, heq⟩ := List.mem_map.mp h
          by_cases hbit : mintermBit n pb.2 c
          · rw [if_pos hbit] at heq
            exact absurd heq (mkInputId_ne_mkNotId c pa.1 ba)
          · rw [if_neg hbit] at heq
            have hinj := mkNotId_inj heq
            exact List.mem_singleton.mpr (by rw [hinj.1]; rfl)
        · intro h
          have hfst : pb.1 = pa.1 := mkAndId_inj (List.mem_singleton.mp h)
          have hpe : pb = pa := enum_fst_injOn hpb hpa hfst
          subst hpe
          obtain ⟨hban, hbit⟩ := mem_notBits.mp hba
          exact List.mem_map.mpr ⟨ba, List.mem_range.mpr hban,
            by rw [if_neg (by simp [hbit])]; rfl⟩
      · exact iff_of_false
          (notin_singleton ((mkInputId_ne_mkNotId b2 pa.1 ba).symm))
          (notin_singleton ((mkAndId_ne_mkNotId pa.1 pb.1 b2).symm))
      · exact iff_of_false
          (notin_map (fun a _ => mkAndId_ne_mkNotId a pa.1 ba))
          (notin_singleton ((mkAndId_ne_or pa.1).symm))
      · exact iff_of_false (notin_singleton (mkNotId_ne_or pa.1 ba))
          (notin_singleton ((mkAndId_ne_out pa.1).symm))
    · rcases mem_expNodes.mp hv with ⟨bb, hbb, rfl⟩ | ⟨pb, hpb, rfl⟩
        | ⟨pb, hpb, b2, hb2, rfl⟩ | rfl | rfl
      · exact iff_of_false (List.not_mem_nil _)
          (notin_singleton (mkInputId_ne_out bb))
      · exact iff_of_false
          (notin_litMap (fun c => (mkInputId_ne_or c).symm)
            (fun c => (mkNotId_ne_or pb.1 c).symm))
          (notin_singleton (mkAndId_ne_out pb.1))
      · exact iff_of_false
          (notin_singleton ((mkInputId_ne_or b2).symm))
          (notin_singleton (mkNotId_ne_out pb.1 b2))
      · exact iff_of_false (notin_map (fun a _ => mkAndId_ne_or a))
          (notin_singleton (show "OR_FINAL" ≠ "OUTPUT" by decide))
      · exact iff_of_true (List.mem_singleton.mpr rfl) (List.mem_singleton.mpr rfl)
    · rcases mem_expNodes.mp hv with ⟨bb, hbb, rfl⟩ | ⟨pb, hpb, rfl⟩
        | ⟨pb, hpb, b2, hb2, rfl⟩ | rfl | rfl
      · exact iff_of_false (List.not_mem_nil _) (List.not_mem_nil _)
      · exact iff_of_false
          (notin_litMap (fun c => (mkInputId_ne_out c).symm)
            (fun c => (mkNotId_ne_out pb.1 c).symm))
          (List.not_mem_nil _)
      · exact iff_of_false
          (notin_singleton ((mkInputId_ne_out b2).symm))
          (List.not_mem_nil _)
      · exact iff_of_false (notin_map (fun a _ => mkAndId_ne_out a))
          (List.not_mem_nil _)
      · exact iff_of_false (notin_singleton (show "OUTPUT" ≠ "OR_FINAL" by decide))
          (List.not_mem_nil _)

theorem idRank_input (i : Nat) : idRank (mkInputId i) = 0 := by
  unfold idRank
  rw [if_neg (mkInputId_ne_or i), if_neg (mkInputId_ne_out i), head_data_mkInputId]
  rfl

theorem idRank_not (m b : Nat) : idRank (mkNotId m b) = 1 := by
  unfold idRank
  rw [if_neg (mkNotId_ne_or m b), if_neg (mkNotId_ne_out m b), head_data_mkNotId]
  rfl

theorem idRank_and (m : Nat) : idRank (mkAndId m) = 2 := by
  unfold idRank
  rw [if_neg (mkAndId_ne_or m), if_neg (mkAndId_ne_out m), head_data_mkAndId]
  rfl

theorem idRank_or : idRank "OR_FINAL" = 3 := by
  unfold idRank
  rw [if_pos rfl]

theorem idRank_out : idRank "OUTPUT" = 4 := by
  unfold idRank
  rw [if_neg (show "OUTPUT" ≠ "OR_FINAL" by decide), if_pos rfl]

theorem acyclic_expNodes (n : Nat) (outs : List Bool) :
    Acyclic ⟨expNodes n outs⟩ := by
  apply acyclic_of_rank _ idRank
  intro u hu v hv hedge
  rcases mem_expNodes.mp hu with ⟨ba, hba, rfl⟩ | ⟨pa, hpa, rfl⟩
    | ⟨pa, hpa, ba, hba, rfl⟩ | rfl | rfl
  · obtain ⟨p, _, heq⟩ := List.mem_map.mp hedge
    by_cases hbit : mintermBit n p.2 ba
    · rw [if_pos hbit] at heq
      rw [show (expInput n (minterms outs) ba).id = mkInputId ba from rfl, ← heq,
        idRank_input, idRank_and]
      omega
    · rw [if_neg hbit] at heq
      rw [show (expInput n (minterms outs) ba).id = mkInputId ba from rfl, ← heq,
        idRank_input, idRank_not]
      omega
  · have h1 : v.id = "OR_FINAL" := List.mem_singleton.mp hedge
    rw [h1, show (expAnd n pa.1 pa.2).id = mkAndId pa.1 from rfl, idRank_and, idRank_or]
    omega
  · have h1 : v.id = mkAndId pa.1 := List.mem_singleton.mp hedge
    rw [h1, show (expNot pa.1 ba).id = mkNotId pa.1 ba from rfl, idRank_not, idRank_and]
    omega
  · have h1 : v.id = "OUTPUT" := List.mem_singleton.mp hedge
    rw [h1, show (expOr (minterms outs).length).id = "OR_FINAL" from rfl,
      idRank_or, idRank_out]
    omega
  · exact absurd hedge (List.not_mem_nil _)

theorem degen_no_edges (n : Nat) :
    ∀ w ∈ (List.range n).map (fun b => mkInputNode (mkInputId b))
      ++ [mkOutputNode "OUTPUT_FINAL"], w.inputs = [] ∧ w.outputs = [] := by
  intro w hw
  rcases List.mem_append.mp hw with hm | hm
  · obtain ⟨b, _, heq⟩ := List.mem_map.mp hm
    rw [← heq]
    exact ⟨rfl, rfl⟩
  · rw [List.mem_singleton.mp hm]
    exact ⟨rfl, rfl⟩

theorem wf_degen (n : Nat) :
    WellFormed ⟨(List.range n).map (fun b => mkInputNode (mkInputId b))
      ++ [mkOutputNode "OUTPUT_FINAL"]⟩ := by
  refine ⟨?_, ?_, ?_, ?_⟩
  · show (((List.range n).map (fun b => mkInputNode (mkInputId b))
      ++ [mkOutputNode "OUTPUT_FINAL"]).map (fun m => m.id)).Nodup
    rw [List.map_append, List.map_map, List.nodup_append]
    refine ⟨?_, by simp, ?_⟩
    · exact List.Nodup.map (fun a b h => mkInputId_inj h) (List.nodup_range n)
    · intro x hxA hxB
      obtain ⟨a, _, heq⟩ := List.mem_map.mp hxA
      have h2 : x = "OUTPUT_FINAL" := List.mem_singleton.mp hxB
      exact (mkInputId_ne_outFinal a) (heq.trans h2)
  · intro v hv i hi
    rw [(degen_no_edges n v hv).1] at hi
    exact absurd hi (List.not_mem_nil i)
  · intro v hv o ho
    rw [(degen_no_edges n v hv).2] at ho
    exact absurd ho (List.not_mem_nil o)
  · intro u hu v hv
    constructor
    · intro h
      rw [(degen_no_edges n v hv).1] at h
      exact absurd h (List.not_mem_nil _)
    · intro h
      rw [(degen_no_edges n u hu).2] at h
      exact absurd h (List.not_mem_nil _)

theorem acyclic_degen (n : Nat) :
    Acyclic ⟨(List.range n).map (fun b => mkInputNode (mkInputId b))
      ++ [mkOutputNode "OUTPUT_FINAL"]⟩ := by
  apply acyclic_of_rank _ (fun _ => 0)
  intro u hu v hv hedge
  rw [(degen_no_edges n u hu).2] at hedge
  exact absurd hedge (List.not_mem_nil _)

theorem generateCircuit_wf (n : Nat) (outs : List Bool) :
    WellFormed (generateCircuit n outs) := by
  by_cases he : minterms outs = []
  · rw [circuit_eq_of_nodes (generateCircuit_nodes_empty he)]
    exact wf_degen n
  · rw [circuit_eq_of_nodes (generateCircuit_nodes he)]
    exact wf_expNodes n outs

theorem generateCircuit_acyclic (n : Nat) (outs : List Bool) :
    Acyclic (generateCircuit n outs) := by
  by_cases he : minterms outs = []
  · rw [circuit_eq_of_nodes (generateCircuit_nodes_empty he)]
    exact acyclic_degen n
  · rw [circuit_eq_of_nodes (generateCircuit_nodes he)]
    exact acyclic_expNodes n outs

/-! ### V. Bit reversal and minterm arithmetic -/

theorem bitRev_lt (n i : Nat) : bitRev n i < 2 ^ n := by
  induction n with
  | zero =>
    show 0 < 2 ^ 0
    norm_num
  | succ n ih =>
    show 2 * bitRev n i + (if i.testBit n then 1 else 0) < 2 ^ (n + 1)
    rw [pow_succ]
    by_cases h : i.testBit n
    · rw [if_pos h]
      omega
    · rw [if_neg h]
      omega

theorem testBit_bitRev {n : Nat} (i : Nat) : ∀ {j : Nat}, j < n →
    (bitRev n i).testBit j = i.testBit (n - 1 - j) := by
  induction n with
  | zero => intro j hj; omega
  | succ n ih =>
    intro j hj
    show Nat.testBit (2 * bitRev n i + (if i.testBit n then 1 else 0)) j = _
    cases j with
    | zero =>
      rw [show n + 1 - 1 - 0 = n from rfl]
      by_cases hb : i.testBit n
      · rw [if_pos hb, hb, Nat.testBit_zero,
          show (2 * bitRev n i + 1) % 2 = 1 from by omega]
        rfl
      · rw [if_neg hb, (Bool.not_eq_true _).mp hb, Nat.testBit_zero,
          show (2 * bitRev n i + 0) % 2 = 0 from by omega]
        rfl
    | succ j =>
      rw [Nat.testBit_succ,
        show (2 * bitRev n i + (if i.testBit n then 1 else 0)) / 2 = bitRev n i from by
          by_cases hb : i.testBit n
          · rw [if_pos hb]; omega
          · rw [if_neg hb]; omega,
        ih (by omega), show n + 1 - 1 - (j + 1) = n - 1 - j from by omega]

theorem bitRev_eq_iff {n row i : Nat} (hrow : row < 2 ^ n) :
    row = bitRev n i ↔ ∀ b, b < n → mintermBit n row b = i.testBit b := by
  constructor
  · intro h b hb
    subst h
    unfold mintermBit
    rw [testBit_bitRev i (show n - 1 - b < n from by omega)]
    congr 1
    omega
  · intro h
    apply Nat.eq_of_testBit_eq
    intro j
    by_cases hj : j < n
    · have h2 := h (n - 1 - j) (by omega)
      unfold mintermBit at h2
      rw [show n - 1 - (n - 1 - j) = j from by omega] at h2
      rw [h2, testBit_bitRev i hj]
    · have h1 : row.testBit j = false :=
        Nat.testBit_lt_two_pow
          (lt_of_lt_of_le hrow (Nat.pow_le_pow_right (by omega) (by omega)))
      have h2 : (bitRev n i).testBit j = false :=
        Nat.testBit_lt_two_pow
          (lt_of_lt_of_le (bitRev_lt n i) (Nat.pow_le_pow_right (by omega) (by omega)))
      rw [h1, h2]

theorem mem_minterms {outs : List Bool} {r : Nat} :
    r ∈ minterms outs ↔ outs.get? r = some true := by
  unfold minterms
  constructor
  · intro h
    obtain ⟨p, hp, heq⟩ := List.mem_map.mp h
    rw [List.mem_filter] at hp
    have h2 := List.mem_enum_iff_get?.mp hp.1
    rw [← heq, h2]
    have h3 : p.2 = true := by simpa using hp.2
    rw [h3]
  · intro h
    apply List.mem_map.mpr
    refine ⟨(r, true), ?_, rfl⟩
    rw [List.mem_filter]
    exact ⟨List.mem_enum_iff_get?.mpr h, by simp⟩

theorem minterms_lt {outs : List Bool} {r : Nat} (h : r ∈ minterms outs) :
    r < outs.length := by
  rcases List.get?_eq_some.mp (mem_minterms.mp h) with ⟨hlt, _⟩
  exact hlt

theorem enum_snd_mem {A : Type} {l : List A} {p : Nat × A} (hp : p ∈ l.enum) : p.2 ∈ l := by
  rw [List.mem_iff_getElem] at hp
  obtain ⟨i, hi, hgi⟩ := hp
  rw [List.getElem_enum] at hgi
  subst hgi
  exact List.getElem_mem _

/-! ### W. The node-type partition of a synthesized circuit -/

theorem filter_flatten (p : CircuitNode → Bool) :
    ∀ L : List (List CircuitNode),
    L.flatten.filter p = (L.map (fun l => l.filter p)).flatten := by
  intro L
  induction L with
  | nil => rfl
  | cons l L ih =>
    rw [List.flatten_cons, List.filter_append, ih]
    rfl

theorem sum_map_one {A : Type} (l : List A) : (l.map (fun _ => 1)).sum = l.length := by
  induction l with
  | nil => rfl
  | cons x l ih =>
    simp [ih]
    omega

theorem getNodesByType_expNodes_INPUT (n : Nat) (outs : List Bool) :
    getNodesByType ⟨expNodes n outs⟩ NodeType.INPUT
      = (List.range n).map (expInput n (minterms outs)) := by
  show (expNodes n outs).filter (fun v => v.type = NodeType.INPUT)
    = (List.range n).map (expInput n (minterms outs))
  unfold expNodes
  rw [List.filter_append, List.filter_append]
  rw [List.filter_eq_self.mpr (fun a ha => by
    obtain ⟨b, _, heq⟩ := List.mem_map.mp ha
    rw [← heq]
    rfl)]
  rw [List.filter_eq_nil_iff.mpr (fun a ha => by
    obtain ⟨l, hl, hal⟩ := List.mem_flatten.mp ha
    obtain ⟨q, _, hlq⟩ := List.mem_map.mp hl
    rw [← hlq] at hal
    rcases List.mem_cons.mp hal with h1 | h1
    · rw [h1]
      simp [expAnd]
    · obtain ⟨b, _, heq⟩ := List.mem_map.mp h1
      rw [← heq]
      simp [expNot])]
  rw [show ([expOr (minterms outs).length, expOut].filter
      (fun v => v.type = NodeType.INPUT)) = [] from rfl]
  simp

theorem getNodesByType_expNodes_OUTPUT (n : Nat) (outs : List Bool) :
    getNodesByType ⟨expNodes n outs⟩ NodeType.OUTPUT = [expOut] := by
  show (expNodes n outs).filter (fun v => v.type = NodeType.OUTPUT) = [expOut]
  unfold expNodes
  rw [List.filter_append, List.filter_append]
  rw [List.filter_eq_nil_iff.mpr (fun a ha => by
    obtain ⟨b, _, heq⟩ := List.mem_map.mp ha
    rw [← heq]
    simp [expInput])]
  rw [List.filter_eq_nil_iff.mpr (fun a ha => by
    obtain ⟨l, hl, hal⟩ := List.mem_flatten.mp ha
    obtain ⟨q, _, hlq⟩ := List.mem_map.mp hl
    rw [← hlq] at hal
    rcases List.mem_cons.mp hal with h1 | h1
    · rw [h1]
      simp [expAnd]
    · obtain ⟨b, _, heq⟩ := List.mem_map.mp h1
      rw [← heq]
      simp [expNot])]
  rw [show ([expOr (minterms outs).length, expOut].filter
      (fun v => v.type = NodeType.OUTPUT)) = [expOut] from rfl]
  simp

theorem getNodesByType_expNodes_AND (n : Nat) (outs : List Bool) :
    getNodesByType ⟨expNodes n outs⟩ NodeType.AND
      = ((minterms outs).enum.map (fun p => [expAnd n p.1 p.2])).flatten := by
  show (expNodes n outs).filter (fun v => v.type = NodeType.AND) = _
  unfold expNodes
  rw [List.filter_append, List.filter_append]
  rw [List.filter_eq_nil_iff.mpr (fun a ha => by
    obtain ⟨b, _, heq⟩ := List.mem_map.mp ha
    rw [← heq]
    simp [expInput])]
  rw [filter_flatten, List.map_map]
  rw [show ([expOr (minterms outs).length, expOut].filter
      (fun v => v.type = NodeType.AND)) = [] from rfl]
  rw [List.append_nil, List.nil_append]
  congr 1
  apply List.map_congr_left
  intro q _
  show (expAnd n q.1 q.2 :: (notBits n q.2).map (expNot q.1)).filter
      (fun v => v.type = NodeType.AND) = [expAnd n q.1 q.2]
  rw [List.filter_cons_of_pos (by rfl)]
  rw [List.filter_eq_nil_iff.mpr (fun a ha => by
    obtain ⟨b, _, heq⟩ := List.mem_map.mp ha
    rw [← heq]
    simp [expNot])]

theorem getNodesByType_expNodes_NOT (n : Nat) (outs : List Bool) :
    getNodesByType ⟨expNodes n outs⟩ NodeType.NOT
      = ((minterms outs).enum.map (fun p => (notBits n p.2).map (expNot p.1))).flatten := by
  show (expNodes n outs).filter (fun v => v.type = NodeType.NOT) = _
  unfold expNodes
  rw [List.filter_append, List.filter_append]
  rw [List.filter_eq_nil_iff.mpr (fun a ha => by
    obtain ⟨b, _, heq⟩ := List.mem_map.mp ha
    rw [← heq]
    simp [expInput])]
  rw [filter_flatten, List.map_map]
  rw [show ([expOr (minterms outs).length, expOut].filter
      (fun v => v.type = NodeType.NOT)) = [] from rfl]
  rw [List.append_nil, List.nil_append]
  congr 1
  apply List.map_congr_left
  intro q _
  show (expAnd n q.1 q.2 :: (notBits n q.2).map (expNot q.1)).filter
      (fun v => v.type = NodeType.NOT) = (notBits n q.2).map (expNot q.1)
  rw [List.filter_cons_of_neg (by simp [expAnd])]
  rw [List.filter_eq_self.mpr (fun a ha => by
    obtain ⟨b, _, heq⟩ := List.mem_map.mp ha
    rw [← heq]
    rfl)]

theorem getNodesByType_expNodes_OR (n : Nat) (outs : List Bool) :
    getNodesByType ⟨expNodes n outs⟩ NodeType.OR = [expOr (minterms outs).length] := by
  show (expNodes n outs).filter (fun v => v.type = NodeType.OR) = _
  unfold expNodes
  rw [List.filter_append, List.filter_append]
  rw [List.filter_eq_nil_iff.mpr (fun a ha => by
    obtain ⟨b, _, heq⟩ := List.mem_map.mp ha
    rw [← heq]
    simp [expInput])]
  rw [List.filter_eq_nil_iff.mpr (fun a ha => by
    obtain ⟨l, hl, hal⟩ := List.mem_flatten.mp ha
    obtain ⟨q, _, hlq⟩ := List.mem_map.mp hl
    rw [← hlq] at hal
    rcases List.mem_cons.mp hal with h1 | h1
    · rw [h1]
      simp [expAnd]
    · obtain ⟨b, _, heq⟩ := List.mem_map.mp h1
      rw [← heq]
      simp [expNot])]
  rw [show ([expOr (minterms outs).length, expOut].filter
      (fun v => v.type = NodeType.OR)) = [expOr (minterms outs).length] from rfl]
  simp

/-! ### X. Values of a synthesized circuit after one evaluated row -/

theorem getD_of_get? {l : List Bool} {r : Nat} {x : Bool} (h : l.get? r = some x) :
    l.getD r false = x := by
  rw [List.getD_eq_getElem?_getD, ← List.get?_eq_getElem?, h]
  rfl

theorem synth_row_out (n : Nat) (outs : List Bool) (hne : minterms outs ≠ [])
    (hlen : outs.length = 2 ^ n) {c₂ : Circuit} {k : Nat}
    (hvals : ∀ idx inp,
      (getNodesByType (generateCircuit n outs) NodeType.INPUT).get? idx = some inp →
      nodeValueById c₂ inp.id = k.testBit idx)
    (hfix : ∀ v ∈ (generateCircuit n outs).nodes, v.type ≠ NodeType.INPUT →
      nodeValueById c₂ v.id = compute c₂ v) :
    nodeValueById c₂ "OUTPUT" = outs.getD (bitRev n k) false := by
  rw [circuit_eq_of_nodes (generateCircuit_nodes hne)] at hvals hfix
  have hvin : ∀ b, b < n → nodeValueById c₂ (mkInputId b) = k.testBit b := by
    intro b hb
    exact hvals b (expInput n (minterms outs) b)
      (by rw [getNodesByType_expNodes_INPUT, List.get?_map, List.get?_range hb]; rfl)
  have hvnot : ∀ p ∈ (minterms outs).enum, ∀ b ∈ notBits n p.2,
      nodeValueById c₂ (mkNotId p.1 b) = !(k.testBit b) := by
    intro p hp b hb
    have hmem : expNot p.1 b ∈ (⟨expNodes n outs⟩ : Circuit).nodes :=
      mem_expNodes.mpr (Or.inr (Or.inr (Or.inl ⟨p, hp, b, hb, rfl⟩)))
    have h1 := hfix (expNot p.1 b) hmem
      (by show NodeType.NOT ≠ NodeType.INPUT; decide)
    rw [compute_NOT rfl] at h1
    have h2 : nodeValueById c₂ (mkNotId p.1 b)
        = !(nodeValueById c₂ (mkInputId b)) := h1
    rw [h2, hvin b (mem_notBits.mp hb).1]
  have hvand : ∀ p ∈ (minterms outs).enum,
      (nodeValueById c₂ (mkAndId p.1) = true ↔ p.2 = bitRev n k) := by
    intro p hp
    have hmem : expAnd n p.1 p.2 ∈ (⟨expNodes n outs⟩ : Circuit).nodes :=
      mem_expNodes.mpr (Or.inr (Or.inl ⟨p, hp, rfl⟩))
    have h1 := hfix _ hmem (by show NodeType.AND ≠ NodeType.INPUT; decide)
    rw [compute_AND rfl] at h1
    have h2 : nodeValueById c₂ (mkAndId p.1)
        = ((List.range n).map (fun b => if mintermBit n p.2 b then mkInputId b
            else mkNotId p.1 b)).all (fun i => nodeValueById c₂ i) := h1
    have hplt : p.2 < 2 ^ n := by
      rw [← hlen]
      exact minterms_lt (enum_snd_mem hp)
    rw [h2, List.all_eq_true, bitRev_eq_iff hplt]
    constructor
    · intro h b hb
      by_cases hbit : mintermBit n p.2 b
      · have h3 : nodeValueById c₂ (mkInputId b) = true := by
          have h0 := h _ (List.mem_map.mpr ⟨b, List.mem_range.mpr hb, rfl⟩)
          rw [if_pos hbit] at h0
          exact h0
        rw [hvin b hb] at h3
        rw [hbit, h3]
      · have h3 : nodeValueById c₂ (mkNotId p.1 b) = true := by
          have h0 := h _ (List.mem_map.mpr ⟨b, List.mem_range.mpr hb, rfl⟩)
          rw [if_neg hbit] at h0
          exact h0
        rw [hvnot p hp b (mem_notBits.mpr ⟨hb, by simp [hbit]⟩)] at h3
        have h4 : k.testBit b = false := by simpa using h3
        rw [h4, show mintermBit n p.2 b = false from by simp [hbit]]
    · intro h x hx
      obtain ⟨b, hb, heq⟩ := List.mem_map.mp hx
      rw [List.mem_range] at hb
      show nodeValueById c₂ x = true
      rw [← heq]
      by_cases hbit : mintermBit n p.2 b
      · rw [if_pos hbit, hvin b hb, ← h b hb, hbit]
      · rw [if_neg hbit, hvnot p hp b (mem_notBits.mpr ⟨hb, by simp [hbit]⟩)]
        have h5 : k.testBit b = false := by
          have h6 := h b hb
          rw [show mintermBit n p.2 b = false from by simp [hbit]] at h6
          exact h6.symm
        rw [h5]
        rfl
  have hvor : nodeValueById c₂ "OR_FINAL" = true ↔ bitRev n k ∈ minterms outs := by
    have hmem : expOr (minterms outs).length ∈ (⟨expNodes n outs⟩ : Circuit).nodes :=
      mem_expNodes.mpr (Or.inr (Or.inr (Or.inr (Or.inl rfl))))
    have h1 := hfix _ hmem (by show NodeType.OR ≠ NodeType.INPUT; decide)
    rw [compute_OR rfl] at h1
    have h2 : nodeValueById c₂ "OR_FINAL"
        = ((List.range (minterms outs).length).map mkAndId).any
            (fun i => nodeValueById c₂ i) := h1
    rw [h2, List.any_eq_true]
    constructor
    · rintro ⟨x, hx, hpred⟩
      obtain ⟨j, hj, heq⟩ := List.mem_map.mp hx
      rw [List.mem_range] at hj
      have h3 : nodeValueById c₂ x = true := hpred
      rw [← heq] at h3
      have h4 := (hvand _ (enum_mem_of_lt hj)).mp h3
      rw [← h4]
      exact List.getElem_mem _
    · intro hmemr
      obtain ⟨j, hj, hgj⟩ := List.mem_iff_getElem.mp hmemr
      refine ⟨mkAndId j, List.mem_map.mpr ⟨j, List.mem_range.mpr hj, rfl⟩, ?_⟩
      show nodeValueById c₂ (mkAndId j) = true
      exact (hvand _ (enum_mem_of_lt hj)).mpr hgj
  have hvout : nodeValueById c₂ "OUTPUT" = nodeValueById c₂ "OR_FINAL" := by
    have hmem : expOut ∈ (⟨expNodes n outs⟩ : Circuit).nodes :=
      mem_expNodes.mpr (Or.inr (Or.inr (Or.inr (Or.inr rfl))))
    have h1 := hfix _ hmem (by show NodeType.OUTPUT ≠ NodeType.INPUT; decide)
    rw [compute_OUTPUT rfl] at h1
    exact h1
  rw [hvout]
  have hblt : bitRev n k < outs.length := by
    rw [hlen]
    exact bitRev_lt n k
  cases hV : nodeValueById c₂ "OR_FINAL" with
  | true =>
    exact (getD_of_get? (mem_minterms.mp (hvor.mp hV))).symm
  | false =>
    have h5 : bitRev n k ∉ minterms outs := by
      intro hmem
      have h6 := hvor.mpr hmem
      rw [hV] at h6
      exact Bool.false_ne_true h6
    obtain ⟨x, hx⟩ : ∃ x, outs.get? (bitRev n k) = some x :=
      ⟨_, List.get?_eq_get hblt⟩
    cases x with
    | true => exact absurd (mem_minterms.mpr hx) h5
    | false => exact (getD_of_get? hx).symm

theorem synth_row_out_degen (n : Nat) (outs : List Bool) (he : minterms outs = [])
    {c₂ : Circuit}
    (hfix : ∀ v ∈ (generateCircuit n outs).nodes, v.type ≠ NodeType.INPUT →
      nodeValueById c₂ v.id = compute c₂ v) :
    nodeValueById c₂ "OUTPUT_FINAL" = false := by
  have hmem : mkOutputNode "OUTPUT_FINAL" ∈ (generateCircuit n outs).nodes := by
    rw [generateCircuit_nodes_empty he]
    exact List.mem_append.mpr (Or.inr (List.mem_cons_self _ _))
  have h1 := hfix _ hmem (by show NodeType.OUTPUT ≠ NodeType.INPUT; decide)
  rw [compute_OUTPUT rfl] at h1
  exact h1

theorem getNodesByType_degen_INPUT (n : Nat) :
    getNodesByType ⟨(List.range n).map (fun b => mkInputNode (mkInputId b))
        ++ [mkOutputNode "OUTPUT_FINAL"]⟩ NodeType.INPUT
      = (List.range n).map (fun b => mkInputNode (mkInputId b)) := by
  show ((List.range n).map (fun b => mkInputNode (mkInputId b))
      ++ [mkOutputNode "OUTPUT_FINAL"]).filter (fun v => v.type = NodeType.INPUT) = _
  rw [List.filter_append]
  rw [List.filter_eq_self.mpr (fun a ha => by
    obtain ⟨b, _, heq⟩ := List.mem_map.mp ha
    rw [← heq]
    rfl)]
  rw [show ([mkOutputNode "OUTPUT_FINAL"].filter (fun v => v.type = NodeType.INPUT))
    = [] from rfl]
  simp

theorem getNodesByType_degen_OUTPUT (n : Nat) :
    getNodesByType ⟨(List.range n).map (fun b => mkInputNode (mkInputId b))
        ++ [mkOutputNode "OUTPUT_FINAL"]⟩ NodeType.OUTPUT
      = [mkOutputNode "OUTPUT_FINAL"] := by
  show ((List.range n).map (fun b => mkInputNode (mkInputId b))
      ++ [mkOutputNode "OUTPUT_FINAL"]).filter (fun v => v.type = NodeType.OUTPUT) = _
  rw [List.filter_append]
  rw [List.filter_eq_nil_iff.mpr (fun a ha => by
    obtain ⟨b, _, heq⟩ := List.mem_map.mp ha
    rw [← heq]
    simp [mkInputNode])]
  rw [show ([mkOutputNode "OUTPUT_FINAL"].filter (fun v => v.type = NodeType.OUTPUT))
    = [mkOutputNode "OUTPUT_FINAL"] from rfl]
  simp

theorem getD_false_of_no_minterms {outs : List Bool} (he : minterms outs = [])
    (r : Nat) : outs.getD r false = false := by
  cases hx : outs.get? r with
  | none =>
    rw [List.getD_eq_getElem?_getD, ← List.get?_eq_getElem?, hx]
    rfl
  | some x =>
    cases x with
    | false => exact getD_of_get? hx
    | true =>
      have : r ∈ minterms outs := mem_minterms.mpr hx
      rw [he] at this
      exact absurd this (List.not_mem_nil r)

/-! ### C1 — synthesis round trip (corrected: the table column is the
bit-reversed permutation of `outputs`) -/

/-- C1 counterexample: for `inputCount = 2` and `outputs = [F,T,F,F]` (the
minterm `01`), the truth-table output column is `[F,F,T,F]` — row 2, not
row 1, is true — because `generateCircuit` wires minterm bits MSB-first
while `getTruthTable` enumerates assignments LSB-first. -/
theorem C1_counterexample :
    (getTruthTable (generateCircuit 2 [false, true, false, false])).map rowOutVals
        = [[false], [false], [true], [false]]
      ∧ [[false], [false], [true], [false]] ≠ [[false], [true], [false], [false]] := by
  constructor
  · rfl
  · decide

/-- C1 (corrected): for every `inputCount` `n` and output vector of length
`2^n`, `getTruthTable (generateCircuit n outs)` has `2^n` rows and the output
column of row `k` is `[outs[bitRev n k]]` — the requested function up to
reversal of the assignment bits, row-for-row equality holding only for
reversal-symmetric vectors. -/
theorem C1_truth_table_round_trip (n : Nat) (outs : List Bool)
    (hlen : outs.length = 2 ^ n) :
    ∃ rows, getTruthTable (generateCircuit n outs) = rows ∧
      rows.length = 2 ^ n ∧
      ∀ k row, rows.get? k = some row →
        rowOutVals row = [outs.getD (bitRev n k) false] := by
  obtain ⟨rows, heq, hlenr, hrows⟩ :=
    getTruthTable_spec (generateCircuit_wf n outs) (generateCircuit_acyclic n outs)
  refine ⟨rows, heq, ?_, ?_⟩
  · rw [hlenr]
    congr 1
    by_cases he : minterms outs = []
    · rw [circuit_eq_of_nodes (generateCircuit_nodes_empty he),
        getNodesByType_degen_INPUT, List.length_map, List.length_range]
    · rw [circuit_eq_of_nodes (generateCircuit_nodes he),
        getNodesByType_expNodes_INPUT, List.length_map, List.length_range]
  · intro k row hk
    obtain ⟨c₂, hshape, hrow, hvals, hfix⟩ := hrows k row hk
    by_cases he : minterms outs = []
    · have hout := synth_row_out_degen n outs he hfix
      rw [hrow]
      rw [show getNodesByType (generateCircuit n outs) NodeType.OUTPUT
          = [mkOutputNode "OUTPUT_FINAL"] from by
        rw [circuit_eq_of_nodes (generateCircuit_nodes_empty he)]
        exact getNodesByType_degen_OUTPUT n]
      show [nodeValueById c₂ "OUTPUT_FINAL"] = _
      rw [hout, getD_false_of_no_minterms he]
    · have hout := synth_row_out n outs he hlen hvals hfix
      rw [hrow]
      rw [show getNodesByType (generateCircuit n outs) NodeType.OUTPUT
          = [expOut] from by
        rw [circuit_eq_of_nodes (generateCircuit_nodes he)]
        exact getNodesByType_expNodes_OUTPUT n outs]
      show [nodeValueById c₂ "OUTPUT"] = _
      rw [hout]

/-- C1 witness: the corrected round-trip theorem applied to `n = 1`,
`outs = [false, true]`. -/
theorem C1_witness :
    [false, true].length = 2 ^ 1 ∧
    (∃ rows, getTruthTable (generateCircuit 1 [false, true]) = rows ∧
      rows.length = 2 ^ 1 ∧
      ∀ k row, rows.get? k = some row →
        rowOutVals row = [[false, true].getD (bitRev 1 k) false]) :=
  ⟨by decide, C1_truth_table_round_trip 1 [false, true] (by decide)⟩

/-! ### C6 — synthesized circuits are acyclic -/

/-- C6: every synthesized circuit is acyclic, `evaluate` on it succeeds
(no CycleDetected, modelled as `isSome`) and its truth table is never
empty. -/
theorem C6_synthesized_acyclic (n : Nat) (outs : List Bool)
    (hlen : outs.length = 2 ^ n) :
    Acyclic (generateCircuit n outs)
      ∧ (evaluate (generateCircuit n outs)).isSome = true
      ∧ getTruthTable (generateCircuit n outs) ≠ [] := by
  have hwf := generateCircuit_wf n outs
  have hacyc := generateCircuit_acyclic n outs
  refine ⟨hacyc, ?_, ?_⟩
  · obtain ⟨ord, hord⟩ := evalOrder_isSome_of_acyclic hwf.1 hacyc
    rw [evaluate_eq, hord]
    rfl
  · obtain ⟨rows, heq, hlenr, _⟩ := getTruthTable_spec hwf hacyc
    rw [heq]
    intro hnil
    rw [hnil] at hlenr
    exact absurd hlenr.symm (Nat.pos_iff_ne_zero.mp (Nat.pos_pow_of_pos _ (by norm_num)))

/-- C6 witness: acyclicity and successful evaluation of the synthesized
circuit for `n = 1`, `outs = [false, true]`. -/
theorem C6_witness :
    [false, true].length = 2 ^ 1 ∧
    (Acyclic (generateCircuit 1 [false, true])
      ∧ (evaluate (generateCircuit 1 [false, true])).isSome = true
      ∧ getTruthTable (generateCircuit 1 [false, true]) ≠ []) :=
  ⟨by decide, C6_synthesized_acyclic 1 [false, true] (by decide)⟩

/-! ### C8 — gate counts of a synthesized circuit -/

/-- C8: for `k ≥ 1` minterms the synthesized circuit has exactly `k` AND
gates, one OR gate, one OUTPUT node, `n` INPUT nodes, one NOT gate per
zero bit per minterm (so at most `k·n` of them), and every AND gate has
exactly `n` inputs. -/
theorem C8_gate_counts (n : Nat) (outs : List Bool)
    (hk : 1 ≤ (minterms outs).length) :
    (getNodesByType (generateCircuit n outs) NodeType.AND).length
        = (minterms outs).length
      ∧ (getNodesByType (generateCircuit n outs) NodeType.OR).length = 1
      ∧ (getNodesByType (generateCircuit n outs) NodeType.OUTPUT).length = 1
      ∧ (getNodesByType (generateCircuit n outs) NodeType.INPUT).length = n
      ∧ (getNodesByType (generateCircuit n outs) NodeType.NOT).length
          = ((minterms outs).map (fun row => (notBits n row).length)).sum
      ∧ (getNodesByType (generateCircuit n outs) NodeType.NOT).length
          ≤ (minterms outs).length * n
      ∧ ∀ v ∈ getNodesByType (generateCircuit n outs) NodeType.AND,
          v.inputs.length = n := by
  have hne : minterms outs ≠ [] := by
    intro h
    rw [h] at hk
    simp at hk
  rw [circuit_eq_of_nodes (generateCircuit_nodes hne)]
  have hnotlen : (getNodesByType ⟨expNodes n outs⟩ NodeType.NOT).length
      = ((minterms outs).map (fun row => (notBits n row).length)).sum := by
    rw [getNodesByType_expNodes_NOT, List.length_flatten, List.map_map]
    rw [show (List.length ∘ fun p : Nat × Nat => (notBits n p.2).map (expNot p.1))
        = (fun p : Nat × Nat => (notBits n p.2).length)
      from funext (fun p => List.length_map _ _)]
    rw [show (fun p : Nat × Nat => (notBits n p.2).length)
        = ((fun row => (notBits n row).length) ∘ Prod.snd) from rfl]
    rw [← List.map_map, List.enum_map_snd]
  refine ⟨?_, ?_, ?_, ?_, hnotlen, ?_, ?_⟩
  · rw [getNodesByType_expNodes_AND, List.length_flatten, List.map_map]
    rw [show (List.length ∘ fun p : Nat × Nat => [expAnd n p.1 p.2])
        = (fun _ : Nat × Nat => 1) from rfl]
    rw [sum_map_one, List.enum_length]
  · rw [getNodesByType_expNodes_OR]
    rfl
  · rw [getNodesByType_expNodes_OUTPUT]
    rfl
  · rw [getNodesByType_expNodes_INPUT, List.length_map, List.length_range]
  · rw [hnotlen]
    have hb : ∀ x ∈ (minterms outs).map (fun row => (notBits n row).length), x ≤ n := by
      intro x hx
      obtain ⟨row, _, heq⟩ := List.mem_map.mp hx
      rw [← heq]
      calc (notBits n row).length ≤ (List.range n).length := List.length_filter_le _ _
        _ = n := List.length_range n
    calc ((minterms outs).map (fun row => (notBits n row).length)).sum
        ≤ ((minterms outs).map (fun row => (notBits n row).length)).length • n :=
          List.sum_le_card_nsmul _ n hb
      _ = (minterms outs).length * n := by
          rw [List.length_map, smul_eq_mul]
  · intro v hv
    rw [getNodesByType_expNodes_AND] at hv
    obtain ⟨l, hl, hvl⟩ := List.mem_flatten.mp hv
    obtain ⟨p, _, hlp⟩ := List.mem_map.mp hl
    rw [← hlp] at hvl
    rw [List.mem_singleton.mp hvl]
    show ((List.range n).map _).length = n
    rw [List.length_map, List.length_range]

/-- C8 witness: the gate-count law at `n = 2`, `outs = [F,T,T,F]`
(two minterms). -/
theorem C8_witness :
    1 ≤ (minterms [false, true, true, false]).length ∧
    ((getNodesByType (generateCircuit 2 [false, true, true, false]) NodeType.AND).length
        = (minterms [false, true, true, false]).length
      ∧ (getNodesByType (generateCircuit 2 [false, true, true, false]) NodeType.OR).length = 1
      ∧ (getNodesByType (generateCircuit 2 [false, true, true, false])
          NodeType.OUTPUT).length = 1
      ∧ (getNodesByType (generateCircuit 2 [false, true, true, false])
          NodeType.INPUT).length = 2
      ∧ (getNodesByType (generateCircuit 2 [false, true, true, false]) NodeType.NOT).length
          = ((minterms [false, true, true, false]).map
              (fun row => (notBits 2 row).length)).sum
      ∧ (getNodesByType (generateCircuit 2 [false, true, true, false]) NodeType.NOT).length
          ≤ (minterms [false, true, true, false]).length * 2
      ∧ ∀ v ∈ getNodesByType (generateCircuit 2 [false, true, true, false]) NodeType.AND,
          v.inputs.length = 2) :=
  ⟨by decide, C8_gate_counts 2 [false, true, true, false] (by decide)⟩

/-! ### C9 — the constant-false synthesis (corrected: the INPUT nodes are
kept; only the OUTPUT node is new, disconnected, and evaluates to false) -/

/-- C9 counterexample: `generateCircuit 1 [false, false]` does not contain
only a single OUTPUT node — its node list is an INPUT node followed by the
OUTPUT node. -/
theorem C9_counterexample :
    (generateCircuit 1 [false, false]).nodes.map (fun v => v.type)
        = [NodeType.INPUT, NodeType.OUTPUT]
      ∧ [NodeType.INPUT, NodeType.OUTPUT] ≠ [NodeType.OUTPUT] := by
  constructor
  · rfl
  · decide

/-- C9 (corrected): on a constant-false vector the synthesized circuit
consists of the `n` INPUT nodes plus a single disconnected
`OUTPUT_FINAL` node (no edges at all), and evaluation succeeds with the
OUTPUT node reading false. -/
theorem C9_constant_false (n : Nat) (outs : List Bool)
    (he : minterms outs = []) :
    (generateCircuit n outs).nodes
        = (List.range n).map (fun b => mkInputNode (mkInputId b))
          ++ [mkOutputNode "OUTPUT_FINAL"]
      ∧ (mkOutputNode "OUTPUT_FINAL").inputs = []
      ∧ (mkOutputNode "OUTPUT_FINAL").outputs = []
      ∧ ∃ c', evaluate (generateCircuit n outs) = some c'
          ∧ nodeValueById c' "OUTPUT_FINAL" = false := by
  refine ⟨generateCircuit_nodes_empty he, rfl, rfl, ?_⟩
  have hwf := generateCircuit_wf n outs
  obtain ⟨ord, hord⟩ :=
    evalOrder_isSome_of_acyclic hwf.1 (generateCircuit_acyclic n outs)
  have heval : evaluate (generateCircuit n outs)
      = some (ord.foldl evalStep (generateCircuit n outs)) := by
    rw [evaluate_eq, hord]
    rfl
  refine ⟨_, heval, ?_⟩
  obtain ⟨_, _, hfix⟩ := evaluate_spec hwf heval
  exact synth_row_out_degen n outs he hfix

/-- C9 witness: the corrected degenerate-synthesis theorem at `n = 1`,
`outs = [false, false]`. -/
theorem C9_witness :
    minterms [false, false] = [] ∧
    ((generateCircuit 1 [false, false]).nodes
        = (List.range 1).map (fun b => mkInputNode (mkInputId b))
          ++ [mkOutputNode "OUTPUT_FINAL"]
      ∧ (mkOutputNode "OUTPUT_FINAL").inputs = []
      ∧ (mkOutputNode "OUTPUT_FINAL").outputs = []
      ∧ ∃ c', evaluate (generateCircuit 1 [false, false]) = some c'
          ∧ nodeValueById c' "OUTPUT_FINAL" = false) :=
  ⟨by decide, C9_constant_false 1 [false, false] (by decide)⟩

/-! ### Y. The object-level mutation invariant (C10) -/

theorem length_modifyRef (a : List ONode) (r : Nat) (f : ONode → ONode) :
    (modifyRef a r f).length = a.length := by
  unfold modifyRef
  exact List.length_set a r _

theorem getD_modify_self {a : List ONode} {r : Nat} (h : r < a.length)
    (f : ONode → ONode) :
    (modifyRef a r f).getD r dummyONode = f (a.getD r dummyONode) := by
  unfold modifyRef
  rw [List.getD_eq_getElem?_getD, List.getElem?_set_self (by simpa using h)]
  rfl

theorem getD_modify_ne {a : List ONode} {r s : Nat} (h : s ≠ r)
    (f : ONode → ONode) :
    (modifyRef a r f).getD s dummyONode = a.getD s dummyONode := by
  unfold modifyRef
  rw [List.getD_eq_getElem?_getD, List.getElem?_set_ne (fun he => h he.symm),
    ← List.getD_eq_getElem?_getD]

theorem oAddInput_inv {w : World} (hw : WorldInv w) {s t : Nat}
    (hs : s < w.arena.length) (ht : t < w.arena.length) :
    WorldInv (oAddInput w s t) := by
  obtain ⟨hnd, hsym, hkeys⟩ := hw
  unfold oAddInput
  by_cases hmem : t ∈ (oget w s).inputs
  · rw [if_pos hmem]
    exact ⟨hnd, hsym, hkeys⟩
  · rw [if_neg hmem]
    set A' := modifyRef (modifyRef w.arena s (fun nd => { nd with inputs := nd.inputs ++ [t] }))
      t (fun nd => { nd with outputs := nd.outputs ++ [s] }) with hA'
    have hlen' : A'.length = w.arena.length := by
      rw [hA', length_modifyRef, length_modifyRef]
    have hin : ∀ x, (A'.getD x dummyONode).inputs
        = if x = s then (oget w s).inputs ++ [t] else (oget w x).inputs := by
      intro x
      rw [hA']
      by_cases hxt : x = t
      · subst hxt
        rw [getD_modify_self (by rw [length_modifyRef]; exact ht)]
        by_cases hts : x = s
        · subst hts
          rw [getD_modify_self hs, if_pos rfl]
          rfl
        · rw [getD_modify_ne hts, if_neg hts]
          rfl
      · rw [getD_modify_ne hxt]
        by_cases hxs : x = s
        · subst hxs
          rw [getD_modify_self hs, if_pos rfl]
          rfl
        · rw [getD_modify_ne hxs, if_neg hxs]
          rfl
    have hout : ∀ x, (A'.getD x dummyONode).outputs
        = if x = t then (oget w t).outputs ++ [s] else (oget w x).outputs := by
      intro x
      rw [hA']
      by_cases hxt : x = t
      · subst hxt
        rw [getD_modify_self (by rw [length_modifyRef]; exact ht), if_pos rfl]
        by_cases hts : x = s
        · subst hts
          rw [getD_modify_self hs]
          rfl
        · rw [getD_modify_ne hts]
          rfl
      · rw [getD_modify_ne hxt, if_neg hxt]
        by_cases hxs : x = s
        · subst hxs
          rw [getD_modify_self hs]
          rfl
        · rw [getD_modify_ne hxs]
          rfl
    have hsnotin : s ∉ (oget w t).outputs := by
      intro hc
      exact hmem ((hsym t ht s hs).mpr hc)
    refine ⟨?_, ?_, ?_⟩
    · intro nd hnd'
      obtain ⟨x, hx, hgx⟩ := List.mem_iff_getElem.mp hnd'
      have hxl : x < w.arena.length := by
        rw [← hlen']
        exact hx
      have hget : A'.getD x dummyONode = nd := by
        rw [List.getD_eq_getElem _ _ hx]
        exact hgx
      obtain ⟨hnd1, hnd2, hnd3, hnd4⟩ := hnd (w.arena.getD x dummyONode)
        (by rw [List.getD_eq_getElem _ _ hxl]; exact List.getElem_mem hxl)
      rw [← hget]
      refine ⟨?_, ?_, ?_, ?_⟩
      · rw [hin]
        by_cases hxs : x = s
        · subst hxs
          rw [if_pos rfl, List.nodup_append]
          refine ⟨hnd1, List.nodup_singleton t, ?_⟩
          intro z hz hz2
          rw [List.mem_singleton.mp hz2] at hz
          exact hmem hz
        · rw [if_neg hxs]
          exact hnd1
      · rw [hout]
        by_cases hxt : x = t
        · subst hxt
          rw [if_pos rfl, List.nodup_append]
          refine ⟨hnd2, List.nodup_singleton s, ?_⟩
          intro z hz hz2
          rw [List.mem_singleton.mp hz2] at hz
          exact hsnotin hz
        · rw [if_neg hxt]
          exact hnd2
      · intro r hr
        show r < A'.length
        rw [hlen']
        rw [hin] at hr
        by_cases hxs : x = s
        · rw [if_pos hxs] at hr
          rcases List.mem_append.mp hr with h1 | h1
          · exact hnd3 r (by rw [hxs]; exact h1)
          · rw [List.mem_singleton.mp h1]
            exact ht
        · rw [if_neg hxs] at hr
          exact hnd3 r hr
      · intro r hr
        show r < A'.length
        rw [hlen']
        rw [hout] at hr
        by_cases hxt : x = t
        · rw [if_pos hxt] at hr
          rcases List.mem_append.mp hr with h1 | h1
          · exact hnd4 r (by rw [hxt]; exact h1)
          · rw [List.mem_singleton.mp h1]
            exact hs
        · rw [if_neg hxt] at hr
          exact hnd4 r hr
    · intro a ha b hb
      have ha' : a < w.arena.length := by
        rw [← hlen']
        exact ha
      have hb' : b < w.arena.length := by
        rw [← hlen']
        exact hb
      show a ∈ (A'.getD b dummyONode).inputs ↔ b ∈ (A'.getD a dummyONode).outputs
      rw [hin, hout]
      by_cases hbs : b = s
      · subst hbs
        rw [if_pos rfl]
        by_cases hat : a = t
        · subst hat
          rw [if_pos rfl]
          constructor
          · intro _
            exact List.mem_append.mpr (Or.inr (List.mem_singleton.mpr rfl))
          · intro _
            exact List.mem_append.mpr (Or.inr (List.mem_singleton.mpr rfl))
        · rw [if_neg hat]
          constructor
          · intro h
            rcases List.mem_append.mp h with h1 | h1
            · exact (hsym a ha' b hb').mp h1
            · exact absurd (List.mem_singleton.mp h1) hat
          · intro h
            exact List.mem_append.mpr (Or.inl ((hsym a ha' b hb').mpr h))
      · rw [if_neg hbs]
        by_cases hat : a = t
        · subst hat
          rw [if_pos rfl]
          constructor
          · intro h
            exact List.mem_append.mpr (Or.inl ((hsym a ha' b hb').mp h))
          · intro h
            rcases List.mem_append.mp h with h1 | h1
            · exact (hsym a ha' b hb').mpr h1
            · exact absurd (List.mem_singleton.mp h1) hbs
        · rw [if_neg hat]
          exact hsym a ha' b hb'
    · intro p hp
      show p.2 < A'.length
      rw [hlen']
      exact hkeys p hp

theorem oRemoveInput_inv {w : World} (hw : WorldInv w) (s t : Nat) :
    WorldInv (oRemoveInput w s t) := by
  obtain ⟨hnd, hsym, hkeys⟩ := hw
  have hnode : ∀ x, x < w.arena.length →
      (oget w x).inputs.Nodup ∧ (oget w x).outputs.Nodup ∧
      (∀ r ∈ (oget w x).inputs, r < w.arena.length) ∧
      (∀ r ∈ (oget w x).outputs, r < w.arena.length) := by
    intro x hx
    exact hnd _ (by unfold oget; rw [List.getD_eq_getElem _ _ hx]; exact List.getElem_mem hx)
  unfold oRemoveInput
  by_cases hmem : t ∈ (oget w s).inputs
  · rw [if_pos hmem]
    have hs : s < w.arena.length := by
      by_contra hns
      have hdum : oget w s = dummyONode := by
        unfold oget
        exact List.getD_eq_default _ _ (by omega)
      rw [hdum] at hmem
      exact absurd hmem (List.not_mem_nil t)
    have ht : t < w.arena.length := (hnode s hs).2.2.1 t hmem
    set A' := modifyRef (modifyRef w.arena s (fun nd => { nd with inputs := nd.inputs.erase t }))
      t (fun nd => { nd with outputs := nd.outputs.erase s }) with hA'
    have hlen' : A'.length = w.arena.length := by
      rw [hA', length_modifyRef, length_modifyRef]
    have hin : ∀ x, (A'.getD x dummyONode).inputs
        = if x = s then (oget w s).inputs.erase t else (oget w x).inputs := by
      intro x
      rw [hA']
      by_cases hxt : x = t
      · subst hxt
        rw [getD_modify_self (by rw [length_modifyRef]; exact ht)]
        by_cases hts : x = s
        · subst hts
          rw [getD_modify_self hs, if_pos rfl]
          rfl
        · rw [getD_modify_ne hts, if_neg hts]
          rfl
      · rw [getD_modify_ne hxt]
        by_cases hxs : x = s
        · subst hxs
          rw [getD_modify_self hs, if_pos rfl]
          rfl
        · rw [getD_modify_ne hxs, if_neg hxs]
          rfl
    have hout : ∀ x, (A'.getD x dummyONode).outputs
        = if x = t then (oget w t).outputs.erase s else (oget w x).outputs := by
      intro x
      rw [hA']
      by_cases hxt : x = t
      · subst hxt
        rw [getD_modify_self (by rw [length_modifyRef]; exact ht), if_pos rfl]
        by_cases hts : x = s
        · subst hts
          rw [getD_modify_self hs]
          rfl
        · rw [getD_modify_ne hts]
          rfl
      · rw [getD_modify_ne hxt, if_neg hxt]
        by_cases hxs : x = s
        · subst hxs
          rw [getD_modify_self hs]
          rfl
        · rw [getD_modify_ne hxs]
          rfl
    refine ⟨?_, ?_, ?_⟩
    · intro nd hnd'
      obtain ⟨x, hx, hgx⟩ := List.mem_iff_getElem.mp hnd'
      have hxl : x < w.arena.length := by
        rw [← hlen']
        exact hx
      have hget : A'.getD x dummyONode = nd := by
        rw [List.getD_eq_getElem _ _ hx]
        exact hgx
      obtain ⟨hnd1, hnd2, hnd3, hnd4⟩ := hnode x hxl
      rw [← hget]
      refine ⟨?_, ?_, ?_, ?_⟩
      · rw [hin]
        by_cases hxs : x = s
        · rw [if_pos hxs]
          exact List.Nodup.erase t (hnode s hs).1
        · rw [if_neg hxs]
          exact hnd1
      · rw [hout]
        by_cases hxt : x = t
        · rw [if_pos hxt]
          exact List.Nodup.erase s (hnode t ht).2.1
        · rw [if_neg hxt]
          exact hnd2
      · intro r hr
        show r < A'.length
        rw [hlen']
        rw [hin] at hr
        by_cases hxs : x = s
        · rw [if_pos hxs] at hr
          exact (hnode s hs).2.2.1 r (List.mem_of_mem_erase hr)
        · rw [if_neg hxs] at hr
          exact hnd3 r hr
      · intro r hr
        show r < A'.length
        rw [hlen']
        rw [hout] at hr
        by_cases hxt : x = t
        · rw [if_pos hxt] at hr
          exact (hnode t ht).2.2.2 r (List.mem_of_mem_erase hr)
        · rw [if_neg hxt] at hr
          exact hnd4 r hr
    · intro a ha b hb
      have ha' : a < w.arena.length := by
        rw [← hlen']
        exact ha
      have hb' : b < w.arena.length := by
        rw [← hlen']
        exact hb
      show a ∈ (A'.getD b dummyONode).inputs ↔ b ∈ (A'.getD a dummyONode).outputs
      rw [hin, hout]
      by_cases hbs : b = s
      · subst hbs
        rw [if_pos rfl]
        by_cases hat : a = t
        · subst hat
          rw [if_pos rfl]
          exact iff_of_false (List.Nodup.not_mem_erase (hnode b hb').1)
            (List.Nodup.not_mem_erase (hnode a ha').2.1)
        · rw [if_neg hat]
          rw [List.Nodup.mem_erase_iff (hnode b hb').1]
          constructor
          · intro h
            exact (hsym a ha' b hb').mp h.2
          · intro h
            exact ⟨hat, (hsym a ha' b hb').mpr h⟩
      · rw [if_neg hbs]
        by_cases hat : a = t
        · subst hat
          rw [if_pos rfl]
          rw [List.Nodup.mem_erase_iff (hnode a ha').2.1]
          constructor
          · intro h
            exact ⟨hbs, (hsym a ha' b hb').mp h⟩
          · intro h
            exact (hsym a ha' b hb').mpr h.2
        · rw [if_neg hat]
          exact hsym a ha' b hb'
    · intro p hp
      show p.2 < A'.length
      rw [hlen']
      exact hkeys p hp
  · rw [if_neg hmem]
    exact ⟨hnd, hsym, hkeys⟩

theorem fold_removeInput_inv_left (r : Nat) :
    ∀ (l : List Nat) (w : World), WorldInv w →
    WorldInv (l.foldl (fun w' i => oRemoveInput w' r i) w) := by
  intro l
  induction l with
  | nil => intro w hw; exact hw
  | cons i l ih =>
    intro w hw
    rw [List.foldl_cons]
    exact ih _ (oRemoveInput_inv hw r i)

theorem fold_removeInput_inv_right (r : Nat) :
    ∀ (l : List Nat) (w : World), WorldInv w →
    WorldInv (l.foldl (fun w' o => oRemoveInput w' o r) w) := by
  intro l
  induction l with
  | nil => intro w hw; exact hw
  | cons o l ih =>
    intro w hw
    rw [List.foldl_cons]
    exact ih _ (oRemoveInput_inv hw o r)

theorem length_oRemoveInput (w : World) (s t : Nat) :
    (oRemoveInput w s t).arena.length = w.arena.length := by
  unfold oRemoveInput
  split
  · simp [length_modifyRef]
  · rfl

theorem keys_oRemoveInput (w : World) (s t : Nat) :
    (oRemoveInput w s t).keys = w.keys := by
  unfold oRemoveInput
  split <;> rfl

theorem fold_removeInput_len_left (r : Nat) :
    ∀ (l : List Nat) (w : World),
    (l.foldl (fun w' i => oRemoveInput w' r i) w).arena.length = w.arena.length := by
  intro l
  induction l with
  | nil => intro w; rfl
  | cons i l ih =>
    intro w
    rw [List.foldl_cons, ih, length_oRemoveInput]

theorem fold_removeInput_len_right (r : Nat) :
    ∀ (l : List Nat) (w : World),
    (l.foldl (fun w' o => oRemoveInput w' o r) w).arena.length = w.arena.length := by
  intro l
  induction l with
  | nil => intro w; rfl
  | cons o l ih =>
    intro w
    rw [List.foldl_cons, ih, length_oRemoveInput]

theorem fold_removeInput_keys_left (r : Nat) :
    ∀ (l : List Nat) (w : World),
    (l.foldl (fun w' i => oRemoveInput w' r i) w).keys = w.keys := by
  intro l
  induction l with
  | nil => intro w; rfl
  | cons i l ih =>
    intro w
    rw [List.foldl_cons, ih, keys_oRemoveInput]

theorem fold_removeInput_keys_right (r : Nat) :
    ∀ (l : List Nat) (w : World),
    (l.foldl (fun w' o => oRemoveInput w' o r) w).keys = w.keys := by
  intro l
  induction l with
  | nil => intro w; rfl
  | cons o l ih =>
    intro w
    rw [List.foldl_cons, ih, keys_oRemoveInput]

theorem oRemoveInput_self_inputs {w : World} {r i : Nat} (hr : r < w.arena.length) :
    (oget (oRemoveInput w r i) r).inputs = (oget w r).inputs.erase i := by
  unfold oRemoveInput
  by_cases hmem : i ∈ (oget w r).inputs
  · rw [if_pos hmem]
    have key : ((modifyRef (modifyRef w.arena r (fun n => { n with inputs := n.inputs.erase i }))
        i (fun n => { n with outputs := n.outputs.erase r })).getD r dummyONode).inputs
        = (oget w r).inputs.erase i := by
      by_cases hri : r = i
      · subst hri
        rw [getD_modify_self (by rw [length_modifyRef]; exact hr)]
        rw [getD_modify_self hr]
        rfl
      · rw [getD_modify_ne hri]
        rw [getD_modify_self hr]
        rfl
    exact key
  · rw [if_neg hmem]
    exact (List.erase_of_not_mem hmem).symm

theorem oRemoveInput_other_outputs {w : World} (hw : WorldInv w) {o r : Nat}
    (hr : r < w.arena.length) :
    (oget (oRemoveInput w o r) r).outputs = (oget w r).outputs.erase o := by
  obtain ⟨hnd1, hsym1, _⟩ := hw
  unfold oRemoveInput
  by_cases hmem : r ∈ (oget w o).inputs
  · rw [if_pos hmem]
    have key : ((modifyRef (modifyRef w.arena o (fun n => { n with inputs := n.inputs.erase r }))
        r (fun n => { n with outputs := n.outputs.erase o })).getD r dummyONode).outputs
        = (oget w r).outputs.erase o := by
      rw [getD_modify_self (by rw [length_modifyRef]; exact hr)]
      by_cases hro : r = o
      · subst hro
        rw [getD_modify_self hr]
        rfl
      · rw [getD_modify_ne hro]
        rfl
    exact key
  · rw [if_neg hmem]
    have hno : o ∉ (oget w r).outputs := by
      intro hc
      have ho : o < w.arena.length :=
        (hnd1 (oget w r) (by
          unfold oget
          rw [List.getD_eq_getElem _ _ hr]
          exact List.getElem_mem hr)).2.2.2 o hc
      exact hmem ((hsym1 r hr o ho).mpr hc)
    exact (List.erase_of_not_mem hno).symm

theorem oRemoveInput_keeps_empty_inputs {w : World} {o r : Nat}
    (h : (oget w r).inputs = []) : (oget (oRemoveInput w o r) r).inputs = [] := by
  unfold oRemoveInput
  by_cases hmem : r ∈ (oget w o).inputs
  · rw [if_pos hmem]
    have key : ((modifyRef (modifyRef w.arena o (fun n => { n with inputs := n.inputs.erase r }))
        r (fun n => { n with outputs := n.outputs.erase o })).getD r dummyONode).inputs
        = [] := by
      by_cases hrlen : r < w.arena.length
      · rw [getD_modify_self (by rw [length_modifyRef]; exact hrlen)]
        by_cases hro : r = o
        · subst hro
          rw [getD_modify_self hrlen]
          show (oget w r).inputs.erase r = []
          rw [h]
          rfl
        · rw [getD_modify_ne hro]
          show (oget w r).inputs = []
          exact h
      · rw [List.getD_eq_default _ _ (by
          rw [length_modifyRef, length_modifyRef]
          omega)]
        rfl
    exact key
  · rw [if_neg hmem]
    exact h

theorem fold_erase_drop (r : Nat) :
    ∀ (l : List Nat) (w : World), WorldInv w → r < w.arena.length →
    (oget w r).inputs = l →
    (oget (l.foldl (fun w' i => oRemoveInput w' r i) w) r).inputs = [] := by
  intro l
  induction l with
  | nil =>
    intro w _ _ h
    rw [List.foldl_nil]
    exact h
  | cons i l ih =>
    intro w hw hr h
    rw [List.foldl_cons]
    apply ih _ (oRemoveInput_inv hw r i) (by rw [length_oRemoveInput]; exact hr)
    rw [oRemoveInput_self_inputs hr, h, List.erase_cons_head]

theorem fold_keeps_empty_inputs (r : Nat) :
    ∀ (l : List Nat) (w : World), (oget w r).inputs = [] →
    (oget (l.foldl (fun w' o => oRemoveInput w' o r) w) r).inputs = [] := by
  intro l
  induction l with
  | nil =>
    intro w h
    rw [List.foldl_nil]
    exact h
  | cons o l ih =>
    intro w h
    rw [List.foldl_cons]
    exact ih _ (oRemoveInput_keeps_empty_inputs h)

theorem fold_erase_drop_out (r : Nat) :
    ∀ (l : List Nat) (w : World), WorldInv w → r < w.arena.length →
    (oget w r).outputs = l →
    (oget (l.foldl (fun w' o => oRemoveInput w' o r) w) r).outputs = [] := by
  intro l
  induction l with
  | nil =>
    intro w _ _ h
    rw [List.foldl_nil]
    exact h
  | cons o l ih =>
    intro w hw hr h
    rw [List.foldl_cons]
    apply ih _ (oRemoveInput_inv hw o r) (by rw [length_oRemoveInput]; exact hr)
    rw [oRemoveInput_other_outputs hw hr, h, List.erase_cons_head]

theorem mem_setAssoc {ks : List (String × Nat)} {k : String} {r : Nat} {p : String × Nat}
    (hp : p ∈ setAssoc ks k r) : p ∈ ks ∨ p = (k, r) := by
  induction ks with
  | nil =>
    exact Or.inr (List.mem_singleton.mp hp)
  | cons q ks ih =>
    simp only [setAssoc] at hp
    by_cases hq : q.1 = k
    · rw [if_pos hq] at hp
      rcases List.mem_cons.mp hp with h | h
      · exact Or.inr h
      · exact Or.inl (List.mem_cons.mpr (Or.inr h))
    · rw [if_neg hq] at hp
      rcases List.mem_cons.mp hp with h | h
      · rw [h]
        exact Or.inl (List.mem_cons_self _ _)
      · rcases ih h with h2 | h2
        · exact Or.inl (List.mem_cons.mpr (Or.inr h2))
        · exact Or.inr h2

theorem mem_delAssoc {ks : List (String × Nat)} {k : String} {p : String × Nat}
    (hp : p ∈ delAssoc ks k) : p ∈ ks := by
  induction ks with
  | nil => exact absurd hp (List.not_mem_nil p)
  | cons q ks ih =>
    simp only [delAssoc] at hp
    by_cases hq : q.1 = k
    · rw [if_pos hq] at hp
      exact List.mem_cons.mpr (Or.inr hp)
    · rw [if_neg hq] at hp
      rcases List.mem_cons.mp hp with h | h
      · rw [h]
        exact List.mem_cons_self _ _
      · exact List.mem_cons.mpr (Or.inr (ih h))

theorem lookupAssoc_lt {w : World} (hw : WorldInv w) {k : String} {r : Nat}
    (h : lookupAssoc w.keys k = some r) : r < w.arena.length := by
  unfold lookupAssoc at h
  rcases Option.map_eq_some'.mp h with ⟨p, hfind, hpr⟩
  rw [← hpr]
  exact hw.2.2 p (List.mem_of_find?_eq_some hfind)

theorem oAddNode_inv {w : World} (hw : WorldInv w) {r : Nat}
    (hr : r < w.arena.length) : WorldInv (oAddNode w r) := by
  obtain ⟨hnd, hsym, hkeys⟩ := hw
  refine ⟨hnd, hsym, ?_⟩
  intro p hp
  rcases mem_setAssoc hp with h | h
  · exact hkeys p h
  · rw [h]
    exact hr

theorem oAddConnection_inv {w : World} (hw : WorldInv w) (fromId toId : String) :
    WorldInv (oAddConnection w fromId toId) := by
  unfold oAddConnection
  cases hf : lookupAssoc w.keys fromId with
  | none => exact hw
  | some f =>
    cases ht : lookupAssoc w.keys toId with
    | none => exact hw
    | some t_ => exact oAddInput_inv hw (lookupAssoc_lt hw ht) (lookupAssoc_lt hw hf)

theorem oRemoveNode_spec {w : World} (hw : WorldInv w) (id : String) :
    WorldInv (oRemoveNode w id) ∧
    (∀ r, lookupAssoc w.keys id = some r →
      (oget (oRemoveNode w id) r).inputs = [] ∧
      (oget (oRemoveNode w id) r).outputs = [] ∧
      (∀ x, x < (oRemoveNode w id).arena.length →
        r ∉ (oget (oRemoveNode w id) x).inputs ∧
        r ∉ (oget (oRemoveNode w id) x).outputs)) := by
  cases hl : lookupAssoc w.keys id with
  | none =>
    have hred : oRemoveNode w id = w := by
      unfold oRemoveNode
      rw [hl]
    rw [hred]
    refine ⟨hw, ?_⟩
    intro r hr
    exact absurd hr (by simp)
  | some r0 =>
    have hr0 : r0 < w.arena.length := lookupAssoc_lt hw hl
    set W1 := (oget w r0).inputs.foldl (fun w' i => oRemoveInput w' r0 i) w with hW1
    set W2 := (oget W1 r0).outputs.foldl (fun w' o => oRemoveInput w' o r0) W1 with hW2
    have hred : oRemoveNode w id = ⟨W2.arena, delAssoc W2.keys id⟩ := by
      unfold oRemoveNode
      rw [hl]
    rw [hred]
    have hwf1 : WorldInv W1 := fold_removeInput_inv_left r0 _ w hw
    have hwf2 : WorldInv W2 := fold_removeInput_inv_right r0 _ W1 hwf1
    have hlen1 : W1.arena.length = w.arena.length := fold_removeInput_len_left r0 _ w
    have hlen2 : W2.arena.length = w.arena.length := by
      rw [hW2, fold_removeInput_len_right, hlen1]
    have hkeys2 : W2.keys = w.keys := by
      rw [hW2, fold_removeInput_keys_right, hW1, fold_removeInput_keys_left]
    have hin1 : (oget W1 r0).inputs = [] :=
      fold_erase_drop r0 _ w hw hr0 rfl
    have hin2 : (oget W2 r0).inputs = [] :=
      fold_keeps_empty_inputs r0 _ W1 hin1
    have hout2 : (oget W2 r0).outputs = [] :=
      fold_erase_drop_out r0 _ W1 hwf1 (by rw [hlen1]; exact hr0) rfl
    obtain ⟨hnd2, hsym2, hkeysinv2⟩ := hwf2
    have hfinal : WorldInv ⟨W2.arena, delAssoc W2.keys id⟩ := by
      refine ⟨hnd2, hsym2, ?_⟩
      intro p hp
      exact hkeysinv2 p (mem_delAssoc hp)
    refine ⟨hfinal, ?_⟩
    intro r hr
    injection hr with hr
    subst hr
    refine ⟨hin2, hout2, ?_⟩
    intro x hx
    have hx2 : x < W2.arena.length := hx
    have hr02 : r0 < W2.arena.length := by
      rw [hlen2]
      exact hr0
    constructor
    · intro hc
      have h5 := (hsym2 r0 hr02 x hx2).mp hc
      rw [hout2] at h5
      exact absurd h5 (List.not_mem_nil x)
    · intro hc
      have h5 := (hsym2 x hx2 r0 hr02).mpr hc
      rw [hin2] at h5
      exact absurd h5 (List.not_mem_nil x)

/-- C10: every public mutation operation (`addInput`, `removeInput`,
`addConnection`, `addNode`, `removeNode`) preserves the edge-representation
invariant `WorldInv` — an edge A→B exists iff B's input list contains A and
A's output list contains B, both lists are duplicate-free (no ordered pair
recorded twice), and every recorded reference stays inside the arena / node
map — and `removeNode` additionally severs all edges touching the removed
node from both sides: afterwards its own edge lists are empty and no other
node's list mentions it. -/
theorem C10_edge_invariant {w : World} (hw : WorldInv w) :
    (∀ s t, s < w.arena.length → t < w.arena.length → WorldInv (oAddInput w s t)) ∧
    (∀ s t, WorldInv (oRemoveInput w s t)) ∧
    (∀ fromId toId, WorldInv (oAddConnection w fromId toId)) ∧
    (∀ r, r < w.arena.length → WorldInv (oAddNode w r)) ∧
    (∀ id, WorldInv (oRemoveNode w id) ∧
      (∀ r, lookupAssoc w.keys id = some r →
        (oget (oRemoveNode w id) r).inputs = [] ∧
        (oget (oRemoveNode w id) r).outputs = [] ∧
        (∀ x, x < (oRemoveNode w id).arena.length →
          r ∉ (oget (oRemoveNode w id) x).inputs ∧
          r ∉ (oget (oRemoveNode w id) x).outputs))) :=
  ⟨fun _ _ hs ht => oAddInput_inv hw hs ht,
    fun s t => oRemoveInput_inv hw s t,
    fun f t => oAddConnection_inv hw f t,
    fun _ hr => oAddNode_inv hw hr,
    fun id => oRemoveNode_spec hw id⟩

theorem C10_witness :
    WorldInv (World.mk
      [ONode.mk "A" NodeType.INPUT [] [1] false "",
       ONode.mk "B" NodeType.OUTPUT [0] [] false ""]
      [("A", 0), ("B", 1)]) ∧
    WorldInv (oRemoveNode (World.mk
      [ONode.mk "A" NodeType.INPUT [] [1] false "",
       ONode.mk "B" NodeType.OUTPUT [0] [] false ""]
      [("A", 0), ("B", 1)]) "A") :=
  ⟨by decide, ((C10_edge_invariant (by decide)).2.2.2.2 "A").1⟩

end LogicGateSim
